import Mathlib

/-!
OpenCPN network NMEA 2000 driver: ring buffer, envelope encoding, frame handling

A shallow embedding of `model/src/comm_drv_n2k_net.cpp` and of the function
`ProcessNMEA4Tags` of `src/comm_util.cpp`:

* `circular_buffer` (`put`, `get`, `empty`, `full`),
* `CommDriverN2KNet::PushCompleteMsg`, `PushFastMsgFragment`, `HandleInput`,
  `handle_N2K_MSG`, and the line tokenizer of `OnSocketEvent`,
* the fast message table `FastMessageMap` those functions work on,
* `ProcessNMEA4Tags`, with `wxString` as the list of its characters.

Bytes (`unsigned char`) are `UInt8`; `int` is `Int`; `unsigned int` and `size_t`
values are `Nat`, reduced modulo the width where an operation of the source can
wrap.  In the encoders and handlers, code whose behaviour is undefined in C++ (an
index past the end of a `std::vector`) or that throws (`std::vector::at`) returns
`none`.  The ring buffer is total: its indices stay inside the array in every
state that satisfies `circular_buffer.WellFormed`, which `create`, `put` and `get`
establish and keep for a capacity of at least 1.

The bodies of the `FastMessageMap` methods, of `CanHeader(frame)` and of
`IsFastMessage()` are not part of the source file.  The table methods are
modelled from §4.2 of the specification; the header decoder and the fast message
test are parameters of `HandleInput`.

Clock readings are tick counts of nanoseconds; the differences and comparisons
that the source makes on `TimePoint` values are computed in double precision,
rounded as IEEE 754 binary64 does.  The line tokenizer of `OnSocketEvent` uses
`wxStringTokenizer` and `wxString::ToUInt` of wxWidgets, which are modelled from
their documented behaviour; a local variable that the source does not initialise
is a parameter.
-/

namespace OpenCPN

/-! ## The ring buffer -/

/-- The class `circular_buffer` (of `unsigned char`): the array `buf_`, the indices
`head_` and `tail_`, the capacity `max_size_` and the flag `full_`.  The mutex only
serialises the calls and is not part of the state. -/
structure circular_buffer where
  buf_ : List UInt8
  head_ : Nat
  tail_ : Nat
  max_size_ : Nat
  full_ : Bool

namespace circular_buffer

/-- The constructor `circular_buffer(size)` with `size = mem.length`: `buf_` is a new
array of `size` bytes, whose indeterminate content is `mem`; `max_size_` is `size`;
`head_`, `tail_` and `full_` have their defaults 0, 0 and false. -/
def create (mem : List UInt8) : circular_buffer :=
  { buf_ := mem, head_ := 0, tail_ := 0, max_size_ := mem.length, full_ := false }

/-- The method `circular_buffer::empty()`: `!full_ && (head_ == tail_)`. -/
def empty (s : circular_buffer) : Bool :=
  !s.full_ && decide (s.head_ = s.tail_)

/-- The method `circular_buffer::full()`: the flag `full_`. -/
def full (s : circular_buffer) : Bool := s.full_

/-- The method `circular_buffer::put(item)`.  The indices are below `max_size_`, so the
`size_t` additions do not wrap. -/
def put (s : circular_buffer) (item : UInt8) : circular_buffer :=
  let buf := s.buf_.set s.head_ item
  let tail := if s.full_ then (s.tail_ + 1) % s.max_size_ else s.tail_
  let head := (s.head_ + 1) % s.max_size_
  { buf_ := buf, head_ := head, tail_ := tail, max_size_ := s.max_size_,
    full_ := decide (head = tail) }

/-- The method `circular_buffer::get()`: the byte returned and the buffer afterwards. -/
def get (s : circular_buffer) : UInt8 × circular_buffer :=
  if s.empty then (0, s)
  else
    (s.buf_.getD s.tail_ 0,
      { s with full_ := false, tail_ := (s.tail_ + 1) % s.max_size_ })

/-- Calling `put` for each byte of `items`, first to last, as the receive loop of
`OnSocketEvent` does. -/
def putAll (s : circular_buffer) (items : List UInt8) : circular_buffer :=
  items.foldl put s

/-- Calling `get` `n` times: the bytes returned, in order, and the buffer afterwards. -/
def getN : Nat → circular_buffer → List UInt8 × circular_buffer
  | 0, s => ([], s)
  | n + 1, s => ((s.get).1 :: (getN n (s.get).2).1, (getN n (s.get).2).2)

/-- The number of bytes stored: the capacity when `full_` is set, the distance from
`tail_` to `head_` around the ring otherwise. -/
def stored (s : circular_buffer) : Nat :=
  if s.full_ then s.max_size_ else (s.head_ + s.max_size_ - s.tail_) % s.max_size_

/-- The stored bytes, oldest first: the cells from `tail_` on, around the ring. -/
def contents (s : circular_buffer) : List UInt8 :=
  (List.range s.stored).map fun i => s.buf_.getD ((s.tail_ + i) % s.max_size_) 0

/-- The representation invariant: a non-zero capacity that is the length of the array,
both indices inside the array, and `head_ = tail_` when the buffer is full. -/
def WellFormed (s : circular_buffer) : Prop :=
  0 < s.max_size_ ∧ s.buf_.length = s.max_size_ ∧ s.head_ < s.max_size_ ∧
    s.tail_ < s.max_size_ ∧ (s.full_ = true → s.head_ = s.tail_)

end circular_buffer

/-! ## CAN frames and headers -/

/-- The constant `CAN_MAX_DLEN` of `<linux/can.h>` ("nominally 8" in the source). -/
def CAN_MAX_DLEN : Nat := 8

/-- The `struct can_frame` as far as the driver reads it: the identifier and the
eight data bytes `data[0] .. data[7]`. -/
structure can_frame where
  can_id : Nat
  data : Fin 8 → UInt8

/-- The class `CanHeader`: three `unsigned char` fields and the `int` field `pgn`. -/
structure CanHeader where
  priority : UInt8
  source : UInt8
  destination : UInt8
  pgn : Int

/-- The default constructor `CanHeader::CanHeader()`:
`priority('\0'), source('\0'), destination('\0'), pgn(-1)`. -/
def CanHeader.default : CanHeader :=
  { priority := 0, source := 0, destination := 0, pgn := -1 }

/-- The conversion of an `int` expression `x & 0xFF` to `unsigned char`: the low
eight bits of the two's complement representation of `x`. -/
def lowByte (x : Int) : UInt8 := UInt8.ofNat (x % 256).toNat

/-- The three PGN bytes pushed by both encoders: `header.pgn & 0xFF`,
`(header.pgn >> 8) & 0xFF`, `(header.pgn >> 16) & 0xFF`; `>>` on an `int` is the
arithmetic shift `Int.shiftRight`. -/
def pgnBytes (pgn : Int) : List UInt8 :=
  [lowByte pgn, lowByte (pgn >>> (8 : Nat)), lowByte (pgn >>> (16 : Nat))]

/-! ## Envelope of a single frame message -/

/-- The function `CommDriverN2KNet::PushCompleteMsg(header, position, frame)`: the sequence
of `push_back` calls, in order. -/
def PushCompleteMsg (header : CanHeader) (_position : Int) (frame : can_frame) :
    List UInt8 :=
  [0x93, 0x13, header.priority] ++ pgnBytes header.pgn ++
    [header.destination, header.source, 0xFF, 0xFF, 0xFF, 0xFF,
      UInt8.ofNat CAN_MAX_DLEN] ++
    List.ofFn (fun n : Fin CAN_MAX_DLEN => frame.data n) ++ [0x55]

/-! ## The fast message table -/

/-- A reading of `std::chrono::system_clock`, in clock ticks (nanoseconds).  A field
of the source type `TimePoint = time_point<system_clock, duration<double>>` is only
ever assigned such a reading, or the epoch by its default constructor, and the
`double` it then holds is a function of the reading (`storedSeconds` below); the
field is kept as the reading it was assigned, and the conversion to `double` is
applied where the source reads the field. -/
abbrev TimePoint := Nat

/-- The constant `kNotFound = -1`. -/
def kNotFound : Int := -1

/-- The class `FastMessageMap::Entry`: one fast message being reassembled. -/
structure Entry where
  time_arrived : TimePoint
  header : CanHeader
  sid : Nat
  expected_length : Nat
  cursor : Nat
  data : List UInt8

/-- The constructor `Entry()`: `time_arrived(now()), sid(0), expected_length(0),
cursor(0)`, a default header and an empty `data` vector. -/
def Entry.fresh (now : TimePoint) : Entry :=
  { time_arrived := now, header := CanHeader.default, sid := 0,
    expected_length := 0, cursor := 0, data := [] }

/-- The class `FastMessageMap`: the entries and the bookkeeping fields. -/
structure FastMessageMap where
  entries : List Entry
  last_gc_run : TimePoint
  dropped_frames : Int
  dropped_frame_time : TimePoint

/-- The top three bits (bits 5 to 7) of a sequence identifier byte. -/
def sidTopBits (sid : Nat) : Nat := sid / 32 % 8

/-- Modelled from the spec: the test applied to each entry by `find_matching`, whose
body is not in the source excerpt (§4.2: "an entry whose header fields (PGN +
source) equal `header` and whose stored sequence id's top bits equal `sid`'s top
bits, and which is not yet complete"; completion is `cursor ≥ expected_length`). -/
def Entry.isMatch (header : CanHeader) (sid : UInt8) (e : Entry) : Bool :=
  decide (e.header.pgn = header.pgn) && decide (e.header.source = header.source) &&
    decide (sidTopBits e.sid = sidTopBits sid.toNat) &&
    decide (e.cursor < e.expected_length)

/-- Modelled from the spec: `FastMessageMap::FindMatchingEntry`, declared in the source
but defined elsewhere (§4.2 `find_matching`: a linear scan that returns the index
of the first matching entry, `NotFound` if there is none). -/
def FindMatchingEntry (m : FastMessageMap) (header : CanHeader) (sid : UInt8) : Int :=
  let i := m.entries.findIdx (Entry.isMatch header sid)
  if i < m.entries.length then (i : Int) else kNotFound

/-- Modelled from the spec: `FastMessageMap::AddNewEntry`, declared in the source but
defined elsewhere (§4.2 `add_new`: "appends a fresh, empty entry, returns its
index").  The fresh entry is the one built by the constructor `Entry()`. -/
def AddNewEntry (m : FastMessageMap) (now : TimePoint) : FastMessageMap × Int :=
  ({ m with entries := m.entries ++ [Entry.fresh now] }, (m.entries.length : Int))

/-- Store `bytes` in `buf` from offset `pos` on, growing the buffer when needed. -/
def writeAt (buf : List UInt8) (pos : Nat) (bytes : List UInt8) : List UInt8 :=
  buf.take pos ++ bytes ++ buf.drop (pos + bytes.length)

/-- The bytes `data[from] .. data[7]` of a frame. -/
def frameBytesFrom (data : Fin 8 → UInt8) (start : Nat) : List UInt8 :=
  (List.ofFn data).drop start

/-- Modelled from the spec: what `insert` stores in the entry it is given (§4.2
`insert`: "sets header, sequence id = `data[0]`, expected_length = `data[1]`,
copies the first 6 payload bytes (bytes 2–7) into the buffer, cursor = 6"). -/
def Entry.inserted (e : Entry) (header : CanHeader) (data : Fin 8 → UInt8) : Entry :=
  { e with
    header := header
    sid := (data 0).toNat
    expected_length := (data 1).toNat
    data := writeAt e.data 0 (frameBytesFrom data 2)
    cursor := 6 }

/-- Modelled from the spec: `FastMessageMap::InsertEntry`, declared in the source but
defined elsewhere (§4.2 `insert`, which "returns `ready = (cursor >=
expected_length)`").  There is no result when `index` is not the index of an
entry. -/
def InsertEntry (m : FastMessageMap) (header : CanHeader) (data : Fin 8 → UInt8)
    (index : Int) : Option (FastMessageMap × Bool) :=
  if 0 ≤ index then
    match m.entries[index.toNat]? with
    | none => none
    | some e =>
      let e1 := e.inserted header data
      some ({ m with entries := m.entries.set index.toNat e1 },
        decide (e1.cursor ≥ e1.expected_length))
  else none

/-- Modelled from the spec: what `append` stores in the entry it is given (§4.2
`append`: "appends up to 7 bytes (`data[1..7]`) starting at cursor, advances
cursor by the number of bytes actually needed to reach `expected_length` (never
past it)"). -/
def Entry.appended (e : Entry) (data : Fin 8 → UInt8) : Entry :=
  let needed := min 7 (e.expected_length - e.cursor)
  { e with
    data := writeAt e.data e.cursor ((frameBytesFrom data 1).take needed)
    cursor := e.cursor + needed }

/-- Modelled from the spec: `FastMessageMap::AppendEntry`, declared in the source but
defined elsewhere (§4.2 `append`, which "returns `ready = (cursor >=
expected_length)`").  There is no result when `index` is not the index of an
entry. -/
def AppendEntry (m : FastMessageMap) (_header : CanHeader) (data : Fin 8 → UInt8)
    (index : Int) : Option (FastMessageMap × Bool) :=
  if 0 ≤ index then
    match m.entries[index.toNat]? with
    | none => none
    | some e =>
      let e1 := e.appended data
      some ({ m with entries := m.entries.set index.toNat e1 },
        decide (e1.cursor ≥ e1.expected_length))
  else none

/-- Modelled from the spec: `FastMessageMap::Remove`, declared in the source but defined
elsewhere (§4.2 `remove(index)`: "erases the entry"). -/
def Remove (m : FastMessageMap) (pos : Int) : FastMessageMap :=
  if 0 ≤ pos then { m with entries := m.entries.eraseIdx pos.toNat } else m

/-! ## Envelope of a reassembled fast message -/

/-- The function `CommDriverN2KNet::PushFastMsgFragment(header, position)`: the envelope
built from the entry at `position`, and the table after `Remove(position)`.
`expected_length` is an `unsigned int`, so `expected_length + 11` is computed
modulo `2^32` before `push_back` keeps its low byte.  There is no result when
`entries[position]` or one of the reads `data[n]`, `n < expected_length`, is out
of range. -/
def PushFastMsgFragment (m : FastMessageMap) (header : CanHeader) (position : Int) :
    Option (List UInt8 × FastMessageMap) :=
  if 0 ≤ position then
    match m.entries[position.toNat]? with
    | none => none
    | some e =>
      if e.expected_length ≤ e.data.length then
        some ([0x93, UInt8.ofNat ((e.expected_length + 11) % 2 ^ 32), header.priority] ++
            pgnBytes header.pgn ++
            [header.destination, header.source, 0xFF, 0xFF, 0xFF, 0xFF,
              UInt8.ofNat e.expected_length] ++
            e.data.take e.expected_length ++ [0x55],
          Remove m position)
      else none
  else none

/-! ## Frame handling -/

/-- The part of the driver object that `HandleInput` reads and writes: the fast
message table `fast_messages` and the payloads of the events queued with
`AddPendingEvent`, oldest first. -/
structure Driver where
  fast_messages : FastMessageMap
  pending : List (List UInt8)

/-- The first half of `CommDriverN2KNet::HandleInput`: the values of `position` and `ready`
and the table once the `if (header.IsFastMessage())` statement is through. -/
def HandleInput.lookup (isFast : CanHeader → Bool) (now : TimePoint)
    (m : FastMessageMap) (header : CanHeader) (frame : can_frame) :
    Option (FastMessageMap × Int × Bool) :=
  if isFast header then
    let position := FindMatchingEntry m header (frame.data 0)
    if position = kNotFound then
      let added := AddNewEntry m now
      (InsertEntry added.1 header frame.data added.2).map
        fun r => (r.1, added.2, r.2)
    else
      (AppendEntry m header frame.data position).map
        fun r => (r.1, position, r.2)
  else some (m, -1, true)

/-- The function `CommDriverN2KNet::HandleInput(frame)`.  The constructor `CanHeader(frame)`
and the method `IsFastMessage()` are defined outside the source excerpt and are
the parameters `decode` and `isFast`; `now` is the clock reading taken by
`Entry()` when an entry is added. -/
def HandleInput (decode : can_frame → CanHeader) (isFast : CanHeader → Bool)
    (now : TimePoint) (d : Driver) (frame : can_frame) : Option Driver :=
  let header := decode frame
  (HandleInput.lookup isFast now d.fast_messages header frame).bind fun r =>
    let m := r.1
    let position := r.2.1
    let ready := r.2.2
    if ready then
      if 0 ≤ position then
        (PushFastMsgFragment m header position).map fun out =>
          { fast_messages := out.2, pending := d.pending ++ [out.1] }
      else
        some { fast_messages := m
               pending := d.pending ++ [PushCompleteMsg header position frame] }
    else some { fast_messages := m, pending := d.pending }

/-! ## Delivery to the listener -/

/-- The class `Nmea2000Msg` as built by `handle_N2K_MSG`: the PGN, the payload and the
source address. -/
structure Nmea2000Msg (Addr : Type) where
  PGN : Nat
  payload : List UInt8
  source : Addr

/-- Little-endian value of a list of bytes. -/
def leValue : List UInt8 → Nat
  | [] => 0
  | b :: bs => b.toNat + 256 * leValue bs

/-- The function `PayloadToName`: `memcpy` of the first `sizeof(uint64_t) = 8` payload
bytes into a `uint64_t` (little-endian host).  There is no result when the
payload has fewer than 8 bytes. -/
def PayloadToName (payload : List UInt8) : Option Nat :=
  if 8 ≤ payload.length then some (leValue (payload.take 8)) else none

/-- The PGN extracted by `handle_N2K_MSG`: `payload->at(3)`, `at(4)`, `at(5)` written to
the three lowest bytes of a zeroed `uint64_t` (little-endian host). -/
def extractPgn (payload : List UInt8) : Option Nat :=
  match payload[3]?, payload[4]?, payload[5]? with
  | some b3, some b4, some b5 => some (b3.toNat + 256 * b4.toNat + 65536 * b5.toNat)
  | _, _, _ => none

/-- The function `CommDriverN2KNet::handle_N2K_MSG(event)` on the event's payload.  The
listener is the list of the messages it was notified with, oldest first;
`GetAddress` is a method of the base class.  There is no result when `at` throws
or `PayloadToName` reads past the payload. -/
def handle_N2K_MSG {Addr : Type} (GetAddress : Nat → Addr)
    (listener : List (Nmea2000Msg Addr)) (payload : List UInt8) :
    Option (List (Nmea2000Msg Addr)) :=
  (extractPgn payload).bind fun pgn =>
    (PayloadToName payload).map fun name =>
      let msg : Nmea2000Msg Addr := ⟨pgn, payload, GetAddress name⟩
      let msg_all : Nmea2000Msg Addr := ⟨1, payload, GetAddress name⟩
      listener ++ [msg, msg_all]

/-- Bytes 3, 4 and 5 of `env` are the low, middle and high byte of `pgn`. -/
def HasPgnBytes (env : List UInt8) (pgn : Int) : Prop :=
  env[3]?.map (fun b => (b.toNat : Int)) = some (pgn % 256) ∧
  env[4]?.map (fun b => (b.toNat : Int)) = some (pgn / 256 % 256) ∧
  env[5]?.map (fun b => (b.toNat : Int)) = some (pgn / 65536)

/-- Every entry of the table has buffered at least `cursor` bytes. -/
def Buffered (m : FastMessageMap) : Prop :=
  ∀ e ∈ m.entries, e.cursor ≤ e.data.length

/-! ## Sample inputs -/

/-- A single frame header: PGN 127250 (vessel heading), priority 2, source 35,
broadcast destination. -/
def headingHeader : CanHeader :=
  { priority := 2, source := 35, destination := 255, pgn := 127250 }

/-- A fast message header: PGN 129029 (GNSS position data), priority 3, source 7,
broadcast destination. -/
def gnssHeader : CanHeader :=
  { priority := 3, source := 7, destination := 255, pgn := 129029 }

/-- A frame with the data bytes 1, 2, ..., 8. -/
def countingFrame : can_frame :=
  { can_id := 0x09F11223, data := fun i => UInt8.ofNat (i.val + 1) }

/-- A table without entries. -/
def emptyMap : FastMessageMap :=
  { entries := [], last_gc_run := 0, dropped_frames := 0, dropped_frame_time := 0 }

/-- A driver with an empty table and no pending event. -/
def idleDriver : Driver := { fast_messages := emptyMap, pending := [] }

/-- An entry that expects `len` bytes and has buffered the bytes 0, 1, ..., `len - 1`. -/
def filledEntry (len : Nat) : Entry :=
  { time_arrived := 0, header := gnssHeader, sid := 0x20, expected_length := len,
    cursor := len, data := (List.range len).map UInt8.ofNat }

/-- A table whose only entry is `filledEntry len`. -/
def filledMap (len : Nat) : FastMessageMap :=
  { emptyMap with entries := [filledEntry len] }

/-- An entry of PGN 129029 that expects 20 bytes and has buffered 13 of them. -/
def inFlightEntry : Entry :=
  { time_arrived := 0, header := gnssHeader, sid := 0x21, expected_length := 20,
    cursor := 13, data := (List.range 13).map UInt8.ofNat }

/-- A driver whose table holds `inFlightEntry` and that has no pending event. -/
def inFlightDriver : Driver :=
  { fast_messages := { emptyMap with entries := [inFlightEntry] }, pending := [] }

/-- A continuation fragment with sequence byte 0x22 and the data bytes 0x23 .. 0x29. -/
def lastFragment : can_frame :=
  { can_id := 0x0DF80507, data := fun i => UInt8.ofNat (0x22 + i.val) }

/-! ## The ring buffer: traces of calls -/

namespace circular_buffer

/-- The number of stored bytes in the words of the specification: the capacity when
`full_` is set, `(head_ - tail_) mod max_size_` otherwise. -/
def storedSpec (s : circular_buffer) : Int :=
  if s.full_ then (s.max_size_ : Int)
  else ((s.head_ : Int) - (s.tail_ : Int)) % (s.max_size_ : Int)

/-- A call made on the buffer: `put(item)` or `get()`. -/
inductive Op where
  | put (item : UInt8) : Op
  | get : Op

/-- The buffer after one call. -/
def step (s : circular_buffer) : Op → circular_buffer
  | Op.put item => s.put item
  | Op.get => (s.get).2

/-- The buffer after a sequence of calls, first to last. -/
def run (s : circular_buffer) (ops : List Op) : circular_buffer :=
  ops.foldl step s

/-- The number of `put` calls in a sequence of calls. -/
def puts : List Op → Nat
  | [] => 0
  | Op.put _ :: ops => puts ops + 1
  | Op.get :: ops => puts ops

/-- The number of bytes handed out by a sequence of calls that starts in `s`: the
`get` calls that find the buffer not empty. -/
def delivered (s : circular_buffer) : List Op → Nat
  | [] => 0
  | Op.put item :: ops => delivered (s.put item) ops
  | Op.get :: ops => (if s.empty then 0 else 1) + delivered (s.get).2 ops

/-- The content of a new array of two cells. -/
def twoCells : List UInt8 := [0, 0]

/-- The calls put 1, put 2, put 3, get, get, get. -/
def sampleCalls : List Op := [Op.put 1, Op.put 2, Op.put 3, Op.get, Op.get, Op.get]

end circular_buffer

/-! ## Garbage collection of the fast message table -/

/-- The number of `system_clock` ticks in a second: the clock counts nanoseconds, as
`std::chrono::system_clock` of libstdc++ does. -/
def ticksPerSecond : Nat := 1000000000

/-- The constant `kGcThreshold = 100`: number of stored fast messages that triggers a
collection. -/
def kGcThreshold : Nat := 100

/-- The constant `kGcInterval(10s)`, a `std::chrono::milliseconds` of 10 seconds. -/
def kGcInterval : Nat := 10 * ticksPerSecond

/-- The constant `kEntryMaxAge(100s)`, a `std::chrono::milliseconds` of 100 seconds. -/
def kEntryMaxAge : Nat := 100 * ticksPerSecond

/-! ### Double precision

The source computes with `TimePoint = time_point<system_clock, duration<double>>`:
every difference of a clock reading and a stored time, and every comparison of
such a difference with a constant, is done in IEEE 754 binary64 with rounding to
nearest, ties to even.  Every finite `double` is a whole multiple of 2^-1074, and a
`double` is represented by that multiple, a natural number or an integer.
Overflow to infinity does not occur for clock readings below 2^63 and is not
modelled. -/

/-- The exponent 1074: the smallest positive `double` is 2^-1074. -/
def doubleExponent : Nat := 1074

/-- The number of units of 2^-1074 in the value 1: 2^1074, written as a shift. -/
def doubleUnit : Nat := 1 <<< doubleExponent

/-- The quotient `num / den` rounded to the nearest whole number, a tie going to
the even neighbour. -/
def roundNearestEven (num den : Nat) : Nat :=
  let q := num / den
  let r := num % den
  if 2 * r < den then q
  else if den < 2 * r then q + 1
  else if q % 2 = 0 then q else q + 1

/-- The position of the highest set bit of a number below `2 ^ 2 ^ k`, found by
halving the range `k` times: the upper half `n >>> 2 ^ k` is searched when it is
not zero, the lower half otherwise. -/
def floorLog2.go : Nat → Nat → Nat
  | 0, _ => 0
  | k + 1, n =>
    if n >>> 2 ^ k = 0 then floorLog2.go k n else 2 ^ k + floorLog2.go k (n >>> 2 ^ k)

/-- The position of the highest set bit of `n`, for `n` below 2^4096; a finite
`double` is below 2^2098 units. -/
def floorLog2 (n : Nat) : Nat := floorLog2.go 12 n

/-- The `double` nearest to the non-negative value `num / den` (in units of 2^-1074),
ties to even: the value keeps 53 significant bits, so it is rounded to a whole
multiple of `2 ^ e` units, where `e` is the position of its highest bit minus 52,
and to a whole number of units when it has no more than 53 bits. -/
def roundDouble (num den : Nat) : Nat :=
  let e := floorLog2 (num / den) - 52
  roundNearestEven num (den <<< e) <<< e

/-- The `double` nearest to the signed value `num / den`, in units of 2^-1074. -/
def roundDoubleInt (num : Int) (den : Nat) : Int :=
  if 0 ≤ num then (roundDouble num.toNat den : Int)
  else -(roundDouble (-num).toNat den : Int)

/-- The conversion `static_cast<double>(count)` of a tick count. -/
def toDouble (count : Nat) : Nat := roundDouble (count * doubleUnit) 1

/-- The value of a `TimePoint` that was assigned the clock reading `t`, in seconds:
the `duration_cast` from nanoseconds to `duration<double>` computes
`static_cast<double>(count) / 1e9`. -/
def storedSeconds (t : TimePoint) : Nat := roundDouble (toDouble t) ticksPerSecond

/-- The value of that `TimePoint` converted to `duration<double, nano>`, the common
type of a difference with a clock reading: `seconds * 1e9`. -/
def storedNanos (t : TimePoint) : Nat := roundDouble (storedSeconds t * ticksPerSecond) 1

/-- The difference `system_clock::now() - stamp` of the clock reading `now` and a
stored `TimePoint`, a `duration<double, nano>`:
`static_cast<double>(now) - seconds * 1e9`. -/
def elapsed (now stamp : TimePoint) : Int :=
  roundDoubleInt ((toDouble now : Int) - (storedNanos stamp : Int)) 1

/-- The conversion to `duration<double, nano>` of a `std::chrono::milliseconds`
constant of `ticks` clock ticks: `static_cast<double>(count) * 1e6`, where
`count = ticks / 10^6` is its number of milliseconds. -/
def millisecondsToDouble (ticks : Nat) : Nat :=
  roundDouble (toDouble (ticks / 1000000) * 1000000) 1

/-- The method `Entry::IsExpired()` when the clock reads `now`:
`age = now - time_arrived; return age > kEntryMaxAge`, in double precision. -/
def Entry.IsExpired (e : Entry) (now : TimePoint) : Bool :=
  decide (elapsed now e.time_arrived > (millisecondsToDouble kEntryMaxAge : Int))

/-- Modelled from the spec: what `garbage_collect` does with one entry (§4.2: "removes
every entry whose age exceeds `kEntryMaxAge`; increments `dropped_frames` and
records `dropped_frame_time` for each").  The pair is the table built so far and
the number of entries removed so far. -/
def GarbageCollector.visit (now : TimePoint) (acc : FastMessageMap × Int) (e : Entry) :
    FastMessageMap × Int :=
  if e.IsExpired now then
    ({ acc.1 with
       dropped_frames := acc.1.dropped_frames + 1
       dropped_frame_time := now },
      acc.2 + 1)
  else ({ acc.1 with entries := acc.1.entries ++ [e] }, acc.2)

/-- Modelled from the spec: `FastMessageMap::GarbageCollector`, declared in the source
but defined elsewhere (§4.2 `garbage_collect() -> count_removed`): a pass over
the entries, first to last, when the clock reads `now`.  The result is the table
afterwards and the number of entries removed. -/
def GarbageCollector (m : FastMessageMap) (now : TimePoint) : FastMessageMap × Int :=
  m.entries.foldl (GarbageCollector.visit now) ({ m with entries := [] }, 0)

/-- The method `FastMessageMap::CheckGc()`.  The clock is read three times: `now` in the
condition, `gcNow` during the collection and `later` for the new `last_gc_run`;
the interval `now - last_gc_run` is computed and compared in double precision. -/
def CheckGc (m : FastMessageMap) (now gcNow later : TimePoint) : FastMessageMap :=
  if elapsed now m.last_gc_run > (millisecondsToDouble kGcInterval : Int) ∨
      m.entries.length > kGcThreshold then
    { (GarbageCollector m gcNow).1 with last_gc_run := later }
  else m

/-- The tables that can be reached from a table without entries by `add_new`,
`insert`, `append`, `remove` and `garbage_collect`. -/
inductive Reachable : FastMessageMap → Prop where
  | start (m : FastMessageMap) : m.entries = [] → Reachable m
  | add_new (m : FastMessageMap) (now : TimePoint) :
      Reachable m → Reachable (AddNewEntry m now).1
  | insert (m m1 : FastMessageMap) (header : CanHeader) (data : Fin 8 → UInt8)
      (index : Int) (ready : Bool) :
      Reachable m → InsertEntry m header data index = some (m1, ready) → Reachable m1
  | append (m m1 : FastMessageMap) (header : CanHeader) (data : Fin 8 → UInt8)
      (index : Int) (ready : Bool) :
      Reachable m → AppendEntry m header data index = some (m1, ready) → Reachable m1
  | remove (m : FastMessageMap) (pos : Int) : Reachable m → Reachable (Remove m pos)
  | garbage_collect (m : FastMessageMap) (now : TimePoint) :
      Reachable m → Reachable (GarbageCollector m now).1

/-- An entry that arrived at time `t` and is otherwise fresh. -/
def arrivedAt (t : TimePoint) : Entry := Entry.fresh t

/-- A table with `n` fresh entries that arrived at time 0 and a last collection at
time `last`. -/
def crowdedMap (n : Nat) (last : TimePoint) : FastMessageMap :=
  { entries := List.replicate n (arrivedAt 0), last_gc_run := last,
    dropped_frames := 0, dropped_frame_time := 0 }

/-- A clock reading of 1 November 2026, 20:00 UTC: 1793563200 seconds, in
nanoseconds. -/
def presentDay : TimePoint := 1793563200000000000

/-- A table whose only entry arrived at the clock reading `presentDay`. -/
def presentDayMap : FastMessageMap :=
  { emptyMap with entries := [arrivedAt presentDay] }

/-- A first fragment that announces 4 bytes: sequence byte 0x40, length 4, then the
bytes 1 to 6. -/
def shortFirstFragment : Fin 8 → UInt8 :=
  fun i => [0x40, 4, 1, 2, 3, 4, 5, 6].getD i.val 0

/-- The table after `add_new` and `insert` of `shortFirstFragment` on the empty table. -/
def shortInsertedMap : FastMessageMap :=
  { emptyMap with
    entries := [(Entry.fresh 0).inserted gnssHeader shortFirstFragment] }

/-! ## Feeding a fast message fragment by fragment -/

/-- Calling `HandleInput` for each frame of a list, first to last; every frame comes
with the clock reading of its call. -/
def HandleInputs (decode : can_frame → CanHeader) (isFast : CanHeader → Bool) :
    Driver → List (TimePoint × can_frame) → Option Driver
  | d, [] => some d
  | d, input :: rest =>
    (HandleInput decode isFast input.1 d input.2).bind fun d1 =>
      HandleInputs decode isFast d1 rest

/-- The number of continuation fragments of a fast message of `len > 6` bytes: the
first fragment carries 6 bytes, every other one up to 7. -/
def fragmentCount (len : Nat) : Nat := (len - 6 + 6) / 7

/-- Fragment number `k` of a fast message of `len` bytes with sequence byte `sid`,
where `stream` is the concatenation of the fragment payloads: fragment 0 is
`[sid, len, 6 bytes]`, fragment `k ≥ 1` is `[sid + k, 7 bytes]`.  Bytes past the
end of `stream` are 0xFF. -/
def fragment (can_id : Nat) (sid : UInt8) (len : Nat) (stream : List UInt8) (k : Nat) :
    can_frame :=
  { can_id := can_id
    data := fun i =>
      if k = 0 then
        if i.val = 0 then sid
        else if i.val = 1 then UInt8.ofNat len
        else stream.getD (i.val - 2) 0xFF
      else
        if i.val = 0 then sid + UInt8.ofNat k
        else stream.getD (6 + 7 * (k - 1) + (i.val - 1)) 0xFF }

/-- The first `n` fragments of a fast message, fragment `k` being handled when the
clock reads `clock k`. -/
def fragments (can_id : Nat) (sid : UInt8) (len : Nat) (stream : List UInt8)
    (clock : Nat → TimePoint) (n : Nat) : List (TimePoint × can_frame) :=
  (List.range n).map fun k => (clock k, fragment can_id sid len stream k)

/-- The entry of a fast message of `len` bytes after its first fragment and `j`
continuation fragments: cursor `6 + 7 j`, and as many bytes of `stream` buffered. -/
def entryAfter (t : TimePoint) (header : CanHeader) (sid : UInt8) (len : Nat)
    (stream : List UInt8) (j : Nat) : Entry :=
  { time_arrived := t, header := header, sid := sid.toNat, expected_length := len,
    cursor := 6 + 7 * j, data := stream.take (6 + 7 * j) }

/-- The envelope of a fast message with the given header and payload. -/
def fastEnvelope (header : CanHeader) (payload : List UInt8) : List UInt8 :=
  [0x93, UInt8.ofNat ((payload.length + 11) % 2 ^ 32), header.priority] ++
    pgnBytes header.pgn ++
    [header.destination, header.source, 0xFF, 0xFF, 0xFF, 0xFF,
      UInt8.ofNat payload.length] ++ payload ++ [0x55]

/-- The bytes 0, 1, ..., 19: a payload of 20 bytes. -/
def countingPayload : List UInt8 := (List.range 20).map UInt8.ofNat

/-! ## The line tokenizer of `OnSocketEvent`

The received bytes are taken as characters one to one (the transport is ASCII).
`wxStringTokenizer`, `wxString::ToUInt` and `strtoul` belong to wxWidgets and the C
library; they are modelled from their documented behaviour. -/

/-- The value of a hexadecimal digit character `0-9`, `A-F`, `a-f`. -/
def hexDigitValue (c : UInt8) : Option Nat :=
  if 48 ≤ c.toNat ∧ c.toNat ≤ 57 then some (c.toNat - 48)
  else if 65 ≤ c.toNat ∧ c.toNat ≤ 70 then some (c.toNat - 55)
  else if 97 ≤ c.toNat ∧ c.toNat ≤ 102 then some (c.toNat - 87)
  else none

/-- The test for a hexadecimal digit character. -/
def isHexDigit (c : UInt8) : Bool := (hexDigitValue c).isSome

/-- The value of a string of hexadecimal digits, most significant digit first. -/
def hexValue (digits : List UInt8) : Nat :=
  digits.foldl (fun acc c => 16 * acc + (hexDigitValue c).getD 0) 0

/-- A valid hexadecimal number and its value: a token that is not empty and consists
of hexadecimal digits. -/
def hexNumber (token : List UInt8) : Option Nat :=
  if token ≠ [] ∧ token.all isHexDigit = true then some (hexValue token) else none

/-- The function `isspace` of the C locale: space, `\t`, `\n`, `\v`, `\f`, `\r`. -/
def isSpaceChar (c : UInt8) : Bool :=
  decide (c.toNat = 32 ∨ (9 ≤ c.toNat ∧ c.toNat ≤ 13))

/-- The optional sign read by `strtoul`: whether it is `-`, and the characters after it. -/
def splitSign : List UInt8 → Bool × List UInt8
  | [] => (false, [])
  | c :: rest =>
    if c.toNat = 45 then (true, rest)
    else if c.toNat = 43 then (false, rest)
    else (false, c :: rest)

/-- The optional prefix `0x` or `0X` read by `strtoul` in base 16; it is only a prefix
when a hexadecimal digit follows. -/
def skipHexLead : List UInt8 → List UInt8
  | c0 :: c1 :: c2 :: rest =>
    if c0.toNat = 48 ∧ (c1.toNat = 120 ∨ c1.toNat = 88) ∧ isHexDigit c2 = true then c2 :: rest
    else c0 :: c1 :: c2 :: rest
  | s => s

/-- The function `strtoul(s, &end, 16)` of the C library: white space is skipped, then
an optional sign, an optional `0x` and the longest run of hexadecimal digits are
read.  The result is `none` when there is no digit (no conversion, `end == s`),
otherwise whether the sign was `-` and the value of the digits. -/
def strtoul16 (s : List UInt8) : Option (Bool × Nat) :=
  let signed := splitSign (s.dropWhile isSpaceChar)
  let digits := (skipHexLead signed.2).takeWhile isHexDigit
  if digits = [] then none else some (signed.1, hexValue digits)

/-- The call `token.ToUInt(&val, 16)` of wxWidgets, with `unsigned long` of 64 bits:
the new content of `val`.  Nothing is stored when `strtoul` converts nothing,
reports a range error (more than `ULONG_MAX`) or returns more than `UINT_MAX`;
a minus sign negates the value as an `unsigned long`.  The flag returned by
`ToUInt` is ignored by the caller. -/
def ToUInt (token : List UInt8) (val : Nat) : Nat :=
  match strtoul16 token with
  | none => val
  | some (negative, v) =>
    if 2 ^ 64 ≤ v then val
    else
      let lval := if negative then (2 ^ 64 - v) % 2 ^ 64 else v
      if 2 ^ 32 ≤ lval then val else lval

/-- The tokens of `wxStringTokenizer(ss, " ")`: with a delimiter that is white space
the tokenizer works like `strtok`, so the tokens are the runs of characters
between spaces that are not empty. -/
def tokenize (ss : List UInt8) : List (List UInt8) :=
  (ss.splitOn 0x20).filter fun t => !t.isEmpty

/-- The string `wxString ss(m_sentence.c_str())`: the sentence up to its first NUL. -/
def cString (sentence : List UInt8) : List UInt8 :=
  sentence.takeWhile fun c => !(c == 0)

/-- The frame built from a sentence at the end of a line.  The first two tokens are
discarded, the third is converted into `frame.can_id`, and up to eight more are
converted into the data bytes, which are 0 where a token is missing.
`GetNextToken` returns an empty string when no token is left.  `frame` is the
local variable `frame`, which is not initialised; `tui i` is the content of the
uninitialised local `tui` in round `i` of the loop. -/
def parseFrame (tui : Fin 8 → Nat) (frame : can_frame) (sentence : List UInt8) :
    can_frame :=
  let tokens := tokenize (cString sentence)
  { can_id := ToUInt (tokens.getD 2 []) frame.can_id
    data := fun i =>
      match (tokens.drop 3)[i.val]? with
      | some token => UInt8.ofNat (ToUInt token (tui i))
      | none => 0 }

/-- The variables of the tokenizer loop: the member `m_sentence`, the local `frame`,
and the frames that `HandleInput` was called with, oldest first. -/
structure LineState where
  m_sentence : List UInt8
  frame : can_frame
  handled : List can_frame

/-- One round of the loop `while (!m_circle->empty())` for the byte `b` that `get`
returned: a byte other than LF and CR is appended to `m_sentence`; an LF ends the
sentence, whose frame is passed to `HandleInput`. -/
def onByte (tui : Fin 8 → Nat) (st : LineState) (b : UInt8) : LineState :=
  let st1 : LineState :=
    if b ≠ 0x0a ∧ b ≠ 0x0d then { st with m_sentence := st.m_sentence ++ [b] } else st
  if b = 0x0a then
    { m_sentence := []
      frame := parseFrame tui st1.frame st1.m_sentence
      handled := st1.handled ++ [parseFrame tui st1.frame st1.m_sentence] }
  else st1

/-- The loop `while (!m_circle->empty())` with at most `fuel` rounds: the ring buffer
and the tokenizer variables when it ends. -/
def drainLoop (tui : Fin 8 → Nat) : Nat → circular_buffer → LineState →
    circular_buffer × LineState
  | 0, c, st => (c, st)
  | fuel + 1, c, st =>
    if c.empty then (c, st)
    else drainLoop tui fuel (c.get).2 (onByte tui st (c.get).1)

/-- The loop `while (!m_circle->empty())`: the buffer holds at most `max_size_` bytes,
so `max_size_` rounds empty it. -/
def drain (tui : Fin 8 → Nat) (c : circular_buffer) (st : LineState) :
    circular_buffer × LineState :=
  drainLoop tui c.max_size_ c st

/-- The characters of a string as bytes. -/
def asciiBytes (s : String) : List UInt8 := s.toList.map fun ch => UInt8.ofNat ch.toNat

/-- A ring buffer of capacity 64 that holds the given bytes. -/
def ringWith (bytes : List UInt8) : circular_buffer :=
  (circular_buffer.create (List.replicate 64 0)).putAll bytes

/-- The tokenizer variables at the start: no pending sentence, and the local `frame`
holding `can_id` 5 and the data bytes 9. -/
def staleState : LineState :=
  { m_sentence := [], frame := { can_id := 5, data := fun _ => 9 }, handled := [] }

/-- The data tokens `01`, `0a`, `FF` with their values. -/
def sampleDataTokens : List (List UInt8 × Nat) :=
  [(asciiBytes "01", 1), (asciiBytes "0a", 10), (asciiBytes "FF", 255)]

/-! ## NMEA V4 tags (`comm_util.cpp`)

A `wxString` is the list of its characters. -/

/-- The backslash character, which opens and closes a tag block. -/
def backslash : Char := Char.ofNat 92

/-- The constant `wxNOT_FOUND = -1` of wxWidgets. -/
def wxNOT_FOUND : Int := -1

/-- The method `wxString::Find(ch)`: the position of the first `ch`, or `wxNOT_FOUND`. -/
def Find (msg : List Char) (ch : Char) : Int :=
  if msg.indexOf ch < msg.length then (msg.indexOf ch : Int) else wxNOT_FOUND

/-- The method `wxString::Mid(first)`: the characters from position `first` on. -/
def Mid (msg : List Char) (first : Int) : List Char := msg.drop first.toNat

/-- The function `ProcessNMEA4Tags(msg)`: `idxFirst = msg.Find('\\')`,
`idxSecond = msg.Mid(idxFirst + 1).Find('\\') + 1`, and the three nested tests of
the source in their order. -/
def ProcessNMEA4Tags (msg : List Char) : List Char :=
  let idxFirst := Find msg backslash
  if wxNOT_FOUND = idxFirst then msg
  else
    if idxFirst < (msg.length : Int) - 1 then
      let idxSecond := Find (Mid msg (idxFirst + 1)) backslash + 1
      if wxNOT_FOUND ≠ idxSecond then
        if idxSecond < (msg.length : Int) - 1 then Mid msg (idxSecond + 1)
        else msg
      else msg
    else msg

/-- The characters of a text in which `/` stands for a backslash. -/
def tagText (s : String) : List Char :=
  s.toList.map fun ch => if ch = Char.ofNat 47 then backslash else ch

/-! ## Sample inputs: encoders and garbage collection -/

/-- An entry that expects 8 bytes and has buffered the eight data bytes of `frame`. -/
def frameEntry (header : CanHeader) (frame : can_frame) : Entry :=
  { time_arrived := 0, header := header, sid := 0, expected_length := 8, cursor := 8,
    data := List.ofFn frame.data }

/-- A table whose only entry is `frameEntry header frame`. -/
def frameMap (header : CanHeader) (frame : can_frame) : FastMessageMap :=
  { emptyMap with entries := [frameEntry header frame] }

/-- The driver `inFlightDriver` after the frame `lastFragment`: the table is empty and
the envelope of the 20 byte message is pending. -/
def completedDriver : Driver :=
  { fast_messages := emptyMap
    pending := [fastEnvelope gnssHeader
      ((List.range 13).map UInt8.ofNat ++ [0x23, 0x24, 0x25, 0x26, 0x27, 0x28, 0x29])] }

/-- A header decoder for sample inputs: the PGN is the frame identifier, the other
fields are those of `gnssHeader`. -/
def pgnFromId (frame : can_frame) : CanHeader :=
  { gnssHeader with pgn := (frame.can_id : Int) }

/-- The first fragment of a fast message of 20 bytes, sent with identifier `k`; no
other fragment of that message follows. -/
def openFragment (k : Nat) : can_frame :=
  { can_id := k, data := fun i => if i.val = 1 then 20 else 0 }

/-- The first fragments of `n` fast messages with the identifiers 0 to `n - 1`,
fragment `k` being handled when the clock reads `clock k`. -/
def openFragments (clock : Nat → TimePoint) (n : Nat) : List (TimePoint × can_frame) :=
  (List.range n).map fun k => (clock k, openFragment k)

/-- A driver whose table holds 101 entries that arrived at time 0, with the last
collection at time 0 and no pending event. -/
def crowdedDriver : Driver := { fast_messages := crowdedMap 101 0, pending := [] }

/-! ## Theorems: envelope layout -/

/-- The eight data bytes of a frame, as the encoder's loop pushes them. -/
theorem ofFn_frame_data (data : Fin 8 → UInt8) :
    List.ofFn (fun n : Fin CAN_MAX_DLEN => data n) =
      [data 0, data 1, data 2, data 3, data 4, data 5, data 6, data 7] := by
  simp only [CAN_MAX_DLEN, List.ofFn_succ, List.ofFn_zero]
  rfl

/-- C1: for every header and every frame, `PushCompleteMsg` returns exactly 22 bytes:
byte 0 is 0x93, byte 2 the priority, byte 6 the destination, byte 7 the source,
bytes 8 to 11 are 0xFF, byte 12 is 8, bytes 13 to 20 are `frame.data[0..7]` in
order, and byte 21 is 0x55. -/
theorem PushCompleteMsg_layout (header : CanHeader) (position : Int) (frame : can_frame) :
    (PushCompleteMsg header position frame).length = 22 ∧
    (PushCompleteMsg header position frame)[0]? = some 0x93 ∧
    (PushCompleteMsg header position frame)[2]? = some header.priority ∧
    (PushCompleteMsg header position frame)[6]? = some header.destination ∧
    (PushCompleteMsg header position frame)[7]? = some header.source ∧
    (∀ k, 8 ≤ k → k ≤ 11 → (PushCompleteMsg header position frame)[k]? = some 0xFF) ∧
    (PushCompleteMsg header position frame)[12]? = some 8 ∧
    (∀ i : Fin 8, (PushCompleteMsg header position frame)[13 + i.val]? =
      some (frame.data i)) ∧
    (PushCompleteMsg header position frame)[21]? = some 0x55 := by
  have h : PushCompleteMsg header position frame =
      [0x93, 0x13, header.priority, lowByte header.pgn, lowByte (header.pgn >>> (8 : Nat)),
        lowByte (header.pgn >>> (16 : Nat)), header.destination, header.source,
        0xFF, 0xFF, 0xFF, 0xFF, 8,
        frame.data 0, frame.data 1, frame.data 2, frame.data 3, frame.data 4,
        frame.data 5, frame.data 6, frame.data 7, 0x55] := by
    simp only [PushCompleteMsg, ofFn_frame_data, pgnBytes]
    rfl
  rw [h]
  refine ⟨rfl, rfl, rfl, rfl, rfl, ?_, rfl, ?_, rfl⟩
  · intro k h8 h11
    have hk : k = 8 ∨ k = 9 ∨ k = 10 ∨ k = 11 := by omega
    rcases hk with rfl | rfl | rfl | rfl <;> rfl
  · intro i
    fin_cases i <;> rfl

/-- The envelope of a fast message, written out. -/
theorem PushFastMsgFragment_eq (m : FastMessageMap) (header : CanHeader) (position : Int)
    (e : Entry) (hpos : 0 ≤ position) (he : m.entries[position.toNat]? = some e)
    (hdata : e.expected_length ≤ e.data.length) :
    PushFastMsgFragment m header position =
      some ([0x93, UInt8.ofNat ((e.expected_length + 11) % 2 ^ 32), header.priority,
          lowByte header.pgn, lowByte (header.pgn >>> (8 : Nat)), lowByte (header.pgn >>> (16 : Nat)),
          header.destination, header.source, 0xFF, 0xFF, 0xFF, 0xFF,
          UInt8.ofNat e.expected_length] ++ (e.data.take e.expected_length ++ [0x55]),
        Remove m position) := by
  simp [PushFastMsgFragment, hpos, he, hdata, pgnBytes]

/-- The table after `Remove` at a valid index: the entries before and after it. -/
theorem Remove_entries (m : FastMessageMap) (position : Int) (hpos : 0 ≤ position) :
    (Remove m position).entries =
      m.entries.take position.toNat ++ m.entries.drop (position.toNat + 1) := by
  simp [Remove, hpos, List.eraseIdx_eq_take_drop_succ]

/-- The bookkeeping fields are not touched by `Remove`. -/
theorem Remove_bookkeeping (m : FastMessageMap) (position : Int) :
    (Remove m position).last_gc_run = m.last_gc_run ∧
    (Remove m position).dropped_frames = m.dropped_frames ∧
    (Remove m position).dropped_frame_time = m.dropped_frame_time := by
  unfold Remove
  split <;> exact ⟨rfl, rfl, rfl⟩

/-- C3: for an entry at a valid index `position` with `expected_length = L ≤ 255` and
at least `L` buffered bytes, `PushFastMsgFragment` returns an envelope of `L + 14`
bytes: 0x93, priority at 2, destination at 6, source at 7, 0xFF at 8 to 11, `L` at
12, the first `L` buffered bytes at 13 to 12 + L, 0x55 last; the table it leaves is
the old one without the entry at `position`. -/
theorem PushFastMsgFragment_layout (m : FastMessageMap) (header : CanHeader)
    (position : Int) (e : Entry) (hpos : 0 ≤ position)
    (he : m.entries[position.toNat]? = some e)
    (hL : e.expected_length ≤ 255) (hdata : e.expected_length ≤ e.data.length) :
    ∃ env m1, PushFastMsgFragment m header position = some (env, m1) ∧
      env.length = e.expected_length + 14 ∧
      env[0]? = some 0x93 ∧
      env[2]? = some header.priority ∧
      env[6]? = some header.destination ∧
      env[7]? = some header.source ∧
      (∀ k, 8 ≤ k → k ≤ 11 → env[k]? = some 0xFF) ∧
      env[12]?.map UInt8.toNat = some e.expected_length ∧
      (∀ n, n < e.expected_length → env[13 + n]? = e.data[n]?) ∧
      env[13 + e.expected_length]? = some 0x55 ∧
      m1.entries = m.entries.take position.toNat ++ m.entries.drop (position.toNat + 1) ∧
      m1.entries.length + 1 = m.entries.length ∧
      m1.last_gc_run = m.last_gc_run ∧ m1.dropped_frames = m.dropped_frames ∧
      m1.dropped_frame_time = m.dropped_frame_time := by
  refine ⟨_, _, PushFastMsgFragment_eq m header position e hpos he hdata, ?_, rfl, rfl, rfl,
    rfl, ?_, ?_, ?_, ?_, Remove_entries m position hpos, ?_, Remove_bookkeeping m position⟩
  · simp [List.length_take, Nat.min_eq_left hdata]
  · intro k h8 h11
    have hk : k = 8 ∨ k = 9 ∨ k = 10 ∨ k = 11 := by omega
    rcases hk with rfl | rfl | rfl | rfl <;> rfl
  · have h : (UInt8.ofNat e.expected_length).toNat = e.expected_length % 256 := rfl
    simp only [List.cons_append, List.getElem?_cons_succ, List.getElem?_cons_zero,
      Option.map_some', h, Nat.mod_eq_of_lt (show e.expected_length < 256 by omega)]
  · intro n hn
    rw [List.getElem?_append_right (by simp)]
    simp only [List.length_cons, List.length_nil, Nat.zero_add, Nat.reduceAdd,
      Nat.add_sub_cancel_left]
    rw [List.getElem?_append_left (by simp [List.length_take]; omega)]
    simp [List.getElem?_take, hn]
  · rw [List.getElem?_append_right (by simp)]
    simp only [List.length_cons, List.length_nil, Nat.zero_add, Nat.reduceAdd,
      Nat.add_sub_cancel_left]
    rw [List.getElem?_append_right (by simp [List.length_take])]
    simp [List.length_take, Nat.min_eq_left hdata]
  · have hlt : position.toNat < m.entries.length := by
      rcases Nat.lt_or_ge position.toNat m.entries.length with h | h
      · exact h
      · rw [List.getElem?_eq_none h] at he
        cases he
    simp [Remove, hpos, List.length_eraseIdx, hlt]
    omega

/-- C3 at a table whose entry at index 0 expects 20 bytes and has buffered them. -/
theorem PushFastMsgFragment_layout_witness :
    ∃ env m1, PushFastMsgFragment (filledMap 20) gnssHeader 0 = some (env, m1) ∧
      env.length = (filledEntry 20).expected_length + 14 ∧
      env[0]? = some 0x93 ∧
      env[2]? = some gnssHeader.priority ∧
      env[6]? = some gnssHeader.destination ∧
      env[7]? = some gnssHeader.source ∧
      (∀ k, 8 ≤ k → k ≤ 11 → env[k]? = some 0xFF) ∧
      env[12]?.map UInt8.toNat = some (filledEntry 20).expected_length ∧
      (∀ n, n < (filledEntry 20).expected_length →
        env[13 + n]? = (filledEntry 20).data[n]?) ∧
      env[13 + (filledEntry 20).expected_length]? = some 0x55 ∧
      m1.entries = (filledMap 20).entries.take (0 : Int).toNat ++
        (filledMap 20).entries.drop ((0 : Int).toNat + 1) ∧
      m1.entries.length + 1 = (filledMap 20).entries.length ∧
      m1.last_gc_run = (filledMap 20).last_gc_run ∧
      m1.dropped_frames = (filledMap 20).dropped_frames ∧
      m1.dropped_frame_time = (filledMap 20).dropped_frame_time :=
  PushFastMsgFragment_layout (filledMap 20) gnssHeader 0 (filledEntry 20) (by decide) rfl
    (by decide) (by decide)

/-! ## Theorems: the length byte -/

/-- C4 fails at a payload length of 250: byte 1 of the envelope is 5, not
250 + 11 = 261. -/
theorem PushFastMsgFragment_byte1_wraps :
    (PushFastMsgFragment (filledMap 250) gnssHeader 0).map
        (fun r => r.1[1]?.map UInt8.toNat) = some (some 5) ∧
      (filledEntry 250).expected_length + 11 = 261 := by
  constructor
  · rw [PushFastMsgFragment_eq (filledMap 250) gnssHeader 0 (filledEntry 250) (by decide) rfl
      (by simp [filledEntry])]
    simp only [Option.map_some', List.cons_append, List.getElem?_cons_succ,
      List.getElem?_cons_zero]
    rfl
  · rfl

/-- C4, amended: for a completed fast message of payload length `L ≤ 255`, byte 1 of
the envelope is `(L + 11) mod 256`; it is `L + 11` whenever `L ≤ 244`. -/
theorem PushFastMsgFragment_byte1 (m : FastMessageMap) (header : CanHeader)
    (position : Int) (e : Entry) (hpos : 0 ≤ position)
    (he : m.entries[position.toNat]? = some e)
    (hL : e.expected_length ≤ 255) (hdata : e.expected_length ≤ e.data.length) :
    ∃ env m1, PushFastMsgFragment m header position = some (env, m1) ∧
      env[1]?.map UInt8.toNat = some ((e.expected_length + 11) % 256) ∧
      (e.expected_length ≤ 244 → env[1]?.map UInt8.toNat = some (e.expected_length + 11)) := by
  have h1 : (UInt8.ofNat ((e.expected_length + 11) % 2 ^ 32)).toNat =
      (e.expected_length + 11) % 256 := by
    show (e.expected_length + 11) % 2 ^ 32 % 256 = (e.expected_length + 11) % 256
    omega
  refine ⟨_, _, PushFastMsgFragment_eq m header position e hpos he hdata, ?_, ?_⟩
  · simp only [List.cons_append, List.getElem?_cons_succ, List.getElem?_cons_zero,
      Option.map_some', h1]
  · intro h244
    simp only [List.cons_append, List.getElem?_cons_succ, List.getElem?_cons_zero,
      Option.map_some', h1, Nat.mod_eq_of_lt (show e.expected_length + 11 < 256 by omega)]

/-- C4, amended, at a table whose entry at index 0 expects 20 bytes. -/
theorem PushFastMsgFragment_byte1_witness :
    ∃ env m1, PushFastMsgFragment (filledMap 20) gnssHeader 0 = some (env, m1) ∧
      env[1]?.map UInt8.toNat = some (((filledEntry 20).expected_length + 11) % 256) ∧
      ((filledEntry 20).expected_length ≤ 244 →
        env[1]?.map UInt8.toNat = some ((filledEntry 20).expected_length + 11)) :=
  PushFastMsgFragment_byte1 (filledMap 20) gnssHeader 0 (filledEntry 20) (by decide) rfl
    (by decide) (by decide)

/-! ## Theorems: the PGN bytes and the listener -/

/-- The low byte of a non-negative `int`, as a number. -/
theorem lowByte_toNat (x : Int) : ((lowByte x).toNat : Int) = x % 256 := by
  have h : (lowByte x).toNat = (x % 256).toNat % 256 := rfl
  rw [h]
  omega

/-- The three bytes pushed for a PGN in `[0, 2^24)` and their little-endian value. -/
theorem pgn_bytes_value (pgn : Int) (h0 : 0 ≤ pgn) (h24 : pgn < 2 ^ 24) :
    ((lowByte pgn).toNat : Int) = pgn % 256 ∧
    ((lowByte (pgn >>> (8 : Nat))).toNat : Int) = pgn / 256 % 256 ∧
    ((lowByte (pgn >>> (16 : Nat))).toNat : Int) = pgn / 65536 ∧
    (((lowByte pgn).toNat + 256 * (lowByte (pgn >>> (8 : Nat))).toNat +
      65536 * (lowByte (pgn >>> (16 : Nat))).toNat : Nat) : Int) = pgn := by
  have h8 : pgn >>> (8 : Nat) = pgn / 256 := by
    rw [Int.shiftRight_eq_div_pow]
    rfl
  have h16 : pgn >>> (16 : Nat) = pgn / 65536 := by
    rw [Int.shiftRight_eq_div_pow]
    rfl
  have a := lowByte_toNat pgn
  have b := lowByte_toNat (pgn / 256)
  have c := lowByte_toNat (pgn / 65536)
  rw [h8, h16]
  refine ⟨a, b, by omega, ?_⟩
  push_cast
  omega

/-- What `handle_N2K_MSG` does with a payload of at least 8 bytes. -/
theorem handle_N2K_MSG_eq {Addr : Type} (GetAddress : Nat → Addr)
    (listener : List (Nmea2000Msg Addr)) (payload : List UInt8)
    (hlen : 8 ≤ payload.length) :
    handle_N2K_MSG GetAddress listener payload =
      some (listener ++
        [⟨(payload.getD 3 0).toNat + 256 * (payload.getD 4 0).toNat +
            65536 * (payload.getD 5 0).toNat, payload,
            GetAddress (leValue (payload.take 8))⟩,
          ⟨1, payload, GetAddress (leValue (payload.take 8))⟩]) := by
  have h3 : payload[3]? = some (payload.getD 3 0) := by
    rw [List.getD_eq_getElem?_getD, List.getElem?_eq_getElem (by omega)]
    rfl
  have h4 : payload[4]? = some (payload.getD 4 0) := by
    rw [List.getD_eq_getElem?_getD, List.getElem?_eq_getElem (by omega)]
    rfl
  have h5 : payload[5]? = some (payload.getD 5 0) := by
    rw [List.getD_eq_getElem?_getD, List.getElem?_eq_getElem (by omega)]
    rfl
  simp only [handle_N2K_MSG, extractPgn, PayloadToName, h3, h4, h5, hlen, if_true,
    Option.some_bind, Option.map_some']

/-- The two notifications made by `handle_N2K_MSG` once the PGN is extracted. -/
theorem handle_N2K_MSG_of_extractPgn {Addr : Type} (GetAddress : Nat → Addr)
    (listener : List (Nmea2000Msg Addr)) (payload : List UInt8) (pgn : Nat)
    (hlen : 8 ≤ payload.length) (hpgn : extractPgn payload = some pgn) :
    ∃ name, handle_N2K_MSG GetAddress listener payload =
      some (listener ++ [⟨pgn, payload, GetAddress name⟩, ⟨1, payload, GetAddress name⟩]) :=
  ⟨leValue (payload.take 8), by
    simp only [handle_N2K_MSG, hpgn, PayloadToName, hlen, if_true, Option.some_bind,
      Option.map_some']⟩

/-- C5: for a header whose PGN lies in `[0, 2^24)`, both encoders store the PGN in
bytes 3, 4, 5 as low, middle and high byte, and the PGN that `handle_N2K_MSG`
decodes from the envelope and passes to the listener is `header.pgn`. -/
theorem pgn_roundtrip (header : CanHeader) (h0 : 0 ≤ header.pgn)
    (h24 : header.pgn < 2 ^ 24) :
    (∀ (position : Int) (frame : can_frame),
      HasPgnBytes (PushCompleteMsg header position frame) header.pgn ∧
      (extractPgn (PushCompleteMsg header position frame)).map Int.ofNat =
        some header.pgn ∧
      ∀ (Addr : Type) (GetAddress : Nat → Addr) (listener : List (Nmea2000Msg Addr)),
        ∃ name, handle_N2K_MSG GetAddress listener (PushCompleteMsg header position frame) =
          some (listener ++
            [⟨header.pgn.toNat, PushCompleteMsg header position frame, GetAddress name⟩,
              ⟨1, PushCompleteMsg header position frame, GetAddress name⟩])) ∧
    (∀ (m : FastMessageMap) (position : Int) (e : Entry), 0 ≤ position →
      m.entries[position.toNat]? = some e → e.expected_length ≤ e.data.length →
      ∃ env m1, PushFastMsgFragment m header position = some (env, m1) ∧
        HasPgnBytes env header.pgn ∧
        (extractPgn env).map Int.ofNat = some header.pgn ∧
        ∀ (Addr : Type) (GetAddress : Nat → Addr) (listener : List (Nmea2000Msg Addr)),
          ∃ name, handle_N2K_MSG GetAddress listener env =
            some (listener ++
              [⟨header.pgn.toNat, env, GetAddress name⟩, ⟨1, env, GetAddress name⟩])) := by
  obtain ⟨a, b, c, d⟩ := pgn_bytes_value header.pgn h0 h24
  have d' : (lowByte header.pgn).toNat + 256 * (lowByte (header.pgn >>> (8 : Nat))).toNat +
      65536 * (lowByte (header.pgn >>> (16 : Nat))).toNat = header.pgn.toNat := by
    omega
  constructor
  · intro position frame
    have hlen : 8 ≤ (PushCompleteMsg header position frame).length := by
      rw [(PushCompleteMsg_layout header position frame).1]
      decide
    have hx : extractPgn (PushCompleteMsg header position frame) =
        some header.pgn.toNat := by
      simp only [extractPgn, PushCompleteMsg, pgnBytes, List.cons_append, List.nil_append,
        List.getElem?_cons_succ, List.getElem?_cons_zero, d']
    refine ⟨?_, ?_, ?_⟩
    · simp only [HasPgnBytes, PushCompleteMsg, pgnBytes, List.cons_append, List.nil_append,
        List.getElem?_cons_succ, List.getElem?_cons_zero, Option.map_some', a, b, c,
        and_self]
    · rw [hx]
      exact congrArg some (Int.toNat_of_nonneg h0)
    · intro Addr GetAddress listener
      exact handle_N2K_MSG_of_extractPgn GetAddress listener _ _ hlen hx
  · intro m position e hpos he hdata
    refine ⟨_, _, PushFastMsgFragment_eq m header position e hpos he hdata, ?_⟩
    have hx : extractPgn ([0x93, UInt8.ofNat ((e.expected_length + 11) % 2 ^ 32),
        header.priority, lowByte header.pgn, lowByte (header.pgn >>> (8 : Nat)),
        lowByte (header.pgn >>> (16 : Nat)), header.destination, header.source,
        0xFF, 0xFF, 0xFF, 0xFF, UInt8.ofNat e.expected_length] ++
        (e.data.take e.expected_length ++ [0x55])) = some header.pgn.toNat := by
      simp only [extractPgn, List.cons_append, List.nil_append,
        List.getElem?_cons_succ, List.getElem?_cons_zero, d']
    refine ⟨?_, ?_, ?_⟩
    · simp only [HasPgnBytes, List.cons_append, List.nil_append,
        List.getElem?_cons_succ, List.getElem?_cons_zero, Option.map_some', a, b, c,
        and_self]
    · rw [hx]
      exact congrArg some (Int.toNat_of_nonneg h0)
    · intro Addr GetAddress listener
      exact handle_N2K_MSG_of_extractPgn GetAddress listener _ _ (by simp) hx

/-- C5 at the header of PGN 129029. -/
theorem pgn_roundtrip_witness :
    (∀ (position : Int) (frame : can_frame),
      HasPgnBytes (PushCompleteMsg gnssHeader position frame) gnssHeader.pgn ∧
      (extractPgn (PushCompleteMsg gnssHeader position frame)).map Int.ofNat =
        some gnssHeader.pgn ∧
      ∀ (Addr : Type) (GetAddress : Nat → Addr) (listener : List (Nmea2000Msg Addr)),
        ∃ name, handle_N2K_MSG GetAddress listener
            (PushCompleteMsg gnssHeader position frame) =
          some (listener ++
            [⟨gnssHeader.pgn.toNat, PushCompleteMsg gnssHeader position frame,
                GetAddress name⟩,
              ⟨1, PushCompleteMsg gnssHeader position frame, GetAddress name⟩])) ∧
    (∀ (m : FastMessageMap) (position : Int) (e : Entry), 0 ≤ position →
      m.entries[position.toNat]? = some e → e.expected_length ≤ e.data.length →
      ∃ env m1, PushFastMsgFragment m gnssHeader position = some (env, m1) ∧
        HasPgnBytes env gnssHeader.pgn ∧
        (extractPgn env).map Int.ofNat = some gnssHeader.pgn ∧
        ∀ (Addr : Type) (GetAddress : Nat → Addr) (listener : List (Nmea2000Msg Addr)),
          ∃ name, handle_N2K_MSG GetAddress listener env =
            some (listener ++
              [⟨gnssHeader.pgn.toNat, env, GetAddress name⟩,
                ⟨1, env, GetAddress name⟩])) :=
  pgn_roundtrip gnssHeader (by decide) (by decide)

/-- C6: `handle_N2K_MSG` notifies the listener exactly twice: first with the PGN
decoded from bytes 3 to 5 of the envelope, then with PGN 1; both messages carry
the unchanged envelope and the same address. -/
theorem handle_N2K_MSG_notifies_twice {Addr : Type} (GetAddress : Nat → Addr)
    (listener : List (Nmea2000Msg Addr)) (payload : List UInt8)
    (hlen : 8 ≤ payload.length) :
    ∃ (b3 b4 b5 : UInt8) (addr : Addr),
      payload[3]? = some b3 ∧ payload[4]? = some b4 ∧ payload[5]? = some b5 ∧
      handle_N2K_MSG GetAddress listener payload =
        some (listener ++
          [⟨b3.toNat + 256 * b4.toNat + 65536 * b5.toNat, payload, addr⟩,
            ⟨1, payload, addr⟩]) := by
  have h3 : payload[3]? = some (payload.getD 3 0) := by
    rw [List.getD_eq_getElem?_getD, List.getElem?_eq_getElem (by omega)]
    rfl
  have h4 : payload[4]? = some (payload.getD 4 0) := by
    rw [List.getD_eq_getElem?_getD, List.getElem?_eq_getElem (by omega)]
    rfl
  have h5 : payload[5]? = some (payload.getD 5 0) := by
    rw [List.getD_eq_getElem?_getD, List.getElem?_eq_getElem (by omega)]
    rfl
  exact ⟨_, _, _, _, h3, h4, h5, handle_N2K_MSG_eq GetAddress listener payload hlen⟩

/-- C6 at the 22 byte envelope of a single frame, with the name as address. -/
theorem handle_N2K_MSG_notifies_twice_witness :
    ∃ (b3 b4 b5 : UInt8) (addr : Nat),
      (PushCompleteMsg headingHeader (-1) countingFrame)[3]? = some b3 ∧
      (PushCompleteMsg headingHeader (-1) countingFrame)[4]? = some b4 ∧
      (PushCompleteMsg headingHeader (-1) countingFrame)[5]? = some b5 ∧
      handle_N2K_MSG id [] (PushCompleteMsg headingHeader (-1) countingFrame) =
        some ([] ++
          [⟨b3.toNat + 256 * b4.toNat + 65536 * b5.toNat,
              PushCompleteMsg headingHeader (-1) countingFrame, addr⟩,
            ⟨1, PushCompleteMsg headingHeader (-1) countingFrame, addr⟩]) :=
  handle_N2K_MSG_notifies_twice id [] (PushCompleteMsg headingHeader (-1) countingFrame)
    (by decide)

/-! ## Theorems: frame handling -/

/-- A frame whose header is not a fast message: one envelope, the table as it was. -/
theorem HandleInput_of_not_fast (decode : can_frame → CanHeader)
    (isFast : CanHeader → Bool) (now : TimePoint) (d : Driver) (frame : can_frame)
    (hfast : isFast (decode frame) = false) :
    HandleInput decode isFast now d frame =
      some { fast_messages := d.fast_messages
             pending := d.pending ++ [PushCompleteMsg (decode frame) (-1) frame] } := by
  simp [HandleInput, HandleInput.lookup, hfast]

/-- C2 fails: the envelope that `HandleInput` emits for the single frame
`countingFrame` of the non-fast PGN 127250 has byte 1 equal to 0x13 = 19, not 8. -/
theorem HandleInput_single_byte1_not_8 :
    (HandleInput (fun _ => headingHeader) (fun _ => false) 0 idleDriver countingFrame).map
        (fun d => d.pending.map (fun env => env[1]?)) = some [some 0x13] ∧
      (0x13 : UInt8) ≠ 8 := by
  constructor
  · rw [HandleInput_of_not_fast _ _ _ _ _ rfl]
    rfl
  · decide

/-- C2, amended: for every single frame of a non-fast PGN, `HandleInput` emits one
envelope, built by `PushCompleteMsg`, whose byte 1 equals 0x13 (19 = 8 + 11). -/
theorem HandleInput_single_byte1 (decode : can_frame → CanHeader)
    (isFast : CanHeader → Bool) (now : TimePoint) (d : Driver) (frame : can_frame)
    (hfast : isFast (decode frame) = false) :
    ∃ env, HandleInput decode isFast now d frame =
        some { fast_messages := d.fast_messages, pending := d.pending ++ [env] } ∧
      env = PushCompleteMsg (decode frame) (-1) frame ∧
      env[1]? = some 0x13 ∧ env[1]?.map UInt8.toNat = some (8 + 11) :=
  ⟨_, HandleInput_of_not_fast decode isFast now d frame hfast, rfl, rfl, rfl⟩

/-- C2, amended, at the frame `countingFrame` of PGN 127250. -/
theorem HandleInput_single_byte1_witness :
    ∃ env, HandleInput (fun _ => headingHeader) (fun _ => false) 0 idleDriver
          countingFrame =
        some { fast_messages := idleDriver.fast_messages
               pending := idleDriver.pending ++ [env] } ∧
      env = PushCompleteMsg headingHeader (-1) countingFrame ∧
      env[1]? = some 0x13 ∧ env[1]?.map UInt8.toNat = some (8 + 11) :=
  HandleInput_single_byte1 (fun _ => headingHeader) (fun _ => false) 0 idleDriver
    countingFrame rfl

/-- C7: for a frame whose header is not a fast message, `HandleInput` queues exactly
one envelope, `PushCompleteMsg(header, -1, frame)`, and leaves the table
(entries, last_gc_run, dropped_frames, dropped_frame_time) unchanged. -/
theorem HandleInput_single_frame (decode : can_frame → CanHeader)
    (isFast : CanHeader → Bool) (now : TimePoint) (d : Driver) (frame : can_frame)
    (hfast : isFast (decode frame) = false) :
    ∃ d1, HandleInput decode isFast now d frame = some d1 ∧
      d1.pending = d.pending ++ [PushCompleteMsg (decode frame) (-1) frame] ∧
      d1.fast_messages = d.fast_messages ∧
      d1.fast_messages.entries = d.fast_messages.entries ∧
      d1.fast_messages.last_gc_run = d.fast_messages.last_gc_run ∧
      d1.fast_messages.dropped_frames = d.fast_messages.dropped_frames ∧
      d1.fast_messages.dropped_frame_time = d.fast_messages.dropped_frame_time :=
  ⟨_, HandleInput_of_not_fast decode isFast now d frame hfast, rfl, rfl, rfl, rfl, rfl, rfl⟩

/-- C7 at the frame `countingFrame` of PGN 127250, with one entry in the table. -/
theorem HandleInput_single_frame_witness :
    ∃ d1, HandleInput (fun _ => headingHeader) (fun _ => false) 5
          { fast_messages := filledMap 20, pending := [] } countingFrame = some d1 ∧
      d1.pending = [] ++ [PushCompleteMsg headingHeader (-1) countingFrame] ∧
      d1.fast_messages = filledMap 20 ∧
      d1.fast_messages.entries = (filledMap 20).entries ∧
      d1.fast_messages.last_gc_run = (filledMap 20).last_gc_run ∧
      d1.fast_messages.dropped_frames = (filledMap 20).dropped_frames ∧
      d1.fast_messages.dropped_frame_time = (filledMap 20).dropped_frame_time :=
  HandleInput_single_frame (fun _ => headingHeader) (fun _ => false) 5
    { fast_messages := filledMap 20, pending := [] } countingFrame rfl

/-- A frame has eight data bytes. -/
theorem frameBytesFrom_length (data : Fin 8 → UInt8) (k : Nat) :
    (frameBytesFrom data k).length = 8 - k := by
  simp [frameBytesFrom]

/-- The outcome of `FindMatchingEntry`: `kNotFound`, or the index of an entry that
satisfies the test. -/
theorem FindMatchingEntry_spec (m : FastMessageMap) (header : CanHeader) (sid : UInt8) :
    FindMatchingEntry m header sid = kNotFound ∨
    ∃ (i : Nat) (e : Entry), FindMatchingEntry m header sid = (i : Int) ∧
      m.entries[i]? = some e ∧ Entry.isMatch header sid e = true := by
  unfold FindMatchingEntry
  by_cases h : m.entries.findIdx (Entry.isMatch header sid) < m.entries.length
  · right
    refine ⟨m.entries.findIdx (Entry.isMatch header sid),
      m.entries[m.entries.findIdx (Entry.isMatch header sid)], ?_, ?_, ?_⟩
    · simp [h]
    · exact List.getElem?_eq_getElem h
    · exact List.findIdx_getElem
  · left
    simp [h]

/-- Inserting the first fragment into the entry that `AddNewEntry` has just added. -/
theorem InsertEntry_AddNewEntry (m : FastMessageMap) (now : TimePoint)
    (header : CanHeader) (data : Fin 8 → UInt8) :
    InsertEntry (AddNewEntry m now).1 header data (AddNewEntry m now).2 =
      some ({ m with entries := m.entries ++ [(Entry.fresh now).inserted header data] },
        decide ((data 1).toNat ≤ 6)) := by
  simp [InsertEntry, AddNewEntry, Entry.inserted]

/-- Appending a fragment to the entry `e` at index `i`. -/
theorem AppendEntry_at (m : FastMessageMap) (header : CanHeader) (data : Fin 8 → UInt8)
    (i : Nat) (e : Entry) (he : m.entries[i]? = some e) :
    AppendEntry m header data (i : Int) =
      some ({ m with entries := m.entries.set i (e.appended data) },
        decide ((e.appended data).expected_length ≤ (e.appended data).cursor)) := by
  simp [AppendEntry, he]

/-- The buffer after a write at an offset inside it reaches the end of the write. -/
theorem writeAt_length_ge (buf : List UInt8) (pos : Nat) (bytes : List UInt8)
    (h : pos ≤ buf.length) : pos + bytes.length ≤ (writeAt buf pos bytes).length := by
  simp [writeAt, List.length_take, Nat.min_eq_left h]

/-- A completed entry that had buffered `cursor` bytes has buffered all it expects. -/
theorem appended_buffered (e : Entry) (data : Fin 8 → UInt8)
    (hcur : e.cursor ≤ e.data.length)
    (hready : (e.appended data).expected_length ≤ (e.appended data).cursor) :
    (e.appended data).expected_length ≤ (e.appended data).data.length := by
  have hlen := writeAt_length_ge e.data e.cursor
    ((frameBytesFrom data 1).take (min 7 (e.expected_length - e.cursor))) hcur
  simp only [List.length_take, frameBytesFrom_length] at hlen
  simp only [Entry.appended] at hready ⊢
  omega

/-- An entry that had buffered `cursor` bytes still has after `append`. -/
theorem appended_cursor_le (e : Entry) (data : Fin 8 → UInt8)
    (hcur : e.cursor ≤ e.data.length) :
    (e.appended data).cursor ≤ (e.appended data).data.length := by
  have hlen := writeAt_length_ge e.data e.cursor
    ((frameBytesFrom data 1).take (min 7 (e.expected_length - e.cursor))) hcur
  simp only [List.length_take, frameBytesFrom_length] at hlen
  simp only [Entry.appended]
  omega

/-- The entry written by `insert` has buffered its 6 bytes. -/
theorem inserted_cursor_le (e : Entry) (header : CanHeader) (data : Fin 8 → UInt8) :
    (e.inserted header data).cursor ≤ (e.inserted header data).data.length := by
  simp [Entry.inserted, writeAt, frameBytesFrom_length]

/-- The table without entries has buffered what its cursors say. -/
theorem Buffered_emptyMap : Buffered emptyMap := by
  intro e he
  cases he

/-- Removing an entry keeps the other entries as they are. -/
theorem Buffered_Remove (m : FastMessageMap) (pos : Int) (h : Buffered m) :
    Buffered (Remove m pos) := by
  intro e he
  unfold Remove at he
  split at he
  · exact h e (List.mem_of_mem_eraseIdx he)
  · exact h e he

/-- The table that `PushFastMsgFragment` leaves is the one `Remove` returns. -/
theorem PushFastMsgFragment_table (m m1 : FastMessageMap) (header : CanHeader)
    (position : Int) (env : List UInt8)
    (h : PushFastMsgFragment m header position = some (env, m1)) :
    m1 = Remove m position := by
  unfold PushFastMsgFragment at h
  split at h
  · split at h
    · cases h
    · split at h
      · cases h
        rfl
      · cases h
  · cases h

/-- The table after the first half of `HandleInput` has buffered what its cursors say. -/
theorem lookup_Buffered (isFast : CanHeader → Bool) (now : TimePoint)
    (m : FastMessageMap) (header : CanHeader) (frame : can_frame)
    (r : FastMessageMap × Int × Bool) (hbuf : Buffered m)
    (h : HandleInput.lookup isFast now m header frame = some r) : Buffered r.1 := by
  unfold HandleInput.lookup at h
  split at h
  · rcases FindMatchingEntry_spec m header (frame.data 0) with hf | ⟨i, e, hi, he, _⟩
    · simp only [hf, if_true, InsertEntry_AddNewEntry, Option.map_some',
        Option.some.injEq] at h
      subst h
      intro e he
      rcases List.mem_append.1 he with h1 | h1
      · exact hbuf e h1
      · rw [List.mem_singleton.1 h1]
        exact inserted_cursor_le _ _ _
    · have hne : ¬ ((i : Int) = kNotFound) := by
        have : (0 : Int) ≤ (i : Int) := Int.natCast_nonneg _
        unfold kNotFound
        omega
      simp only [hi, hne, if_false, AppendEntry_at m header frame.data i e he,
        Option.map_some', Option.some.injEq] at h
      subst h
      intro e1 he1
      rcases List.mem_or_eq_of_mem_set he1 with h1 | h1
      · exact hbuf e1 h1
      · rw [h1]
        exact appended_cursor_le e frame.data (hbuf e (List.getElem?_mem he))
  · cases h
    exact hbuf

/-- The table `HandleInput` leaves has buffered what its cursors say whenever the table
it started from had: the property holds in every state reached from the empty
table. -/
theorem HandleInput_Buffered (decode : can_frame → CanHeader) (isFast : CanHeader → Bool)
    (now : TimePoint) (d d1 : Driver) (frame : can_frame)
    (hbuf : Buffered d.fast_messages)
    (h : HandleInput decode isFast now d frame = some d1) : Buffered d1.fast_messages := by
  simp only [HandleInput] at h
  cases hl : HandleInput.lookup isFast now d.fast_messages (decode frame) frame with
  | none =>
    rw [hl] at h
    cases h
  | some r =>
    have hr := lookup_Buffered isFast now d.fast_messages (decode frame) frame r hbuf hl
    rw [hl] at h
    simp only [Option.some_bind] at h
    split at h
    · split at h
      · cases hp : PushFastMsgFragment r.1 (decode frame) r.2.1 with
        | none =>
          rw [hp] at h
          cases h
        | some out =>
          rw [hp] at h
          cases h
          have := PushFastMsgFragment_table r.1 out.2 (decode frame) r.2.1 out.1 hp
          show Buffered out.2
          rw [this]
          exact Buffered_Remove _ _ hr
      · cases h
        exact hr
    · cases h
      exact hr

/-- C8: for a frame whose header is a fast message, `HandleInput` inserts into a
freshly added entry when `FindMatchingEntry(header, frame.data[0])` is `kNotFound`
and appends to the found entry otherwise.  When that call returns ready, exactly
one envelope is queued, built from that entry, and the entry is removed; when it
returns not ready, nothing is queued and the entry stays in the table. -/
theorem HandleInput_fast (decode : can_frame → CanHeader) (isFast : CanHeader → Bool)
    (now : TimePoint) (d : Driver) (frame : can_frame)
    (hfast : isFast (decode frame) = true) (hbuf : Buffered d.fast_messages) :
    (FindMatchingEntry d.fast_messages (decode frame) (frame.data 0) = kNotFound →
      ∃ m2 ready,
        (AddNewEntry d.fast_messages now).1.entries =
          d.fast_messages.entries ++ [Entry.fresh now] ∧
        (AddNewEntry d.fast_messages now).2 = (d.fast_messages.entries.length : Int) ∧
        InsertEntry (AddNewEntry d.fast_messages now).1 (decode frame) frame.data
          (AddNewEntry d.fast_messages now).2 = some (m2, ready) ∧
        (ready = true →
          ∃ env, PushFastMsgFragment m2 (decode frame) (AddNewEntry d.fast_messages now).2 =
              some (env, Remove m2 (AddNewEntry d.fast_messages now).2) ∧
            HandleInput decode isFast now d frame =
              some { fast_messages := Remove m2 (AddNewEntry d.fast_messages now).2
                     pending := d.pending ++ [env] } ∧
            (Remove m2 (AddNewEntry d.fast_messages now).2).entries =
              d.fast_messages.entries) ∧
        (ready = false →
          HandleInput decode isFast now d frame =
            some { fast_messages := m2, pending := d.pending } ∧
          m2.entries = d.fast_messages.entries ++
            [(Entry.fresh now).inserted (decode frame) frame.data])) ∧
    (∀ position : Int,
      FindMatchingEntry d.fast_messages (decode frame) (frame.data 0) = position →
      position ≠ kNotFound →
      ∃ m2 ready e,
        0 ≤ position ∧ d.fast_messages.entries[position.toNat]? = some e ∧
        AppendEntry d.fast_messages (decode frame) frame.data position = some (m2, ready) ∧
        (ready = true →
          ∃ env, PushFastMsgFragment m2 (decode frame) position =
              some (env, Remove m2 position) ∧
            HandleInput decode isFast now d frame =
              some { fast_messages := Remove m2 position
                     pending := d.pending ++ [env] } ∧
            (Remove m2 position).entries =
              d.fast_messages.entries.take position.toNat ++
                d.fast_messages.entries.drop (position.toNat + 1)) ∧
        (ready = false →
          HandleInput decode isFast now d frame =
            some { fast_messages := m2, pending := d.pending } ∧
          m2.entries = d.fast_messages.entries.set position.toNat
            (e.appended frame.data) ∧
          m2.entries[position.toNat]? = some (e.appended frame.data))) := by
  constructor
  · intro hfind
    have hins := InsertEntry_AddNewEntry d.fast_messages now (decode frame) frame.data
    refine ⟨_, _, rfl, rfl, hins, ?_, ?_⟩
    · intro hready
      have hpos : (0 : Int) ≤ (AddNewEntry d.fast_messages now).2 := Int.natCast_nonneg _
      have hle : (frame.data 1).toNat ≤ 6 := of_decide_eq_true hready
      have hpush := PushFastMsgFragment_eq
        { d.fast_messages with entries := d.fast_messages.entries ++
            [(Entry.fresh now).inserted (decode frame) frame.data] }
        (decode frame) (AddNewEntry d.fast_messages now).2
        ((Entry.fresh now).inserted (decode frame) frame.data) hpos
        (by simp [AddNewEntry])
        (by simpa [Entry.inserted, Entry.fresh, writeAt, frameBytesFrom_length] using hle)
      refine ⟨_, hpush, ?_, ?_⟩
      · simp only [HandleInput, HandleInput.lookup, hfast, hfind, if_true, hins,
          Option.map_some', Option.some_bind, hready, hpos, hpush]
      · simp [Remove, AddNewEntry, List.eraseIdx_append_of_length_le]
    · intro hready
      refine ⟨?_, rfl⟩
      simp only [HandleInput, HandleInput.lookup, hfast, hfind, if_true, hins,
        Option.map_some', Option.some_bind, hready]
      rfl
  · intro position hfind hne
    rcases FindMatchingEntry_spec d.fast_messages (decode frame) (frame.data 0) with
      h | ⟨i, e, hi, he, _⟩
    · exact absurd (hfind.symm.trans h) hne
    · have hpi : position = (i : Int) := hfind.symm.trans hi
      subst hpi
      have hpos : (0 : Int) ≤ (i : Int) := Int.natCast_nonneg _
      have hlt : i < d.fast_messages.entries.length := by
        rcases Nat.lt_or_ge i d.fast_messages.entries.length with h | h
        · exact h
        · rw [List.getElem?_eq_none h] at he
          cases he
      have happ := AppendEntry_at d.fast_messages (decode frame) frame.data i e he
      have hcur : e.cursor ≤ e.data.length := hbuf e (List.getElem?_mem he)
      have hne' : ¬ ((i : Int) = kNotFound) := hne
      refine ⟨_, _, e, hpos, by simpa using he, happ, ?_, ?_⟩
      · intro hready
        have hpush := PushFastMsgFragment_eq
          { d.fast_messages with
            entries := d.fast_messages.entries.set i (e.appended frame.data) }
          (decode frame) (i : Int) (e.appended frame.data) hpos (by simp [hlt])
          (appended_buffered e frame.data hcur (of_decide_eq_true hready))
        refine ⟨_, hpush, ?_, ?_⟩
        · simp only [HandleInput, HandleInput.lookup, hfast, hi, if_true, hne',
            if_false, happ, Option.map_some', Option.some_bind, hready, hpos, hpush]
        · rw [Remove_entries _ _ hpos]
          simp only [List.set_take, List.drop_set, Nat.lt_succ_self, if_true,
            Int.toNat_ofNat]
          rw [List.set_eq_of_length_le (by simp [List.length_take])]
      · intro hready
        refine ⟨?_, by simp, by simp [hlt]⟩
        simp only [HandleInput, HandleInput.lookup, hfast, hi, if_true, hne',
          if_false, happ, Option.map_some', Option.some_bind, hready]
        rfl

/-- C8 at the last fragment of a 20 byte message of PGN 129029 whose entry has
buffered 13 bytes. -/
theorem HandleInput_fast_witness :
    (FindMatchingEntry inFlightDriver.fast_messages gnssHeader (lastFragment.data 0) = kNotFound →
      ∃ m2 ready,
        (AddNewEntry inFlightDriver.fast_messages 42).1.entries =
          inFlightDriver.fast_messages.entries ++ [Entry.fresh 42] ∧
        (AddNewEntry inFlightDriver.fast_messages 42).2 = (inFlightDriver.fast_messages.entries.length : Int) ∧
        InsertEntry (AddNewEntry inFlightDriver.fast_messages 42).1 gnssHeader lastFragment.data
          (AddNewEntry inFlightDriver.fast_messages 42).2 = some (m2, ready) ∧
        (ready = true →
          ∃ env, PushFastMsgFragment m2 gnssHeader (AddNewEntry inFlightDriver.fast_messages 42).2 =
              some (env, Remove m2 (AddNewEntry inFlightDriver.fast_messages 42).2) ∧
            HandleInput (fun _ => gnssHeader) (fun _ => true) 42 inFlightDriver lastFragment =
              some { fast_messages := Remove m2 (AddNewEntry inFlightDriver.fast_messages 42).2
                     pending := inFlightDriver.pending ++ [env] } ∧
            (Remove m2 (AddNewEntry inFlightDriver.fast_messages 42).2).entries =
              inFlightDriver.fast_messages.entries) ∧
        (ready = false →
          HandleInput (fun _ => gnssHeader) (fun _ => true) 42 inFlightDriver lastFragment =
            some { fast_messages := m2, pending := inFlightDriver.pending } ∧
          m2.entries = inFlightDriver.fast_messages.entries ++
            [(Entry.fresh 42).inserted gnssHeader lastFragment.data])) ∧
    (∀ position : Int,
      FindMatchingEntry inFlightDriver.fast_messages gnssHeader (lastFragment.data 0) = position →
      position ≠ kNotFound →
      ∃ m2 ready e,
        0 ≤ position ∧ inFlightDriver.fast_messages.entries[position.toNat]? = some e ∧
        AppendEntry inFlightDriver.fast_messages gnssHeader lastFragment.data position = some (m2, ready) ∧
        (ready = true →
          ∃ env, PushFastMsgFragment m2 gnssHeader position =
              some (env, Remove m2 position) ∧
            HandleInput (fun _ => gnssHeader) (fun _ => true) 42 inFlightDriver lastFragment =
              some { fast_messages := Remove m2 position
                     pending := inFlightDriver.pending ++ [env] } ∧
            (Remove m2 position).entries =
              inFlightDriver.fast_messages.entries.take position.toNat ++
                inFlightDriver.fast_messages.entries.drop (position.toNat + 1)) ∧
        (ready = false →
          HandleInput (fun _ => gnssHeader) (fun _ => true) 42 inFlightDriver lastFragment =
            some { fast_messages := m2, pending := inFlightDriver.pending } ∧
          m2.entries = inFlightDriver.fast_messages.entries.set position.toNat
            (e.appended lastFragment.data) ∧
          m2.entries[position.toNat]? = some (e.appended lastFragment.data))) :=
  HandleInput_fast (fun _ => gnssHeader) (fun _ => true) 42 inFlightDriver lastFragment rfl
    (by
      intro e he
      have h : e = inFlightEntry := by simpa [inFlightDriver] using he
      subst h
      decide)

/-! ## Theorems: the ring buffer -/

namespace circular_buffer

/-- The successor of an index below `c`, modulo `c`. -/
theorem succ_mod (x c : Nat) (h : x < c) :
    (x + 1) % c = if x + 1 = c then 0 else x + 1 := by
  split
  · next h1 => rw [h1, Nat.mod_self]
  · next h1 => exact Nat.mod_eq_of_lt (by omega)

/-- The sum of two numbers, one below `c` and one at most `c`, modulo `c`. -/
theorem add_mod_wrap (t i c : Nat) (ht : t < c) (hi : i ≤ c) :
    (t + i) % c = if t + i < c then t + i else t + i - c := by
  split
  · next h1 => exact Nat.mod_eq_of_lt h1
  · next h1 =>
    rw [Nat.mod_eq_sub_mod (by omega)]
    exact Nat.mod_eq_of_lt (by omega)

/-- The number of stored bytes, without `%`. -/
theorem stored_eq (s : circular_buffer) (hwf : s.WellFormed) :
    s.stored = if s.full_ then s.max_size_
      else if s.tail_ ≤ s.head_ then s.head_ - s.tail_
      else s.head_ + s.max_size_ - s.tail_ := by
  obtain ⟨hc, _, hh, ht, _⟩ := hwf
  unfold stored
  split
  · rfl
  · split
    · next h1 =>
      have : s.head_ + s.max_size_ - s.tail_ = (s.head_ - s.tail_) + s.max_size_ := by omega
      rw [this, Nat.add_mod_right]
      exact Nat.mod_eq_of_lt (by omega)
    · next h1 => exact Nat.mod_eq_of_lt (by omega)

/-- The buffer never stores more than its capacity. -/
theorem stored_le (s : circular_buffer) (hwf : s.WellFormed) : s.stored ≤ s.max_size_ := by
  rw [stored_eq s hwf]
  obtain ⟨hc, _, hh, ht, _⟩ := hwf
  split
  · exact Nat.le_refl _
  · split <;> omega

/-- The list of stored bytes has `stored` elements. -/
theorem contents_length (s : circular_buffer) : s.contents.length = s.stored := by
  simp [contents]


/-- A cell of the array after the write `buf_[head_] = item`. -/
theorem getD_set (buf : List UInt8) (h j : Nat) (x : UInt8) (hh : h < buf.length) :
    (buf.set h x).getD j 0 = if j = h then x else buf.getD j 0 := by
  simp only [List.getD_eq_getElem?_getD, List.getElem?_set]
  by_cases hj : j = h
  · subst hj
    simp [hh]
  · have : ¬ h = j := fun e => hj e.symm
    simp [hj, this]

/-- The invariant is kept by `put`. -/
theorem put_wf (s : circular_buffer) (x : UInt8) (hwf : s.WellFormed) :
    (s.put x).WellFormed := by
  obtain ⟨hc, hb, hh, ht, hf⟩ := hwf
  refine ⟨hc, ?_, Nat.mod_lt _ hc, ?_, ?_⟩
  · simpa [put] using hb
  · show (if s.full_ then (s.tail_ + 1) % s.max_size_ else s.tail_) < s.max_size_
    split
    · exact Nat.mod_lt _ hc
    · exact ht
  · intro h
    exact of_decide_eq_true h

/-- The stored bytes after `put`: the new byte is appended, and the oldest byte is
dropped when the buffer was full. -/
theorem contents_put (s : circular_buffer) (x : UInt8) (hwf : s.WellFormed) :
    (s.put x).contents = (s.contents ++ [x]).drop (s.stored + 1 - s.max_size_) := by
  have hwf1 := put_wf s x hwf
  have hs := stored_eq s hwf
  have hs1 := stored_eq (s.put x) hwf1
  obtain ⟨hc, hb, hh, ht, hf⟩ := hwf
  have hhead : (s.put x).head_ = if s.head_ + 1 = s.max_size_ then 0 else s.head_ + 1 :=
    succ_mod s.head_ s.max_size_ hh
  have htail : (s.put x).tail_ = if s.full_ then
      (if s.tail_ + 1 = s.max_size_ then 0 else s.tail_ + 1) else s.tail_ := by
    show (if s.full_ then (s.tail_ + 1) % s.max_size_ else s.tail_) = _
    rw [succ_mod s.tail_ s.max_size_ ht]
  have hfull : (s.put x).full_ = decide ((s.put x).head_ = (s.put x).tail_) := rfl
  have hmax : (s.put x).max_size_ = s.max_size_ := rfl
  have hbuf : (s.put x).buf_ = s.buf_.set s.head_ x := rfl
  apply List.ext_getElem
  · simp only [contents_length, List.length_drop, List.length_append, List.length_cons,
      List.length_nil]
    rw [hs1, hs, hfull, hmax, hhead, htail]
    cases hfl : s.full_
    · simp only [Bool.false_eq_true, if_false, decide_eq_true_eq]
      split_ifs <;> omega
    · have := hf hfl
      simp only [if_true, decide_eq_true_eq]
      split_ifs <;> omega
  · intro i h1 h2
    simp only [contents_length] at h1
    have hi : i < s.max_size_ := Nat.lt_of_lt_of_le h1 (stored_le _ hwf1)
    rw [List.getElem_drop]
    simp only [contents, List.getElem_map, List.getElem_range, hbuf, hmax]
    rw [getD_set _ _ _ _ (by omega)]
    rw [hs1, hfull, hmax, hhead, htail] at h1
    have ht1 : (s.put x).tail_ < s.max_size_ := hwf1.2.2.2.1
    rw [add_mod_wrap (s.put x).tail_ i s.max_size_ ht1 (Nat.le_of_lt hi), htail]
    rw [List.getElem_append]
    simp only [List.length_map, List.length_range, List.getElem_map, List.getElem_range,
      List.getElem_singleton]
    rw [hs]
    cases hfl : s.full_
    · rw [hfl] at h1
      simp only [Bool.false_eq_true, if_false, decide_eq_true_eq] at h1 ⊢
      have h0 : (if s.tail_ ≤ s.head_ then s.head_ - s.tail_
          else s.head_ + s.max_size_ - s.tail_) + 1 - s.max_size_ = 0 := by
        split_ifs <;> omega
      rw [h0, Nat.zero_add, add_mod_wrap _ i _ ht (Nat.le_of_lt hi)]
      split_ifs at h1 ⊢ <;> first | rfl | omega
    · have hht := hf hfl
      rw [hfl] at h1
      simp only [if_true, decide_eq_true_eq] at h1 ⊢
      have h0 : s.max_size_ + 1 - s.max_size_ = 1 := by omega
      rw [h0, add_mod_wrap _ (1 + i) _ ht (by omega)]
      split_ifs <;> first | rfl | omega | (congr 1; omega)

/-- Under the invariant, `empty()` holds exactly when no byte is stored. -/
theorem empty_iff (s : circular_buffer) (hwf : s.WellFormed) :
    s.empty = true ↔ s.stored = 0 := by
  rw [stored_eq s hwf]
  obtain ⟨hc, _, hh, ht, hf⟩ := hwf
  unfold empty
  cases hfl : s.full_
  · simp only [Bool.not_false, Bool.true_and, decide_eq_true_eq, Bool.false_eq_true,
      if_false]
    split_ifs <;> omega
  · simp only [Bool.not_true, Bool.false_and, Bool.false_eq_true, if_true, false_iff]
    omega

/-- Under the invariant, `full()` holds exactly when the buffer stores `max_size_` bytes. -/
theorem full_iff (s : circular_buffer) (hwf : s.WellFormed) :
    s.full = true ↔ s.stored = s.max_size_ := by
  rw [stored_eq s hwf]
  obtain ⟨hc, _, hh, ht, hf⟩ := hwf
  unfold full
  cases hfl : s.full_
  · simp only [Bool.false_eq_true, if_false, false_iff]
    split_ifs <;> omega
  · simp

/-- A `get` on an empty buffer returns 0 and changes nothing. -/
theorem get_of_empty (s : circular_buffer) (h : s.empty = true) : s.get = (0, s) := by
  simp [get, h]

/-- The invariant is kept by `get`. -/
theorem get_wf (s : circular_buffer) (hwf : s.WellFormed) : (s.get).2.WellFormed := by
  unfold get
  split
  · exact hwf
  · obtain ⟨hc, hb, hh, ht, hf⟩ := hwf
    exact ⟨hc, hb, hh, Nat.mod_lt _ hc, fun h => by cases h⟩

/-- A `get` on a buffer that is not empty returns the oldest stored byte and leaves
the others. -/
theorem contents_get (s : circular_buffer) (hwf : s.WellFormed) (hne : s.empty = false) :
    s.contents = (s.get).1 :: (s.get).2.contents := by
  have hwf1 := get_wf s hwf
  have hs := stored_eq s hwf
  have hs1 := stored_eq (s.get).2 hwf1
  have hpos : s.stored ≠ 0 := fun h => by
    rw [(empty_iff s hwf).2 h] at hne
    cases hne
  obtain ⟨hc, hb, hh, ht, hf⟩ := hwf
  have hget : s.get = (s.buf_.getD s.tail_ 0,
      { s with full_ := false, tail_ := (s.tail_ + 1) % s.max_size_ }) := by
    simp [get, hne]
  rw [hget] at hs1 ⊢
  simp only [succ_mod s.tail_ s.max_size_ ht] at hs1 ⊢
  simp only [Bool.false_eq_true, if_false] at hs1
  have hht : s.full_ = false → s.head_ ≠ s.tail_ := by
    intro hfl heq
    simp [empty, hfl, heq] at hne
  apply List.ext_getElem
  · simp only [contents_length, List.length_cons]
    rw [hs1, hs]
    cases hfl : s.full_
    · have := hht hfl
      simp only [Bool.false_eq_true, if_false]
      split_ifs <;> omega
    · have := hf hfl
      simp only [if_true]
      split_ifs <;> omega
  · intro i h1 h2
    simp only [contents_length] at h1
    have hi : i < s.max_size_ := Nat.lt_of_lt_of_le h1 (stored_le _ ⟨hc, hb, hh, ht, hf⟩)
    simp only [contents, List.getElem_map, List.getElem_range]
    cases i with
    | zero =>
      simp only [Nat.add_zero, Nat.mod_eq_of_lt ht, List.getElem_cons_zero]
    | succ j =>
      simp only [List.getElem_cons_succ, List.getElem_map, List.getElem_range]
      congr 1
      have e1 := add_mod_wrap s.tail_ (j + 1) _ ht (by omega)
      by_cases ht1 : s.tail_ + 1 = s.max_size_
      · simp only [ht1, if_true, Nat.zero_add]
        rw [e1, Nat.mod_eq_of_lt (show j < s.max_size_ by omega)]
        split_ifs <;> omega
      · simp only [ht1, if_false]
        rw [e1, add_mod_wrap (s.tail_ + 1) j _ (by omega) (by omega)]
        split_ifs <;> omega

/-- On a buffer that stores at least `n` bytes, `n` calls of `get` return the `n` oldest
bytes, oldest first, and leave the others. -/
theorem getN_spec (n : Nat) (s : circular_buffer) (hwf : s.WellFormed)
    (hn : n ≤ s.stored) :
    (getN n s).1 = s.contents.take n ∧ (getN n s).2.WellFormed ∧
      (getN n s).2.contents = s.contents.drop n := by
  induction n generalizing s with
  | zero => exact ⟨by simp [getN], hwf, by simp [getN]⟩
  | succ k ih =>
    have hne : s.empty = false := by
      cases he : s.empty
      · rfl
      · have := (empty_iff s hwf).1 he
        omega
    have hc := contents_get s hwf hne
    have hst : s.stored = (s.get).2.stored + 1 := by
      rw [← contents_length s, hc, List.length_cons, contents_length]
    obtain ⟨a, b, c⟩ := ih (s.get).2 (get_wf s hwf) (by omega)
    refine ⟨?_, b, ?_⟩
    · show (s.get).1 :: (getN k (s.get).2).1 = _
      rw [a, hc, List.take_succ_cons]
    · show (getN k (s.get).2).2.contents = _
      rw [c, hc, List.drop_succ_cons]

/-- Calls of `get` on an empty buffer return zeros and change nothing. -/
theorem getN_of_empty (n : Nat) (s : circular_buffer) (h : s.empty = true) :
    getN n s = (List.replicate n 0, s) := by
  induction n with
  | zero => rfl
  | succ k ih =>
    show ((s.get).1 :: (getN k (s.get).2).1, (getN k (s.get).2).2) = _
    rw [get_of_empty s h, ih]
    rfl

/-- The invariant is kept by a sequence of `put`. -/
theorem putAll_wf (s : circular_buffer) (xs : List UInt8) (hwf : s.WellFormed) :
    (s.putAll xs).WellFormed := by
  induction xs generalizing s with
  | nil => exact hwf
  | cons x xs ih => exact ih (s.put x) (put_wf s x hwf)

/-- The capacity is not changed by `put`. -/
theorem putAll_max_size (s : circular_buffer) (xs : List UInt8) :
    (s.putAll xs).max_size_ = s.max_size_ := by
  induction xs generalizing s with
  | nil => rfl
  | cons x xs ih => exact ih (s.put x)

/-- The stored bytes after a sequence of `put`: the bytes stored before followed by the
new ones, cut down to the newest `max_size_`. -/
theorem contents_putAll (s : circular_buffer) (xs : List UInt8) (hwf : s.WellFormed) :
    (s.putAll xs).contents =
      (s.contents ++ xs).drop (s.stored + xs.length - s.max_size_) := by
  induction xs generalizing s with
  | nil =>
    have := stored_le s hwf
    simp [putAll, Nat.sub_eq_zero_of_le this]
  | cons x xs ih =>
    have hle := stored_le s hwf
    have hle1 := stored_le _ (put_wf s x hwf)
    have h1 := contents_put s x hwf
    have hst : (s.put x).stored = s.stored + 1 - (s.stored + 1 - s.max_size_) := by
      rw [← contents_length (s.put x), h1]
      simp [contents_length]
    show ((s.put x).putAll xs).contents = _
    rw [ih (s.put x) (put_wf s x hwf), h1, hst]
    have hmax : (s.put x).max_size_ = s.max_size_ := rfl
    rw [hmax, ← List.drop_append_of_le_length (by simp [contents_length]),
      List.drop_drop, List.append_assoc, List.singleton_append, List.length_cons]
    congr 1
    omega

/-- A new buffer stores nothing and satisfies the invariant. -/
theorem create_spec (mem : List UInt8) (hc : 1 ≤ mem.length) :
    (create mem).WellFormed ∧ (create mem).contents = [] ∧ (create mem).stored = 0 := by
  have hwf : (create mem).WellFormed := ⟨hc, rfl, hc, hc, fun h => by cases h⟩
  have h0 : (create mem).stored = 0 := by
    rw [stored_eq _ hwf]
    simp [create]
  refine ⟨hwf, ?_, h0⟩
  simp [contents, h0]

/-- The stored bytes after putting `xs` into a new buffer of capacity `mem.length`:
the newest `mem.length` bytes of `xs`. -/
theorem contents_create_putAll (mem xs : List UInt8) (hc : 1 ≤ mem.length) :
    ((create mem).putAll xs).WellFormed ∧
      ((create mem).putAll xs).contents = xs.drop (xs.length - mem.length) := by
  obtain ⟨hwf, hcont, hst⟩ := create_spec mem hc
  refine ⟨putAll_wf _ xs hwf, ?_⟩
  rw [contents_putAll _ xs hwf, hcont, hst]
  simp [create]

/-- C9: putting `N ≤ c` bytes into a new buffer of capacity `c ≥ 1` and calling `get`
`N` times returns those bytes in the order written, and the buffer is empty
afterwards. -/
theorem put_get_roundtrip (mem xs : List UInt8) (hc : 1 ≤ mem.length)
    (hn : xs.length ≤ mem.length) :
    (getN xs.length ((create mem).putAll xs)).1 = xs ∧
      (getN xs.length ((create mem).putAll xs)).2.empty = true := by
  obtain ⟨hwf, hcont⟩ := contents_create_putAll mem xs hc
  rw [Nat.sub_eq_zero_of_le hn, List.drop_zero] at hcont
  have hst : ((create mem).putAll xs).stored = xs.length := by
    rw [← contents_length, hcont]
  obtain ⟨a, b, c⟩ := getN_spec xs.length _ hwf (Nat.le_of_eq hst.symm)
  rw [hcont] at a c
  refine ⟨by simpa using a, ?_⟩
  rw [empty_iff _ b, ← contents_length, c]
  simp

/-- C9 at capacity 3 and the bytes 1, 2, 3. -/
theorem put_get_roundtrip_witness :
    (getN [1, 2, 3].length ((create [9, 9, 9]).putAll [1, 2, 3])).1 = [1, 2, 3] ∧
      (getN [1, 2, 3].length ((create [9, 9, 9]).putAll [1, 2, 3])).2.empty = true :=
  put_get_roundtrip [9, 9, 9] [1, 2, 3] (by decide) (by decide)

/-- C10: putting `M > c` bytes into a new buffer of capacity `c ≥ 1` leaves it full; the
next `c` calls of `get` return the last `c` bytes written, in the order written,
and leave the buffer empty, so that every later `get` returns 0: the `M - c`
oldest bytes are never returned. -/
theorem put_overflow (mem xs : List UInt8) (hc : 1 ≤ mem.length)
    (hm : mem.length < xs.length) :
    ((create mem).putAll xs).full = true ∧
      (getN mem.length ((create mem).putAll xs)).1 = xs.drop (xs.length - mem.length) ∧
      (getN mem.length ((create mem).putAll xs)).2.empty = true ∧
      ∀ k, getN k (getN mem.length ((create mem).putAll xs)).2 =
        (List.replicate k 0, (getN mem.length ((create mem).putAll xs)).2) := by
  obtain ⟨hwf, hcont⟩ := contents_create_putAll mem xs hc
  have hmax : ((create mem).putAll xs).max_size_ = mem.length := putAll_max_size _ xs
  have hst : ((create mem).putAll xs).stored = mem.length := by
    rw [← contents_length, hcont, List.length_drop]
    omega
  obtain ⟨a, b, c⟩ := getN_spec mem.length _ hwf (Nat.le_of_eq hst.symm)
  have hempty : (getN mem.length ((create mem).putAll xs)).2.empty = true := by
    rw [empty_iff _ b, ← contents_length, c, List.length_drop, contents_length, hst]
    omega
  refine ⟨?_, ?_, hempty, fun k => getN_of_empty k _ hempty⟩
  · rw [full_iff _ hwf, hst, hmax]
  · rw [a, hcont]
    apply List.take_of_length_le
    rw [List.length_drop]
    omega

/-- C10 at capacity 3 and the bytes 1, 2, 3, 4, 5. -/
theorem put_overflow_witness :
    ((create [9, 9, 9]).putAll [1, 2, 3, 4, 5]).full = true ∧
      (getN [9, 9, 9].length ((create [9, 9, 9]).putAll [1, 2, 3, 4, 5])).1 =
        [1, 2, 3, 4, 5].drop ([1, 2, 3, 4, 5].length - [9, 9, 9].length) ∧
      (getN [9, 9, 9].length ((create [9, 9, 9]).putAll [1, 2, 3, 4, 5])).2.empty = true ∧
      ∀ k, getN k (getN [9, 9, 9].length ((create [9, 9, 9]).putAll [1, 2, 3, 4, 5])).2 =
        (List.replicate k 0,
          (getN [9, 9, 9].length ((create [9, 9, 9]).putAll [1, 2, 3, 4, 5])).2) :=
  put_overflow [9, 9, 9] [1, 2, 3, 4, 5] (by decide) (by decide)

end circular_buffer

/-! ## Theorems: the ring buffer under arbitrary calls -/

namespace circular_buffer

/-- C11: in every state in which `empty()` holds, `get` returns 0 and leaves `head_`,
`tail_`, `full_` and the stored bytes unchanged. -/
theorem get_empty_unchanged (s : circular_buffer) (h : s.empty = true) :
    (s.get).1 = 0 ∧ (s.get).2.head_ = s.head_ ∧ (s.get).2.tail_ = s.tail_ ∧
      (s.get).2.full_ = s.full_ ∧ (s.get).2.buf_ = s.buf_ ∧
      (s.get).2.max_size_ = s.max_size_ ∧ (s.get).2.contents = s.contents ∧
      (s.get).2 = s := by
  have hg : s.get = (0, s) := by simp [get, h]
  rw [hg]
  exact ⟨rfl, rfl, rfl, rfl, rfl, rfl, rfl, rfl⟩

/-- C11 at a new buffer of capacity 3. -/
theorem get_empty_unchanged_witness :
    ((create [7, 8, 9]).get).1 = 0 ∧
      ((create [7, 8, 9]).get).2.head_ = (create [7, 8, 9]).head_ ∧
      ((create [7, 8, 9]).get).2.tail_ = (create [7, 8, 9]).tail_ ∧
      ((create [7, 8, 9]).get).2.full_ = (create [7, 8, 9]).full_ ∧
      ((create [7, 8, 9]).get).2.buf_ = (create [7, 8, 9]).buf_ ∧
      ((create [7, 8, 9]).get).2.max_size_ = (create [7, 8, 9]).max_size_ ∧
      ((create [7, 8, 9]).get).2.contents = (create [7, 8, 9]).contents ∧
      ((create [7, 8, 9]).get).2 = create [7, 8, 9] :=
  get_empty_unchanged (create [7, 8, 9]) (by decide)

/-- Under the invariant the two ways of counting the stored bytes agree. -/
theorem storedSpec_eq (s : circular_buffer) (hwf : s.WellFormed) :
    s.storedSpec = (s.stored : Int) := by
  rw [stored_eq s hwf]
  obtain ⟨hc, _, hh, ht, hf⟩ := hwf
  unfold storedSpec
  cases hfl : s.full_
  · simp only [Bool.false_eq_true, if_false]
    split
    · next h1 =>
      rw [Int.emod_eq_of_lt (by omega) (by omega)]
      omega
    · next h1 =>
      have e : ((s.head_ : Int) - (s.tail_ : Int)) % (s.max_size_ : Int) =
          ((s.head_ : Int) - (s.tail_ : Int) + (s.max_size_ : Int)) % (s.max_size_ : Int) := by
        rw [Int.add_emod_self]
      rw [e, Int.emod_eq_of_lt (by omega) (by omega)]
      omega
  · simp

/-- The count of stored bytes after `put`. -/
theorem stored_put (s : circular_buffer) (x : UInt8) (hwf : s.WellFormed) :
    (s.put x).stored = min (s.stored + 1) s.max_size_ := by
  have h := congrArg List.length (contents_put s x hwf)
  have hle := stored_le s hwf
  simp only [contents_length, List.length_drop, List.length_append, List.length_cons,
    List.length_nil] at h
  omega

/-- The count of stored bytes after a `get` on a buffer that is not empty. -/
theorem stored_get (s : circular_buffer) (hwf : s.WellFormed) (hne : s.empty = false) :
    (s.get).2.stored + 1 = s.stored := by
  have h := congrArg List.length (contents_get s hwf hne)
  simp only [contents_length, List.length_cons] at h
  exact h.symm

/-- The invariant is kept by every call. -/
theorem step_wf (s : circular_buffer) (op : Op) (hwf : s.WellFormed) :
    (s.step op).WellFormed := by
  cases op with
  | put item => exact put_wf s item hwf
  | get => exact get_wf s hwf

/-- The invariant is kept by every sequence of calls. -/
theorem run_wf (s : circular_buffer) (ops : List Op) (hwf : s.WellFormed) :
    (s.run ops).WellFormed := by
  induction ops generalizing s with
  | nil => exact hwf
  | cons op ops ih => exact ih (s.step op) (step_wf s op hwf)

/-- The capacity is not changed by any call. -/
theorem run_max_size (s : circular_buffer) (ops : List Op) :
    (s.run ops).max_size_ = s.max_size_ := by
  induction ops generalizing s with
  | nil => rfl
  | cons op ops ih =>
    show ((s.step op).run ops).max_size_ = _
    rw [ih (s.step op)]
    cases op with
    | put item => rfl
    | get =>
      show (s.get).2.max_size_ = _
      unfold get
      split <;> rfl

/-- The bytes handed out and the bytes still stored never exceed the bytes stored at
the start and the bytes put. -/
theorem delivered_le (s : circular_buffer) (ops : List Op) (hwf : s.WellFormed) :
    delivered s ops + (s.run ops).stored ≤ s.stored + puts ops := by
  induction ops generalizing s with
  | nil =>
    show 0 + s.stored ≤ s.stored + 0
    omega
  | cons op ops ih =>
    cases op with
    | put item =>
      have h := ih (s.put item) (put_wf s item hwf)
      have h1 := stored_put s item hwf
      show delivered (s.put item) ops + ((s.put item).run ops).stored ≤ s.stored + (puts ops + 1)
      omega
    | get =>
      have h := ih (s.get).2 (get_wf s hwf)
      show (if s.empty then 0 else 1) + delivered (s.get).2 ops +
        ((s.get).2.run ops).stored ≤ s.stored + puts ops
      cases he : s.empty
      · have h1 := stored_get s hwf he
        simp only [Bool.false_eq_true, if_false]
        omega
      · rw [get_of_empty s he] at h ⊢
        simp only [if_true] at h ⊢
        omega

/-- C12: with `stored` the capacity when `full_` is set and `(head_ - tail_) mod
capacity` otherwise, every state reached from a new buffer of capacity `c ≥ 1` by
`put` and `get` has `head_ < c`, `tail_ < c`, `stored ≤ c`, `empty()` iff
`stored = 0` and `full()` iff `stored = c`; `put` changes `stored` to
`min (stored + 1) c`, a `get` on a buffer that is not empty lowers it by exactly 1,
and the bytes handed out by such `get` calls are never more than the `put` calls. -/
theorem reachable_counts (mem : List UInt8) (ops : List Op) (hc : 1 ≤ mem.length) :
    ((create mem).run ops).max_size_ = mem.length ∧
      ((create mem).run ops).head_ < mem.length ∧
      ((create mem).run ops).tail_ < mem.length ∧
      0 ≤ ((create mem).run ops).storedSpec ∧
      ((create mem).run ops).storedSpec ≤ (mem.length : Int) ∧
      (((create mem).run ops).empty = true ↔ ((create mem).run ops).storedSpec = 0) ∧
      (((create mem).run ops).full = true ↔
        ((create mem).run ops).storedSpec = (mem.length : Int)) ∧
      (∀ item, (((create mem).run ops).put item).storedSpec =
        min (((create mem).run ops).storedSpec + 1) (mem.length : Int)) ∧
      (((create mem).run ops).empty = false →
        (((create mem).run ops).get).2.storedSpec =
          ((create mem).run ops).storedSpec - 1) ∧
      (delivered (create mem) ops : Int) + ((create mem).run ops).storedSpec ≤
        (puts ops : Int) ∧
      delivered (create mem) ops ≤ puts ops := by
  obtain ⟨hwf0, _, hst0⟩ := create_spec mem hc
  have hwf := run_wf _ ops hwf0
  have hmax : ((create mem).run ops).max_size_ = mem.length := run_max_size _ ops
  have hs := storedSpec_eq _ hwf
  have hle := stored_le _ hwf
  have hd := delivered_le _ ops hwf0
  rw [hst0] at hd
  have hh := hwf.2.2.1
  have ht := hwf.2.2.2.1
  rw [hmax] at hh ht hle
  refine ⟨hmax, hh, ht, by omega, by omega, ?_, ?_, ?_, ?_, by omega, by omega⟩
  · rw [empty_iff _ hwf, hs]
    omega
  · rw [full_iff _ hwf, hs, hmax]
    omega
  · intro item
    rw [storedSpec_eq _ (put_wf _ item hwf), stored_put _ item hwf, hs, hmax]
    omega
  · intro hne
    have := stored_get _ hwf hne
    rw [storedSpec_eq _ (get_wf _ hwf), hs]
    omega

/-- C12 at capacity 2 and the calls put 1, put 2, put 3, get, get, get. -/
theorem reachable_counts_witness :
    ((create twoCells).run sampleCalls).max_size_ = twoCells.length ∧
      ((create twoCells).run sampleCalls).head_ < twoCells.length ∧
      ((create twoCells).run sampleCalls).tail_ < twoCells.length ∧
      0 ≤ ((create twoCells).run sampleCalls).storedSpec ∧
      ((create twoCells).run sampleCalls).storedSpec ≤ (twoCells.length : Int) ∧
      (((create twoCells).run sampleCalls).empty = true ↔
        ((create twoCells).run sampleCalls).storedSpec = 0) ∧
      (((create twoCells).run sampleCalls).full = true ↔
        ((create twoCells).run sampleCalls).storedSpec = (twoCells.length : Int)) ∧
      (∀ item, (((create twoCells).run sampleCalls).put item).storedSpec =
        min (((create twoCells).run sampleCalls).storedSpec + 1) (twoCells.length : Int)) ∧
      (((create twoCells).run sampleCalls).empty = false →
        (((create twoCells).run sampleCalls).get).2.storedSpec =
          ((create twoCells).run sampleCalls).storedSpec - 1) ∧
      (delivered (create twoCells) sampleCalls : Int) +
          ((create twoCells).run sampleCalls).storedSpec ≤
        (puts sampleCalls : Int) ∧
      delivered (create twoCells) sampleCalls ≤ puts sampleCalls :=
  reachable_counts twoCells sampleCalls (by decide)

end circular_buffer

/-! ## Theorems: garbage collection -/

/-- The state of the pass of `GarbageCollector` over a list of entries. -/
theorem GarbageCollector_foldl (now : TimePoint) (es : List Entry)
    (acc : FastMessageMap × Int) :
    (es.foldl (GarbageCollector.visit now) acc).1.entries =
        acc.1.entries ++ es.filter (fun e => !e.IsExpired now) ∧
      (es.foldl (GarbageCollector.visit now) acc).2 =
        acc.2 + ((es.filter (fun e => e.IsExpired now)).length : Int) ∧
      (es.foldl (GarbageCollector.visit now) acc).1.dropped_frames =
        acc.1.dropped_frames + ((es.filter (fun e => e.IsExpired now)).length : Int) ∧
      (es.foldl (GarbageCollector.visit now) acc).1.last_gc_run = acc.1.last_gc_run ∧
      (es.foldl (GarbageCollector.visit now) acc).1.dropped_frame_time =
        if (es.filter (fun e => e.IsExpired now)).length = 0 then
          acc.1.dropped_frame_time else now := by
  induction es generalizing acc with
  | nil => simp
  | cons e es ih =>
    rw [List.foldl_cons]
    obtain ⟨h1, h2, h3, h4, h5⟩ := ih (GarbageCollector.visit now acc e)
    rw [h1, h2, h3, h4, h5]
    cases hx : e.IsExpired now
    · simp [GarbageCollector.visit, hx]
    · simp only [GarbageCollector.visit, hx, if_true, List.filter_cons_of_pos,
        List.length_cons, Bool.not_true, Bool.false_eq_true, not_false_eq_true,
        List.filter_cons_of_neg, Nat.cast_add, Nat.cast_one, Nat.add_one_ne_zero,
        if_false]
      refine ⟨trivial, ?_, ?_, trivial, ?_⟩
      · omega
      · omega
      · split <;> rfl

/-- The table and the count that `GarbageCollector` returns. -/
theorem GarbageCollector_eq (m : FastMessageMap) (now : TimePoint) :
    (GarbageCollector m now).1.entries = m.entries.filter (fun e => !e.IsExpired now) ∧
      (GarbageCollector m now).2 = ((m.entries.filter (fun e => e.IsExpired now)).length : Int) ∧
      (GarbageCollector m now).1.dropped_frames =
        m.dropped_frames + ((m.entries.filter (fun e => e.IsExpired now)).length : Int) ∧
      (GarbageCollector m now).1.last_gc_run = m.last_gc_run ∧
      (GarbageCollector m now).1.dropped_frame_time =
        if (m.entries.filter (fun e => e.IsExpired now)).length = 0 then
          m.dropped_frame_time else now := by
  have h := GarbageCollector_foldl now m.entries ({ m with entries := [] }, 0)
  simpa [GarbageCollector] using h

/-- The position that `floorLog2.go` returns is that of the highest set bit. -/
theorem floorLog2_go_spec (k : Nat) :
    ∀ n, 0 < n → n < 2 ^ 2 ^ k →
      2 ^ floorLog2.go k n ≤ n ∧ n < 2 ^ (floorLog2.go k n + 1) := by
  induction k with
  | zero =>
    intro n h0 h1
    have h : n = 1 := by
      simp only [pow_zero, pow_one] at h1
      omega
    subst h
    exact ⟨by simp [floorLog2.go], by simp [floorLog2.go]⟩
  | succ k ih =>
    intro n h0 h1
    have hpos : 0 < 2 ^ 2 ^ k := Nat.two_pow_pos _
    have hsq : 2 ^ 2 ^ (k + 1) = 2 ^ 2 ^ k * 2 ^ 2 ^ k := by
      rw [← pow_add, pow_succ, Nat.mul_two]
    unfold floorLog2.go
    rw [Nat.shiftRight_eq_div_pow]
    by_cases hc : n / 2 ^ 2 ^ k = 0
    · rw [if_pos hc]
      exact ih n h0 ((Nat.div_eq_zero_iff hpos).1 hc)
    · rw [if_neg hc]
      have hq0 : 0 < n / 2 ^ 2 ^ k := Nat.pos_of_ne_zero hc
      have hq1 : n / 2 ^ 2 ^ k < 2 ^ 2 ^ k := by
        rw [Nat.div_lt_iff_lt_mul hpos, ← hsq]
        exact h1
      obtain ⟨l, u⟩ := ih (n / 2 ^ 2 ^ k) hq0 hq1
      constructor
      · rw [pow_add]
        calc 2 ^ 2 ^ k * 2 ^ floorLog2.go k (n / 2 ^ 2 ^ k)
            ≤ 2 ^ 2 ^ k * (n / 2 ^ 2 ^ k) := Nat.mul_le_mul_left _ l
          _ ≤ n := Nat.mul_div_le n _
      · have hn : n < 2 ^ 2 ^ k * (n / 2 ^ 2 ^ k + 1) := Nat.lt_mul_div_succ n hpos
        have he : 2 ^ (2 ^ k + floorLog2.go k (n / 2 ^ 2 ^ k) + 1) =
            2 ^ 2 ^ k * 2 ^ (floorLog2.go k (n / 2 ^ 2 ^ k) + 1) := by
          rw [← pow_add, Nat.add_assoc]
        rw [he]
        exact Nat.lt_of_lt_of_le hn (Nat.mul_le_mul_left _ u)

/-- The position that `floorLog2` returns is that of the highest set bit, for every
positive number below 2^4096. -/
theorem floorLog2_spec (n : Nat) (h0 : 0 < n) (h1 : n < 2 ^ 2 ^ 12) :
    2 ^ floorLog2 n ≤ n ∧ n < 2 ^ (floorLog2 n + 1) :=
  floorLog2_go_spec 12 n h0 h1

/-- The entries that a test keeps and those that it drops are all entries. -/
theorem length_filter_add (p : Entry → Bool) (es : List Entry) :
    (es.filter p).length + (es.filter (fun e => !p e)).length = es.length := by
  induction es with
  | nil => rfl
  | cons e es ih =>
    cases hx : p e <;> simp [hx] <;> omega

/-- The two constants converted to `duration<double, nano>`: 10 and 100 seconds,
without rounding. -/
theorem millisecondsToDouble_constants :
    millisecondsToDouble kGcInterval = 10 * ticksPerSecond * doubleUnit ∧
      millisecondsToDouble kEntryMaxAge = 100 * ticksPerSecond * doubleUnit := by
  decide

/-- An entry is expired exactly when its age, computed in double precision, is more
than 100 seconds. -/
theorem IsExpired_iff (e : Entry) (now : TimePoint) :
    e.IsExpired now = true ↔
      elapsed now e.time_arrived > ((100 * ticksPerSecond * doubleUnit : Nat) : Int) := by
  simp [Entry.IsExpired, millisecondsToDouble_constants.2]

/-- The nearest whole number is at most half a step away. -/
theorem roundNearestEven_error (num den : Nat) (hden : 0 < den) :
    2 * ((roundNearestEven num den : Int) * den - num) ≤ den ∧
      -(den : Int) ≤ 2 * ((roundNearestEven num den : Int) * den - num) := by
  have hdm : den * (num / den) + num % den = num := Nat.div_add_mod num den
  have hlt : num % den < den := Nat.mod_lt num hden
  have hz : ((den * (num / den) : Nat) : Int) + ((num % den : Nat) : Int) = (num : Int) := by
    exact_mod_cast hdm
  have hmul : ((den * (num / den) : Nat) : Int) = ((num / den : Nat) : Int) * den := by
    push_cast
    ring
  unfold roundNearestEven
  simp only []
  split_ifs with h1 h2 h3
  · constructor <;> omega
  · have : (((num / den + 1 : Nat) : Int)) * den = ((num / den : Nat) : Int) * den + den := by
      push_cast
      ring
    rw [this]
    constructor <;> omega
  · constructor <;> omega
  · have : (((num / den + 1 : Nat) : Int)) * den = ((num / den : Nat) : Int) * den + den := by
      push_cast
      ring
    rw [this]
    constructor <;> omega

/-- The position of the highest set bit of a number below `2 ^ (m + 1)` is at most
`m`. -/
theorem floorLog2_le (n m : Nat) (h : n < 2 ^ (m + 1)) (hm : m + 1 ≤ 2 ^ 12) :
    floorLog2 n ≤ m := by
  rcases Nat.eq_zero_or_pos n with h0 | h0
  · subst h0
    have : floorLog2 0 = 0 := by decide
    rw [this]
    exact Nat.zero_le _
  · have hb : n < 2 ^ 2 ^ 12 :=
      Nat.lt_of_lt_of_le h (Nat.pow_le_pow_right (by decide) hm)
    obtain ⟨l, _⟩ := floorLog2_spec n h0 hb
    have : 2 ^ floorLog2 n < 2 ^ (m + 1) := Nat.lt_of_le_of_lt l h
    have := (Nat.pow_lt_pow_iff_right (by decide : 1 < 2)).1 this
    omega

/-- The `double` nearest to a value below `2 ^ (53 + j)` units is at most
`2 ^ j / 2` units away. -/
theorem roundDouble_error (num den j : Nat) (hden : 0 < den)
    (h : num / den < 2 ^ (53 + j)) (hj : 53 + j ≤ 2 ^ 12) :
    2 * ((roundDouble num den : Int) * den - num) ≤ (den : Int) * 2 ^ j ∧
      -((den : Int) * 2 ^ j) ≤ 2 * ((roundDouble num den : Int) * den - num) := by
  have he : floorLog2 (num / den) - 52 ≤ j := by
    have := floorLog2_le (num / den) (52 + j) (by rw [show 52 + j + 1 = 53 + j by omega]; exact h)
      (by omega)
    omega
  have hD : 0 < den * 2 ^ (floorLog2 (num / den) - 52) :=
    Nat.mul_pos hden (Nat.two_pow_pos _)
  obtain ⟨u, l⟩ := roundNearestEven_error num (den * 2 ^ (floorLog2 (num / den) - 52)) hD
  have hpow : (2 : Int) ^ (floorLog2 (num / den) - 52) ≤ 2 ^ j :=
    pow_le_pow_right₀ (by decide) he
  have hmono : (den : Int) * 2 ^ (floorLog2 (num / den) - 52) ≤ (den : Int) * 2 ^ j :=
    mul_le_mul_of_nonneg_left hpow (Int.natCast_nonneg _)
  have hval : (roundDouble num den : Int) * den =
      (roundNearestEven num (den * 2 ^ (floorLog2 (num / den) - 52)) : Int) *
        ((den * 2 ^ (floorLog2 (num / den) - 52) : Nat) : Int) := by
    unfold roundDouble
    simp only [Nat.shiftLeft_eq]
    push_cast
    ring
  rw [hval]
  push_cast at u l ⊢
  constructor
  · exact le_trans u hmono
  · exact le_trans (neg_le_neg hmono) l

/-- The unit count of the value 1, as a power of two. -/
theorem doubleUnit_eq : doubleUnit = 2 ^ doubleExponent := by
  unfold doubleUnit
  rw [Nat.shiftLeft_eq, Nat.one_mul]

/-- The unit count of the value 1 is positive. -/
theorem doubleUnit_pos : 0 < doubleUnit := by
  rw [doubleUnit_eq]
  exact Nat.two_pow_pos _

/-- A bound by a multiple of the unit, as a bound by a power of two. -/
theorem lt_two_pow_of_lt_mul_doubleUnit (x c : Nat) (h : x < 2 ^ c * doubleUnit) :
    x < 2 ^ (c + doubleExponent) := by
  rw [pow_add, ← doubleUnit_eq]
  exact h

/-- A power of two from 2^1074 on, as a multiple of the unit. -/
theorem two_pow_add_doubleUnit (c : Nat) :
    (2 : Int) ^ (c + doubleExponent) = 2 ^ c * (doubleUnit : Int) := by
  rw [pow_add, doubleUnit_eq]
  push_cast
  rfl

/-- The unit is 2^19 times the power 2^1055. -/
theorem doubleUnit_split :
    (doubleUnit : Int) = 524288 * 2 ^ (doubleExponent - 19) ∧
      (0 : Int) < 2 ^ (doubleExponent - 19) := by
  constructor
  · have h : doubleExponent = 19 + (doubleExponent - 19) := by decide
    have h19 : (2 : Int) ^ 19 = 524288 := by norm_num
    rw [doubleUnit_eq]
    push_cast
    nth_rewrite 1 [h]
    rw [pow_add, h19]
  · exact pow_pos (by decide) _

/-- The conversion of a tick count below 2^63 to `double` is at most 512 ticks
away from the count. -/
theorem toDouble_error (n : Nat) (hn : n < 2 ^ 63) :
    (toDouble n : Int) - n * doubleUnit ≤ 512 * doubleUnit ∧
      -(512 * (doubleUnit : Int)) ≤ (toDouble n : Int) - n * doubleUnit := by
  have he : 53 + (10 + doubleExponent) = 63 + doubleExponent := by omega
  have hq : n * doubleUnit / 1 < 2 ^ (53 + (10 + doubleExponent)) := by
    rw [Nat.div_one, he]
    exact lt_two_pow_of_lt_mul_doubleUnit _ 63
      (Nat.mul_lt_mul_of_pos_right hn doubleUnit_pos)
  obtain ⟨u, l⟩ := roundDouble_error (n * doubleUnit) 1 (10 + doubleExponent) (by decide) hq
    (by decide)
  have hp := two_pow_add_doubleUnit 10
  have h10 : (2 : Int) ^ 10 = 1024 := by norm_num
  rw [h10] at hp
  rw [hp] at u l
  unfold toDouble
  push_cast at u l ⊢
  constructor <;> omega

/-- The value that a `TimePoint` holds, converted back to nanoseconds, is at most
2490 ticks away from the clock reading it was assigned, for a reading below
2^63. -/
theorem storedNanos_error (t : Nat) (ht : t < 2 ^ 63) :
    (storedNanos t : Int) - t * doubleUnit ≤ 2490 * doubleUnit ∧
      -(2490 * (doubleUnit : Int)) ≤ (storedNanos t : Int) - t * doubleUnit := by
  obtain ⟨u1, l1⟩ := toDouble_error t ht
  obtain ⟨hU, hV⟩ := doubleUnit_split
  have hUpos : (0 : Int) < doubleUnit := by exact_mod_cast doubleUnit_pos
  have ht' : (t : Int) < 9223372036854775808 := by exact_mod_cast ht
  have htU : (t : Int) * doubleUnit ≤ 9223372036854775807 * doubleUnit :=
    mul_le_mul_of_nonneg_right (by omega) (le_of_lt hUpos)
  -- the division by 1e9
  have hT2 : ticksPerSecond = 1000000000 := rfl
  have ha : toDouble t < ticksPerSecond * 2 ^ (34 + doubleExponent) := by
    have h34 : (2 : Nat) ^ 34 = 17179869184 := by norm_num
    rw [pow_add, ← doubleUnit_eq, h34, hT2]
    have : (toDouble t : Int) < 1000000000 * (17179869184 * (doubleUnit : Int)) := by omega
    exact_mod_cast this
  have he2 : 53 + (doubleExponent - 19) = 34 + doubleExponent := by decide
  have hq2 : toDouble t / ticksPerSecond < 2 ^ (53 + (doubleExponent - 19)) := by
    rw [he2]
    exact Nat.div_lt_of_lt_mul ha
  obtain ⟨u2, l2⟩ := roundDouble_error (toDouble t) ticksPerSecond (doubleExponent - 19)
    (by decide) hq2 (by decide)
  have hs : (roundDouble (toDouble t) ticksPerSecond : Int) = (storedSeconds t : Int) := rfl
  have hT : ((ticksPerSecond : Nat) : Int) = 1000000000 := rfl
  rw [hs, hT] at u2 l2
  -- the multiplication by 1e9
  have hb : storedSeconds t * ticksPerSecond / 1 < 2 ^ (53 + (11 + doubleExponent)) := by
    have he3 : 53 + (11 + doubleExponent) = 64 + doubleExponent := by omega
    have h64 : (2 : Nat) ^ 64 = 18446744073709551616 := by norm_num
    rw [Nat.div_one, he3]
    apply lt_two_pow_of_lt_mul_doubleUnit
    rw [h64]
    have : ((storedSeconds t : Int)) * 1000000000 < 18446744073709551616 * (doubleUnit : Int) := by
      omega
    rw [hT2]
    exact_mod_cast this
  obtain ⟨u3, l3⟩ := roundDouble_error (storedSeconds t * ticksPerSecond) 1
    (11 + doubleExponent) (by decide) hb (by decide)
  have hp := two_pow_add_doubleUnit 11
  have h11 : (2 : Int) ^ 11 = 2048 := by norm_num
  rw [h11] at hp
  rw [hp] at u3 l3
  have hn : (roundDouble (storedSeconds t * ticksPerSecond) 1 : Int) = (storedNanos t : Int) :=
    rfl
  rw [hn] at u3 l3
  push_cast at u3 l3
  rw [hT] at u3 l3
  constructor <;> omega

/-- The rounding of a signed difference below 2^64 ticks in size changes it by at
most 1024 ticks. -/
theorem roundDoubleInt_error (d : Int)
    (hu : d < 18446744073709551616 * (doubleUnit : Int))
    (hl : -(18446744073709551616 * (doubleUnit : Int)) < d) :
    roundDoubleInt d 1 - d ≤ 1024 * doubleUnit ∧
      -(1024 * (doubleUnit : Int)) ≤ roundDoubleInt d 1 - d := by
  have he3 : 53 + (11 + doubleExponent) = 64 + doubleExponent := by omega
  have h64 : (2 : Nat) ^ 64 = 18446744073709551616 := by norm_num
  have hp := two_pow_add_doubleUnit 11
  have h11 : (2 : Int) ^ 11 = 2048 := by norm_num
  rw [h11] at hp
  have key : ∀ m : Nat, (m : Int) < 18446744073709551616 * (doubleUnit : Int) →
      (roundDouble m 1 : Int) - m ≤ 1024 * doubleUnit ∧
        -(1024 * (doubleUnit : Int)) ≤ (roundDouble m 1 : Int) - m := by
    intro m hm
    have hb : m / 1 < 2 ^ (53 + (11 + doubleExponent)) := by
      rw [Nat.div_one, he3]
      apply lt_two_pow_of_lt_mul_doubleUnit
      rw [h64]
      exact_mod_cast hm
    obtain ⟨u, l⟩ := roundDouble_error m 1 (11 + doubleExponent) (by decide) hb (by decide)
    rw [hp] at u l
    push_cast at u l
    constructor <;> omega
  unfold roundDoubleInt
  split_ifs with h0
  · have hm : (d.toNat : Int) = d := Int.toNat_of_nonneg h0
    obtain ⟨u, l⟩ := key d.toNat (by rw [hm]; exact hu)
    rw [hm] at u l
    exact ⟨u, l⟩
  · have hm : ((-d).toNat : Int) = -d := Int.toNat_of_nonneg (by omega)
    obtain ⟨u, l⟩ := key (-d).toNat (by rw [hm]; omega)
    rw [hm] at u l
    constructor <;> omega

/-- The difference that the source computes between a clock reading and a stored
time, both below 2^63 nanoseconds, is at most 4026 nanoseconds away from the
exact difference of the two readings. -/
theorem elapsed_error (now stamp : TimePoint) (hnow : now < 2 ^ 63) (hstamp : stamp < 2 ^ 63) :
    elapsed now stamp - ((now : Int) - (stamp : Int)) * doubleUnit ≤ 4026 * doubleUnit ∧
      -(4026 * (doubleUnit : Int)) ≤
        elapsed now stamp - ((now : Int) - (stamp : Int)) * doubleUnit := by
  obtain ⟨u1, l1⟩ := toDouble_error now hnow
  obtain ⟨u2, l2⟩ := storedNanos_error stamp hstamp
  have hUpos : (0 : Int) < doubleUnit := by exact_mod_cast doubleUnit_pos
  have hn : (now : Int) < 9223372036854775808 := by exact_mod_cast hnow
  have hs : (stamp : Int) < 9223372036854775808 := by exact_mod_cast hstamp
  have hnU : (now : Int) * doubleUnit ≤ 9223372036854775807 * doubleUnit :=
    mul_le_mul_of_nonneg_right (by omega) (le_of_lt hUpos)
  have hsU : (stamp : Int) * doubleUnit ≤ 9223372036854775807 * doubleUnit :=
    mul_le_mul_of_nonneg_right (by omega) (le_of_lt hUpos)
  have hn0 : (0 : Int) ≤ (now : Int) * doubleUnit :=
    mul_nonneg (Int.natCast_nonneg _) (le_of_lt hUpos)
  have hs0 : (0 : Int) ≤ (stamp : Int) * doubleUnit :=
    mul_nonneg (Int.natCast_nonneg _) (le_of_lt hUpos)
  obtain ⟨u3, l3⟩ := roundDoubleInt_error ((toDouble now : Int) - (storedNanos stamp : Int))
    (by omega) (by omega)
  have hsub : ((now : Int) - (stamp : Int)) * doubleUnit =
      (now : Int) * doubleUnit - (stamp : Int) * doubleUnit := sub_mul _ _ _
  rw [hsub]
  unfold elapsed
  constructor <;> omega

/-- An entry whose exact age is at least 100 seconds and 4096 nanoseconds is expired,
and an entry whose exact age is at most 100 seconds less 4096 nanoseconds is not,
for clock readings below 2^63 nanoseconds. -/
theorem IsExpired_tolerance (e : Entry) (now : TimePoint) (hnow : now < 2 ^ 63)
    (harr : e.time_arrived < 2 ^ 63) :
    ((now : Int) - (e.time_arrived : Int) ≥ 100 * (ticksPerSecond : Int) + 4096 →
        e.IsExpired now = true) ∧
      ((now : Int) - (e.time_arrived : Int) ≤ 100 * (ticksPerSecond : Int) - 4096 →
        e.IsExpired now = false) := by
  obtain ⟨u, l⟩ := elapsed_error now e.time_arrived hnow harr
  have hUpos : (0 : Int) < doubleUnit := by exact_mod_cast doubleUnit_pos
  have hT : ((ticksPerSecond : Nat) : Int) = 1000000000 := rfl
  have hiff := IsExpired_iff e now
  push_cast at hiff
  rw [hT] at hiff ⊢
  constructor
  · intro h
    rw [hiff]
    have : (100 * 1000000000 + 4096) * (doubleUnit : Int) ≤
        ((now : Int) - (e.time_arrived : Int)) * doubleUnit :=
      mul_le_mul_of_nonneg_right h (le_of_lt hUpos)
    have h2 : (100 * 1000000000 + 4096) * (doubleUnit : Int) =
        100 * 1000000000 * doubleUnit + 4096 * doubleUnit := add_mul _ _ _
    omega
  · intro h
    cases hx : e.IsExpired now
    · rfl
    · rw [hiff] at hx
      have : ((now : Int) - (e.time_arrived : Int)) * doubleUnit ≤
          (100 * 1000000000 - 4096) * (doubleUnit : Int) :=
        mul_le_mul_of_nonneg_right h (le_of_lt hUpos)
      have h2 : (100 * 1000000000 - 4096) * (doubleUnit : Int) =
          100 * 1000000000 * doubleUnit - 4096 * doubleUnit := sub_mul _ _ _
      omega

/-- A table whose last collection was at least 10 seconds and 4096 nanoseconds ago is
collected by `CheckGc`, and a table of at most 100 entries whose last collection
was at most 10 seconds less 4096 nanoseconds ago is left as it is, for clock
readings below 2^63 nanoseconds. -/
theorem CheckGc_tolerance (m : FastMessageMap) (now gcNow later : TimePoint)
    (hnow : now < 2 ^ 63) (hlast : m.last_gc_run < 2 ^ 63) :
    ((now : Int) - (m.last_gc_run : Int) ≥ 10 * (ticksPerSecond : Int) + 4096 →
        CheckGc m now gcNow later =
          { (GarbageCollector m gcNow).1 with last_gc_run := later }) ∧
      ((now : Int) - (m.last_gc_run : Int) ≤ 10 * (ticksPerSecond : Int) - 4096 →
        m.entries.length ≤ 100 → CheckGc m now gcNow later = m) := by
  obtain ⟨u, l⟩ := elapsed_error now m.last_gc_run hnow hlast
  have hUpos : (0 : Int) < doubleUnit := by exact_mod_cast doubleUnit_pos
  have hT : ((ticksPerSecond : Nat) : Int) = 1000000000 := rfl
  have hk : ((millisecondsToDouble kGcInterval : Nat) : Int) =
      10 * 1000000000 * (doubleUnit : Int) := by
    rw [millisecondsToDouble_constants.1]
    push_cast
    rw [hT]
    omega
  rw [hT]
  constructor
  · intro h
    unfold CheckGc
    apply if_pos
    left
    rw [hk]
    have : (10 * 1000000000 + 4096) * (doubleUnit : Int) ≤
        ((now : Int) - (m.last_gc_run : Int)) * doubleUnit :=
      mul_le_mul_of_nonneg_right h (le_of_lt hUpos)
    have h2 : (10 * 1000000000 + 4096) * (doubleUnit : Int) =
        10 * 1000000000 * doubleUnit + 4096 * doubleUnit := add_mul _ _ _
    omega
  · intro h hlen
    unfold CheckGc
    apply if_neg
    intro hc
    rcases hc with hc | hc
    · rw [hk] at hc
      have : ((now : Int) - (m.last_gc_run : Int)) * doubleUnit ≤
          (10 * 1000000000 - 4096) * (doubleUnit : Int) :=
        mul_le_mul_of_nonneg_right h (le_of_lt hUpos)
      have h2 : (10 * 1000000000 - 4096) * (doubleUnit : Int) =
          10 * 1000000000 * doubleUnit - 4096 * doubleUnit := sub_mul _ _ _
      omega
    · unfold kGcThreshold at hc
      omega

/-- C13 fails at a table of 100 entries whose last collection was at the clock reading
1793563200000000000 (1 November 2026) when the clock reads 10 seconds and 1
nanosecond more: the clock reading rounds to a `double` that is exactly 10 seconds
after `last_gc_run`, and `CheckGc` leaves the table and `last_gc_run` as they
are. -/
theorem CheckGc_misses_one_nanosecond :
    CheckGc (crowdedMap 100 presentDay) (presentDay + 10 * ticksPerSecond + 1)
        (presentDay + 10 * ticksPerSecond + 1) (presentDay + 10 * ticksPerSecond + 1) =
        crowdedMap 100 presentDay ∧
      ((presentDay + 10 * ticksPerSecond + 1 : Nat) : Int) -
          ((crowdedMap 100 presentDay).last_gc_run : Int) > 10 * (ticksPerSecond : Int) ∧
      (crowdedMap 100 presentDay).entries.length = 100 ∧
      (crowdedMap 100 presentDay).last_gc_run ≠ presentDay + 10 * ticksPerSecond + 1 ∧
      elapsed (presentDay + 10 * ticksPerSecond + 1) presentDay =
        ((10 * ticksPerSecond * doubleUnit : Nat) : Int) := by
  refine ⟨?_, by decide, by simp [crowdedMap], by decide, by decide⟩
  unfold CheckGc
  apply if_neg
  intro hc
  rcases hc with hc | hc
  · exact absurd hc (by decide)
  · simp [crowdedMap, kGcThreshold] at hc

/-- C13, amended: `CheckGc` runs `GarbageCollector` and then sets `last_gc_run` to the
current time exactly when the time since `last_gc_run`, computed in double
precision as the source does, is more than 10 seconds or the table holds more
than 100 entries; otherwise it leaves the table as it is.  With 101 entries it
collects whatever the interval; with exactly 100 entries and a computed interval
of at most 10 seconds it does nothing.  For clock readings below 2^63
nanoseconds the computed interval is within 4026 nanoseconds of the exact one:
`CheckGc` collects when at least 10 seconds and 4096 nanoseconds have passed, and
leaves a table of at most 100 entries as it is when at most 10 seconds less 4096
nanoseconds have passed. -/
theorem CheckGc_triggers (m : FastMessageMap) (now gcNow later : TimePoint) :
    ((elapsed now m.last_gc_run > ((10 * ticksPerSecond * doubleUnit : Nat) : Int) ∨
        m.entries.length > 100) →
      CheckGc m now gcNow later =
          { (GarbageCollector m gcNow).1 with last_gc_run := later } ∧
        (CheckGc m now gcNow later).last_gc_run = later ∧
        (CheckGc m now gcNow later).entries = (GarbageCollector m gcNow).1.entries ∧
        (CheckGc m now gcNow later).dropped_frames =
          (GarbageCollector m gcNow).1.dropped_frames) ∧
    (¬ (elapsed now m.last_gc_run > ((10 * ticksPerSecond * doubleUnit : Nat) : Int) ∨
        m.entries.length > 100) →
      CheckGc m now gcNow later = m) ∧
    (m.entries.length = 101 →
      CheckGc m now gcNow later =
        { (GarbageCollector m gcNow).1 with last_gc_run := later }) ∧
    (m.entries.length = 100 →
      elapsed now m.last_gc_run ≤ ((10 * ticksPerSecond * doubleUnit : Nat) : Int) →
      CheckGc m now gcNow later = m ∧
        (CheckGc m now gcNow later).last_gc_run = m.last_gc_run ∧
        (CheckGc m now gcNow later).entries = m.entries) ∧
    (now < 2 ^ 63 → m.last_gc_run < 2 ^ 63 →
      (elapsed now m.last_gc_run -
          ((now : Int) - (m.last_gc_run : Int)) * doubleUnit ≤ 4026 * doubleUnit ∧
        -(4026 * (doubleUnit : Int)) ≤
          elapsed now m.last_gc_run - ((now : Int) - (m.last_gc_run : Int)) * doubleUnit) ∧
      ((now : Int) - (m.last_gc_run : Int) ≥ 10 * (ticksPerSecond : Int) + 4096 →
        CheckGc m now gcNow later =
          { (GarbageCollector m gcNow).1 with last_gc_run := later }) ∧
      ((now : Int) - (m.last_gc_run : Int) ≤ 10 * (ticksPerSecond : Int) - 4096 →
        m.entries.length ≤ 100 → CheckGc m now gcNow later = m)) := by
  have hk := millisecondsToDouble_constants.1
  refine ⟨?_, ?_, ?_, ?_, fun h1 h2 =>
    ⟨elapsed_error now m.last_gc_run h1 h2, CheckGc_tolerance m now gcNow later h1 h2⟩⟩
  · intro h
    have e : CheckGc m now gcNow later =
        { (GarbageCollector m gcNow).1 with last_gc_run := later } := by
      unfold CheckGc
      rw [hk]
      exact if_pos h
    rw [e]
    exact ⟨rfl, rfl, rfl, rfl⟩
  · intro h
    unfold CheckGc
    rw [hk]
    exact if_neg h
  · intro h
    unfold CheckGc
    exact if_pos (Or.inr (by rw [h]; decide))
  · intro h hi
    have e : CheckGc m now gcNow later = m := by
      unfold CheckGc
      rw [hk]
      apply if_neg
      intro hc
      rcases hc with hc | hc
      · exact absurd hi (not_le.2 hc)
      · rw [h] at hc
        exact absurd hc (by decide)
    rw [e]
    exact ⟨rfl, rfl, rfl⟩

/-- C14 fails at a table whose only entry arrived at the clock reading
1793563200000000000 (1 November 2026) when the clock reads 100 seconds and 1
nanosecond more: the age computed in double precision is exactly 100 seconds, the
entry is not expired, and `GarbageCollector` keeps it and returns 0. -/
theorem GarbageCollector_keeps_one_nanosecond_over :
    (GarbageCollector presentDayMap (presentDay + 100 * ticksPerSecond + 1)).1.entries =
        [arrivedAt presentDay] ∧
      (GarbageCollector presentDayMap (presentDay + 100 * ticksPerSecond + 1)).2 = 0 ∧
      presentDayMap.entries = [arrivedAt presentDay] ∧
      ((presentDay + 100 * ticksPerSecond + 1 : Nat) : Int) -
          ((arrivedAt presentDay).time_arrived : Int) > 100 * (ticksPerSecond : Int) ∧
      (arrivedAt presentDay).IsExpired (presentDay + 100 * ticksPerSecond + 1) = false ∧
      elapsed (presentDay + 100 * ticksPerSecond + 1) (arrivedAt presentDay).time_arrived =
        ((100 * ticksPerSecond * doubleUnit : Nat) : Int) := by
  have hexp : (arrivedAt presentDay).IsExpired (presentDay + 100 * ticksPerSecond + 1) =
      false := by decide
  obtain ⟨h1, h2, _⟩ := GarbageCollector_eq presentDayMap
    (presentDay + 100 * ticksPerSecond + 1)
  refine ⟨?_, ?_, rfl, by decide, hexp, by decide⟩
  · rw [h1]
    simp [presentDayMap, hexp]
  · rw [h2]
    simp [presentDayMap, hexp]

/-- C14, amended: for every table and every time `now`, `GarbageCollector` removes
exactly the entries whose age, computed in double precision as `Entry::IsExpired`
does, strictly exceeds 100 seconds, keeps every entry whose computed age is at
most 100 seconds in its original order, returns the number removed and adds that
number to `dropped_frames`.  For clock readings below 2^63 nanoseconds the
computed age is within 4026 nanoseconds of the exact one: an entry whose age is
at least 100 seconds and 4096 nanoseconds is removed, and an entry whose age is at
most 100 seconds less 4096 nanoseconds is kept. -/
theorem GarbageCollector_removes_expired (m : FastMessageMap) (now : TimePoint) :
    (GarbageCollector m now).1.entries =
        m.entries.filter (fun e =>
          decide (elapsed now e.time_arrived ≤
            ((100 * ticksPerSecond * doubleUnit : Nat) : Int))) ∧
      (∀ e, e ∈ (GarbageCollector m now).1.entries ↔
        e ∈ m.entries ∧
          elapsed now e.time_arrived ≤ ((100 * ticksPerSecond * doubleUnit : Nat) : Int)) ∧
      List.Sublist (GarbageCollector m now).1.entries m.entries ∧
      (GarbageCollector m now).2 =
        ((m.entries.filter (fun e =>
          decide (elapsed now e.time_arrived >
            ((100 * ticksPerSecond * doubleUnit : Nat) : Int)))).length : Int) ∧
      (GarbageCollector m now).2 =
        (m.entries.length : Int) - ((GarbageCollector m now).1.entries.length : Int) ∧
      (GarbageCollector m now).1.dropped_frames =
        m.dropped_frames + (GarbageCollector m now).2 ∧
      (GarbageCollector m now).1.last_gc_run = m.last_gc_run ∧
      (∀ e : Entry, e.IsExpired now = true ↔
        elapsed now e.time_arrived > ((100 * ticksPerSecond * doubleUnit : Nat) : Int)) ∧
      (now < 2 ^ 63 → ∀ e ∈ m.entries, e.time_arrived < 2 ^ 63 →
        (elapsed now e.time_arrived -
            ((now : Int) - (e.time_arrived : Int)) * doubleUnit ≤ 4026 * doubleUnit ∧
          -(4026 * (doubleUnit : Int)) ≤
            elapsed now e.time_arrived -
              ((now : Int) - (e.time_arrived : Int)) * doubleUnit) ∧
        ((now : Int) - (e.time_arrived : Int) ≥ 100 * (ticksPerSecond : Int) + 4096 →
          e ∉ (GarbageCollector m now).1.entries) ∧
        ((now : Int) - (e.time_arrived : Int) ≤ 100 * (ticksPerSecond : Int) - 4096 →
          e ∈ (GarbageCollector m now).1.entries)) := by
  obtain ⟨h1, h2, h3, h4, _⟩ := GarbageCollector_eq m now
  have hk := millisecondsToDouble_constants.2
  have hf : (fun e : Entry => !e.IsExpired now) = (fun e : Entry =>
      decide (elapsed now e.time_arrived ≤
        ((100 * ticksPerSecond * doubleUnit : Nat) : Int))) := by
    funext e
    unfold Entry.IsExpired
    rw [hk]
    by_cases h : elapsed now e.time_arrived >
        ((100 * ticksPerSecond * doubleUnit : Nat) : Int)
    · rw [decide_eq_true h, decide_eq_false (not_le.2 h)]
      rfl
    · rw [decide_eq_false h, decide_eq_true (not_lt.1 h)]
      rfl
  have hg : (fun e : Entry => e.IsExpired now) = (fun e : Entry =>
      decide (elapsed now e.time_arrived >
        ((100 * ticksPerSecond * doubleUnit : Nat) : Int))) := by
    funext e
    unfold Entry.IsExpired
    rw [hk]
  have hlen : (m.entries.filter (fun e => e.IsExpired now)).length +
      (m.entries.filter (fun e => !e.IsExpired now)).length = m.entries.length :=
    length_filter_add (fun e => e.IsExpired now) m.entries
  refine ⟨by rw [h1, hf], ?_, ?_, by rw [h2, hg], ?_, by rw [h3, h2], h4,
    fun e => IsExpired_iff e now, ?_⟩
  · intro e
    rw [h1, hf]
    simp
  · rw [h1]
    exact List.filter_sublist _
  · rw [h2, h1]
    omega
  · intro hnow e he harr
    obtain ⟨t1, t2⟩ := IsExpired_tolerance e now hnow harr
    refine ⟨elapsed_error now e.time_arrived hnow harr, ?_, ?_⟩
    · intro hage hmem
      rw [h1, List.mem_filter] at hmem
      have hx := t1 hage
      rw [hx] at hmem
      exact absurd hmem.2 (by decide)
    · intro hage
      rw [h1, List.mem_filter]
      refine ⟨he, ?_⟩
      rw [t2 hage]
      rfl

/-- C13, amended, at a table of 101 entries, which is collected and gets
`last_gc_run = 3`; at the table of 100 entries whose last collection was 10
seconds and 1 nanosecond before the clock reading, which is left as it is; and at
that table 10 seconds and 4096 nanoseconds after its last collection, when it is
collected. -/
theorem CheckGc_triggers_witness :
    CheckGc (crowdedMap 101 1) 2 2 3 =
        { (GarbageCollector (crowdedMap 101 1) 2).1 with last_gc_run := 3 } ∧
      CheckGc (crowdedMap 100 presentDay) (presentDay + 10 * ticksPerSecond + 1) 2 3 =
        crowdedMap 100 presentDay ∧
      CheckGc (crowdedMap 100 presentDay) (presentDay + 10 * ticksPerSecond + 4096) 2 3 =
        { (GarbageCollector (crowdedMap 100 presentDay) 2).1 with last_gc_run := 3 } :=
  ⟨(CheckGc_triggers (crowdedMap 101 1) 2 2 3).2.2.1 (by simp [crowdedMap]),
    ((CheckGc_triggers (crowdedMap 100 presentDay) (presentDay + 10 * ticksPerSecond + 1)
      2 3).2.2.2.1 (by simp [crowdedMap]) (by decide)).1,
    ((CheckGc_triggers (crowdedMap 100 presentDay) (presentDay + 10 * ticksPerSecond + 4096)
      2 3).2.2.2.2 (by decide) (by decide)).2.1 (by decide)⟩

/-- C14, amended, at the table whose only entry arrived at the clock reading
`presentDay`: 100 seconds and 4096 nanoseconds later the entry is removed, and 100
seconds less 4096 nanoseconds later it is kept. -/
theorem GarbageCollector_removes_expired_witness :
    arrivedAt presentDay ∉
        (GarbageCollector presentDayMap (presentDay + 100 * ticksPerSecond + 4096)).1.entries ∧
      arrivedAt presentDay ∈
        (GarbageCollector presentDayMap (presentDay + 100 * ticksPerSecond - 4096)).1.entries :=
  ⟨((GarbageCollector_removes_expired presentDayMap
      (presentDay + 100 * ticksPerSecond + 4096)).2.2.2.2.2.2.2.2 (by decide)
      (arrivedAt presentDay) (List.mem_singleton.2 rfl) (by decide)).2.1 (by decide),
    ((GarbageCollector_removes_expired presentDayMap
      (presentDay + 100 * ticksPerSecond - 4096)).2.2.2.2.2.2.2.2 (by decide)
      (arrivedAt presentDay) (List.mem_singleton.2 rfl) (by decide)).2.2 (by decide)⟩

/-! ## Theorems: the table operations -/

/-- The six bytes `data[2] .. data[7]` of a frame. -/
theorem frameBytesFrom_two (data : Fin 8 → UInt8) :
    frameBytesFrom data 2 = [data 2, data 3, data 4, data 5, data 6, data 7] := by
  have h := ofFn_frame_data data
  simp only [CAN_MAX_DLEN] at h
  simp only [frameBytesFrom, h]
  rfl

/-- The seven bytes `data[1] .. data[7]` of a frame. -/
theorem frameBytesFrom_one (data : Fin 8 → UInt8) :
    frameBytesFrom data 1 = [data 1, data 2, data 3, data 4, data 5, data 6, data 7] := by
  have h := ofFn_frame_data data
  simp only [CAN_MAX_DLEN] at h
  simp only [frameBytesFrom, h]
  rfl

/-- Inserting a first fragment into the entry `e` at index `i`. -/
theorem InsertEntry_at (m : FastMessageMap) (header : CanHeader) (data : Fin 8 → UInt8)
    (i : Nat) (e : Entry) (he : m.entries[i]? = some e) :
    InsertEntry m header data (i : Int) =
      some ({ m with entries := m.entries.set i (e.inserted header data) },
        decide ((data 1).toNat ≤ 6)) := by
  simp [InsertEntry, he, Entry.inserted]

/-- An index that holds an entry is inside the table. -/
theorem lt_length_of_getElem? (es : List Entry) (i : Nat) (e : Entry)
    (he : es[i]? = some e) : i < es.length := by
  rcases Nat.lt_or_ge i es.length with h | h
  · exact h
  · rw [List.getElem?_eq_none h] at he
    cases he

/-- C16: for every header, every 8-byte data array and every index that holds an
entry, `insert` sets the entry's header to `header`, its sid to `data[0]`, its
expected_length to `data[1]`, copies `data[2..7]` into the first 6 bytes of the
entry's buffer (all of the buffer when the entry was fresh), sets cursor to 6,
leaves all other entries unchanged, and returns true exactly when `data[1] ≤ 6`. -/
theorem InsertEntry_effect (m : FastMessageMap) (header : CanHeader)
    (data : Fin 8 → UInt8) (i : Nat) (e : Entry) (he : m.entries[i]? = some e) :
    ∃ m1 ready e1, InsertEntry m header data (i : Int) = some (m1, ready) ∧
      m1.entries[i]? = some e1 ∧
      e1.header = header ∧
      e1.sid = (data 0).toNat ∧
      e1.expected_length = (data 1).toNat ∧
      e1.data.take 6 = [data 2, data 3, data 4, data 5, data 6, data 7] ∧
      (e.data = [] → e1.data = [data 2, data 3, data 4, data 5, data 6, data 7]) ∧
      e1.cursor = 6 ∧
      e1.time_arrived = e.time_arrived ∧
      (∀ j, j ≠ i → m1.entries[j]? = m.entries[j]?) ∧
      m1.entries.length = m.entries.length ∧
      m1.last_gc_run = m.last_gc_run ∧ m1.dropped_frames = m.dropped_frames ∧
      m1.dropped_frame_time = m.dropped_frame_time ∧
      (ready = true ↔ (data 1).toNat ≤ 6) := by
  have hlt := lt_length_of_getElem? m.entries i e he
  refine ⟨_, _, e.inserted header data, InsertEntry_at m header data i e he, ?_, rfl, rfl,
    rfl, ?_, ?_, rfl, rfl, ?_, ?_, rfl, rfl, rfl, ?_⟩
  · simp [hlt]
  · simp [Entry.inserted, writeAt, frameBytesFrom_two]
  · intro hd
    simp [Entry.inserted, writeAt, frameBytesFrom_two, hd]
  · intro j hj
    simp only [List.getElem?_set]
    rw [if_neg (fun h => hj h.symm)]
  · simp
  · simp

/-- C16 at the empty table after `add_new`, with the first fragment
`shortFirstFragment`. -/
theorem InsertEntry_effect_witness :
    ∃ m1 ready e1,
      InsertEntry (AddNewEntry emptyMap 0).1 gnssHeader shortFirstFragment ((0 : Nat) : Int) =
        some (m1, ready) ∧
      m1.entries[0]? = some e1 ∧
      e1.header = gnssHeader ∧
      e1.sid = (shortFirstFragment 0).toNat ∧
      e1.expected_length = (shortFirstFragment 1).toNat ∧
      e1.data.take 6 = [shortFirstFragment 2, shortFirstFragment 3, shortFirstFragment 4,
        shortFirstFragment 5, shortFirstFragment 6, shortFirstFragment 7] ∧
      ((Entry.fresh 0).data = [] →
        e1.data = [shortFirstFragment 2, shortFirstFragment 3, shortFirstFragment 4,
          shortFirstFragment 5, shortFirstFragment 6, shortFirstFragment 7]) ∧
      e1.cursor = 6 ∧
      e1.time_arrived = (Entry.fresh 0).time_arrived ∧
      (∀ j, j ≠ 0 → m1.entries[j]? = (AddNewEntry emptyMap 0).1.entries[j]?) ∧
      m1.entries.length = (AddNewEntry emptyMap 0).1.entries.length ∧
      m1.last_gc_run = (AddNewEntry emptyMap 0).1.last_gc_run ∧
      m1.dropped_frames = (AddNewEntry emptyMap 0).1.dropped_frames ∧
      m1.dropped_frame_time = (AddNewEntry emptyMap 0).1.dropped_frame_time ∧
      (ready = true ↔ (shortFirstFragment 1).toNat ≤ 6) :=
  InsertEntry_effect (AddNewEntry emptyMap 0).1 gnssHeader shortFirstFragment 0
    (Entry.fresh 0) rfl

/-- The buffer after a write at an offset inside it: the bytes before the offset. -/
theorem writeAt_take (buf : List UInt8) (pos : Nat) (bytes : List UInt8)
    (h : pos ≤ buf.length) : (writeAt buf pos bytes).take pos = buf.take pos := by
  unfold writeAt
  rw [List.append_assoc, List.take_append_of_le_length (by simp [List.length_take]; omega)]
  simp [List.take_take]

/-- The buffer after a write at an offset inside it: the bytes written. -/
theorem writeAt_getElem? (buf : List UInt8) (pos : Nat) (bytes : List UInt8) (j : Nat)
    (h : pos ≤ buf.length) (hj : j < bytes.length) :
    (writeAt buf pos bytes)[pos + j]? = bytes[j]? := by
  unfold writeAt
  rw [List.append_assoc, List.getElem?_append_right (by simp [List.length_take])]
  simp only [List.length_take, Nat.min_eq_left h, Nat.add_sub_cancel_left]
  rw [List.getElem?_append_left hj]

/-- C17: for an entry with `cursor < expected_length` that has buffered `cursor`
bytes, `append` copies `min(7, expected_length - cursor)` bytes of `data[1..7]`
into the buffer from the old cursor on, advances cursor by that amount (so it
grows and does not pass `expected_length`), leaves the bytes before the old
cursor and the other entries unchanged, and returns true exactly when the new
cursor has reached `expected_length`. -/
theorem AppendEntry_effect (m : FastMessageMap) (header : CanHeader)
    (data : Fin 8 → UInt8) (i : Nat) (e : Entry) (he : m.entries[i]? = some e)
    (hcur : e.cursor < e.expected_length) (hbuf : e.cursor ≤ e.data.length) :
    ∃ m1 ready e1, AppendEntry m header data (i : Int) = some (m1, ready) ∧
      m1.entries[i]? = some e1 ∧
      e1.cursor = e.cursor + min 7 (e.expected_length - e.cursor) ∧
      e.cursor < e1.cursor ∧
      e1.cursor ≤ e1.expected_length ∧
      (∀ j : Fin 7, j.val < min 7 (e.expected_length - e.cursor) →
        e1.data[e.cursor + j.val]? = some (data j.succ)) ∧
      e1.data.take e.cursor = e.data.take e.cursor ∧
      e1.expected_length = e.expected_length ∧
      e1.header = e.header ∧ e1.sid = e.sid ∧
      (∀ j, j ≠ i → m1.entries[j]? = m.entries[j]?) ∧
      m1.entries.length = m.entries.length ∧
      (ready = true ↔ e1.expected_length ≤ e1.cursor) := by
  have hlt := lt_length_of_getElem? m.entries i e he
  refine ⟨_, _, e.appended data, AppendEntry_at m header data i e he, ?_, rfl, ?_, ?_, ?_,
    ?_, rfl, rfl, rfl, ?_, ?_, ?_⟩
  · simp [hlt]
  · simp only [Entry.appended]
    omega
  · simp only [Entry.appended]
    omega
  · intro j hj
    simp only [Entry.appended]
    rw [writeAt_getElem? _ _ _ _ hbuf
      (by simp only [List.length_take, frameBytesFrom_length]; omega)]
    rw [List.getElem?_take_of_lt hj, frameBytesFrom_one]
    have h7 := j.isLt
    match j, h7 with
    | ⟨0, _⟩, _ => rfl
    | ⟨1, _⟩, _ => rfl
    | ⟨2, _⟩, _ => rfl
    | ⟨3, _⟩, _ => rfl
    | ⟨4, _⟩, _ => rfl
    | ⟨5, _⟩, _ => rfl
    | ⟨6, _⟩, _ => rfl
  · exact writeAt_take _ _ _ hbuf
  · intro j hj
    simp only [List.getElem?_set]
    rw [if_neg (fun h => hj h.symm)]
  · simp
  · simp

/-- C17 at the entry `inFlightEntry` (cursor 13 of 20) and the fragment `lastFragment`. -/
theorem AppendEntry_effect_witness :
    ∃ m1 ready e1,
      AppendEntry inFlightDriver.fast_messages gnssHeader lastFragment.data ((0 : Nat) : Int) =
        some (m1, ready) ∧
      m1.entries[0]? = some e1 ∧
      e1.cursor = inFlightEntry.cursor +
        min 7 (inFlightEntry.expected_length - inFlightEntry.cursor) ∧
      inFlightEntry.cursor < e1.cursor ∧
      e1.cursor ≤ e1.expected_length ∧
      (∀ j : Fin 7, j.val < min 7 (inFlightEntry.expected_length - inFlightEntry.cursor) →
        e1.data[inFlightEntry.cursor + j.val]? = some (lastFragment.data j.succ)) ∧
      e1.data.take inFlightEntry.cursor = inFlightEntry.data.take inFlightEntry.cursor ∧
      e1.expected_length = inFlightEntry.expected_length ∧
      e1.header = inFlightEntry.header ∧ e1.sid = inFlightEntry.sid ∧
      (∀ j, j ≠ 0 → m1.entries[j]? = inFlightDriver.fast_messages.entries[j]?) ∧
      m1.entries.length = inFlightDriver.fast_messages.entries.length ∧
      (ready = true ↔ e1.expected_length ≤ e1.cursor) :=
  AppendEntry_effect inFlightDriver.fast_messages gnssHeader lastFragment.data 0
    inFlightEntry rfl (by decide) (by decide)

/-! ## Theorems: the cursor invariant -/

/-- The bound on the cursor that the table operations keep: the cursor is at most
`expected_length`, or it is the 6 set by `insert` for a first fragment that
announces fewer than 6 bytes. -/
theorem inserted_cursor_bound (e : Entry) (header : CanHeader) (data : Fin 8 → UInt8) :
    (e.inserted header data).cursor ≤ (e.inserted header data).expected_length ∨
      ((e.inserted header data).cursor = 6 ∧ (e.inserted header data).expected_length < 6) := by
  show 6 ≤ (data 1).toNat ∨ (6 = 6 ∧ (data 1).toNat < 6)
  omega

/-- The bound on the cursor is kept by `append`. -/
theorem appended_cursor_bound (e : Entry) (data : Fin 8 → UInt8)
    (h : e.cursor ≤ e.expected_length ∨ (e.cursor = 6 ∧ e.expected_length < 6)) :
    (e.appended data).cursor ≤ (e.appended data).expected_length ∨
      ((e.appended data).cursor = 6 ∧ (e.appended data).expected_length < 6) := by
  simp only [Entry.appended]
  omega

/-- The result of `InsertEntry`, when there is one. -/
theorem InsertEntry_some (m m1 : FastMessageMap) (header : CanHeader)
    (data : Fin 8 → UInt8) (index : Int) (ready : Bool)
    (h : InsertEntry m header data index = some (m1, ready)) :
    ∃ e, m.entries[index.toNat]? = some e ∧
      m1.entries = m.entries.set index.toNat (e.inserted header data) := by
  unfold InsertEntry at h
  split at h
  · split at h
    · cases h
    · next e he =>
      cases h
      exact ⟨e, he, rfl⟩
  · cases h

/-- The result of `AppendEntry`, when there is one. -/
theorem AppendEntry_some (m m1 : FastMessageMap) (header : CanHeader)
    (data : Fin 8 → UInt8) (index : Int) (ready : Bool)
    (h : AppendEntry m header data index = some (m1, ready)) :
    ∃ e, m.entries[index.toNat]? = some e ∧
      m1.entries = m.entries.set index.toNat (e.appended data) := by
  unfold AppendEntry at h
  split at h
  · split at h
    · cases h
    · next e he =>
      cases h
      exact ⟨e, he, rfl⟩
  · cases h

/-- C18 fails after `add_new` and `insert` of a first fragment with length byte 4: the
table is reachable and its entry has cursor 6 and expected_length 4. -/
theorem cursor_exceeds_expected_length :
    Reachable shortInsertedMap ∧
      shortInsertedMap.entries.map (fun e => (e.cursor, e.expected_length)) = [(6, 4)] ∧
      ¬ (∀ e ∈ shortInsertedMap.entries, e.cursor ≤ e.expected_length) := by
  refine ⟨?_, by decide, ?_⟩
  · exact Reachable.insert (AddNewEntry emptyMap 0).1 shortInsertedMap gnssHeader
      shortFirstFragment ((0 : Nat) : Int) true
      (Reachable.add_new emptyMap 0 (Reachable.start emptyMap rfl))
      (InsertEntry_at (AddNewEntry emptyMap 0).1 gnssHeader shortFirstFragment 0
        (Entry.fresh 0) rfl)
  · intro h
    have := h _ (List.mem_singleton.2 rfl)
    revert this
    decide

/-- C18, amended: in every table reachable from an empty table by `add_new`, `insert`,
`append`, `remove` and `garbage_collect`, every entry has `cursor ≤
expected_length`, or has the cursor 6 that `insert` sets for a first fragment
whose length byte is smaller than 6. -/
theorem reachable_cursor_bound (m : FastMessageMap) (h : Reachable m) :
    ∀ e ∈ m.entries, e.cursor ≤ e.expected_length ∨
      (e.cursor = 6 ∧ e.expected_length < 6) := by
  induction h with
  | start m hm =>
    intro e he
    rw [hm] at he
    cases he
  | add_new m now _ ih =>
    intro e he
    rcases List.mem_append.1 he with h1 | h1
    · exact ih e h1
    · rw [List.mem_singleton.1 h1]
      exact Or.inl (Nat.le_refl 0)
  | insert m m1 header data index ready _ hins ih =>
    obtain ⟨e0, _, hm1⟩ := InsertEntry_some m m1 header data index ready hins
    intro e he
    rw [hm1] at he
    rcases List.mem_or_eq_of_mem_set he with h1 | h1
    · exact ih e h1
    · rw [h1]
      exact inserted_cursor_bound e0 header data
  | append m m1 header data index ready _ happ ih =>
    obtain ⟨e0, he0, hm1⟩ := AppendEntry_some m m1 header data index ready happ
    intro e he
    rw [hm1] at he
    rcases List.mem_or_eq_of_mem_set he with h1 | h1
    · exact ih e h1
    · rw [h1]
      exact appended_cursor_bound e0 data (ih e0 (List.getElem?_mem he0))
  | remove m pos _ ih =>
    intro e he
    unfold Remove at he
    split at he
    · exact ih e (List.mem_of_mem_eraseIdx he)
    · exact ih e he
  | garbage_collect m now _ ih =>
    intro e he
    rw [(GarbageCollector_eq m now).1] at he
    exact ih e (List.mem_of_mem_filter he)

/-- Every entry of a reachable table has buffered at least `cursor` bytes. -/
theorem reachable_Buffered (m : FastMessageMap) (h : Reachable m) : Buffered m := by
  induction h with
  | start m hm =>
    intro e he
    rw [hm] at he
    cases he
  | add_new m now _ ih =>
    intro e he
    rcases List.mem_append.1 he with h1 | h1
    · exact ih e h1
    · rw [List.mem_singleton.1 h1]
      exact Nat.le_refl 0
  | insert m m1 header data index ready _ hins ih =>
    obtain ⟨e0, _, hm1⟩ := InsertEntry_some m m1 header data index ready hins
    intro e he
    rw [hm1] at he
    rcases List.mem_or_eq_of_mem_set he with h1 | h1
    · exact ih e h1
    · rw [h1]
      exact inserted_cursor_le e0 header data
  | append m m1 header data index ready _ happ ih =>
    obtain ⟨e0, he0, hm1⟩ := AppendEntry_some m m1 header data index ready happ
    intro e he
    rw [hm1] at he
    rcases List.mem_or_eq_of_mem_set he with h1 | h1
    · exact ih e h1
    · rw [h1]
      exact appended_cursor_le e0 data (ih e0 (List.getElem?_mem he0))
  | remove m pos _ ih => exact Buffered_Remove m pos ih
  | garbage_collect m now _ ih =>
    intro e he
    rw [(GarbageCollector_eq m now).1] at he
    exact ih e (List.mem_of_mem_filter he)

/-- C18, amended, at the entry of the table `shortInsertedMap`. -/
theorem reachable_cursor_bound_witness :
    ((Entry.fresh 0).inserted gnssHeader shortFirstFragment).cursor ≤
        ((Entry.fresh 0).inserted gnssHeader shortFirstFragment).expected_length ∨
      (((Entry.fresh 0).inserted gnssHeader shortFirstFragment).cursor = 6 ∧
        ((Entry.fresh 0).inserted gnssHeader shortFirstFragment).expected_length < 6) :=
  reachable_cursor_bound shortInsertedMap
    (Reachable.insert (AddNewEntry emptyMap 0).1 shortInsertedMap gnssHeader
      shortFirstFragment ((0 : Nat) : Int) true
      (Reachable.add_new emptyMap 0 (Reachable.start emptyMap rfl))
      (InsertEntry_at (AddNewEntry emptyMap 0).1 gnssHeader shortFirstFragment 0
        (Entry.fresh 0) rfl))
    ((Entry.fresh 0).inserted gnssHeader shortFirstFragment) (List.mem_singleton.2 rfl)

/-! ## Theorems: reassembly of a fast message -/

/-- Handling two lists of frames one after the other. -/
theorem HandleInputs_append (decode : can_frame → CanHeader) (isFast : CanHeader → Bool)
    (d : Driver) (l1 l2 : List (TimePoint × can_frame)) :
    HandleInputs decode isFast d (l1 ++ l2) =
      (HandleInputs decode isFast d l1).bind fun d1 => HandleInputs decode isFast d1 l2 := by
  induction l1 generalizing d with
  | nil => rfl
  | cons x l1 ih =>
    show (HandleInput decode isFast x.1 d x.2).bind _ = _
    cases h : HandleInput decode isFast x.1 d x.2 with
    | none => simp [HandleInputs, h]
    | some d1 => simp [HandleInputs, h, ih]

/-- One more fragment in the list of fragments. -/
theorem fragments_succ (can_id : Nat) (sid : UInt8) (len : Nat) (stream : List UInt8)
    (clock : Nat → TimePoint) (n : Nat) :
    fragments can_id sid len stream clock (n + 1) =
      fragments can_id sid len stream clock n ++
        [(clock n, fragment can_id sid len stream n)] := by
  simp [fragments, List.range_succ]

/-- The data bytes of the first fragment. -/
theorem fragment_zero_data (can_id : Nat) (sid : UInt8) (len : Nat) (stream : List UInt8) :
    (fragment can_id sid len stream 0).data 0 = sid ∧
      (fragment can_id sid len stream 0).data 1 = UInt8.ofNat len ∧
      frameBytesFrom (fragment can_id sid len stream 0).data 2 =
        [stream.getD 0 0xFF, stream.getD 1 0xFF, stream.getD 2 0xFF, stream.getD 3 0xFF,
          stream.getD 4 0xFF, stream.getD 5 0xFF] := by
  refine ⟨rfl, rfl, ?_⟩
  rw [frameBytesFrom_two]
  rfl

/-- The data bytes of a continuation fragment. -/
theorem fragment_succ_data (can_id : Nat) (sid : UInt8) (len : Nat) (stream : List UInt8)
    (j : Nat) :
    (fragment can_id sid len stream (j + 1)).data 0 = sid + UInt8.ofNat (j + 1) ∧
      frameBytesFrom (fragment can_id sid len stream (j + 1)).data 1 =
        (List.range 7).map fun i => stream.getD (6 + 7 * j + i) 0xFF := by
  refine ⟨?_, ?_⟩
  · simp [fragment]
  · rw [frameBytesFrom_one]
    rfl

/-- A window of at most seven bytes read from a stream that is long enough. -/
theorem take_window (stream : List UInt8) (c n : Nat) (h : c + n ≤ stream.length) :
    ((List.range 7).map fun i => stream.getD (c + i) 0xFF).take n =
      (stream.drop c).take (min 7 n) := by
  apply List.ext_getElem?
  intro i
  simp only [List.getElem?_take, List.getElem?_map, List.getElem?_drop]
  by_cases hi : i < n
  · by_cases h7 : i < 7
    · have h1 : i < min 7 n := by omega
      rw [if_pos hi, if_pos h1, List.getElem?_range h7]
      simp only [Option.map_some', List.getD_eq_getElem?_getD]
      rw [List.getElem?_eq_getElem (by omega)]
      rfl
    · have h1 : ¬ i < min 7 n := by omega
      rw [if_pos hi, if_neg h1, List.getElem?_eq_none (by simp; omega)]
      rfl
  · have h1 : ¬ i < min 7 n := by omega
    rw [if_neg hi, if_neg h1]

/-- The first six bytes of a stream of at least six bytes. -/
theorem take_six (stream : List UInt8) (h : 6 ≤ stream.length) :
    [stream.getD 0 0xFF, stream.getD 1 0xFF, stream.getD 2 0xFF, stream.getD 3 0xFF,
      stream.getD 4 0xFF, stream.getD 5 0xFF] = stream.take 6 := by
  match stream, h with
  | a :: b :: c :: d :: e :: f :: rest, _ => rfl

/-- A length of at most 255 survives the conversion to a byte. -/
theorem toNat_ofNat_of_le (len : Nat) (h : len ≤ 255) : (UInt8.ofNat len).toNat = len := by
  show len % 256 = len
  omega

/-- The first fragment of a fast message of more than 6 bytes, handled on a table
without entries: nothing is queued and the table holds the new entry. -/
theorem HandleInput_first_fragment (decode : can_frame → CanHeader)
    (isFast : CanHeader → Bool) (now : TimePoint) (d : Driver) (can_id : Nat)
    (sid : UInt8) (len : Nat) (stream : List UInt8) (header : CanHeader)
    (hfast : isFast header = true)
    (hdec : decode (fragment can_id sid len stream 0) = header)
    (hempty : d.fast_messages.entries = []) (h6 : 6 < len) (h255 : len ≤ 255)
    (hs : len ≤ stream.length) :
    HandleInput decode isFast now d (fragment can_id sid len stream 0) =
      some { fast_messages :=
               { d.fast_messages with entries := [entryAfter now header sid len stream 0] }
             pending := d.pending } := by
  obtain ⟨h0, h1, h2⟩ := fragment_zero_data can_id sid len stream
  have hfind : FindMatchingEntry d.fast_messages header
      ((fragment can_id sid len stream 0).data 0) = kNotFound := by
    simp [FindMatchingEntry, hempty]
  have hready : decide (((fragment can_id sid len stream 0).data 1).toNat ≤ 6) = false := by
    rw [h1, toNat_ofNat_of_le len h255]
    exact decide_eq_false (by omega)
  have hentry : (Entry.fresh now).inserted header (fragment can_id sid len stream 0).data =
      entryAfter now header sid len stream 0 := by
    simp only [Entry.inserted, Entry.fresh, entryAfter, h0, h1, h2, writeAt,
      toNat_ofNat_of_le len h255, take_six stream (by omega)]
    simp
  simp only [HandleInput, HandleInput.lookup, hdec, hfast, hfind, if_true,
    InsertEntry_AddNewEntry, Option.map_some', Option.some_bind, hready, hentry, hempty,
    List.nil_append]
  rfl

/-- A byte sum that does not pass 255. -/
theorem toNat_add_ofNat (sid : UInt8) (k : Nat) (h : sid.toNat + k ≤ 255) :
    (sid + UInt8.ofNat k).toNat = sid.toNat + k := by
  show (sid.toNat + k % 256) % 256 = sid.toNat + k
  omega

/-- Writing the next bytes of a stream after its first `c` bytes. -/
theorem writeAt_take_drop (stream : List UInt8) (c n : Nat) :
    writeAt (stream.take c) c ((stream.drop c).take n) = stream.take (c + n) := by
  unfold writeAt
  have h1 : (stream.take c).take c = stream.take c := by
    rw [List.take_take, Nat.min_self]
  have h2 : (stream.take c).drop (c + ((stream.drop c).take n).length) = [] :=
    List.drop_eq_nil_of_le (by rw [List.length_take]; omega)
  rw [h1, h2, List.append_nil, List.take_add]

/-- The entry of a message in flight after `append` of its next fragment. -/
theorem appended_entryAfter (t : TimePoint) (header : CanHeader) (can_id : Nat)
    (sid : UInt8) (len : Nat) (stream : List UInt8) (j : Nat)
    (hc : 6 + 7 * j < len) (hs : len ≤ stream.length) :
    (entryAfter t header sid len stream j).appended
        (fragment can_id sid len stream (j + 1)).data =
      { time_arrived := t, header := header, sid := sid.toNat, expected_length := len,
        cursor := 6 + 7 * j + min 7 (len - (6 + 7 * j)),
        data := stream.take (6 + 7 * j + min 7 (len - (6 + 7 * j))) } := by
  have hw := take_window stream (6 + 7 * j) (min 7 (len - (6 + 7 * j))) (by omega)
  have hmin : min 7 (min 7 (len - (6 + 7 * j))) = min 7 (len - (6 + 7 * j)) := by omega
  rw [hmin] at hw
  have hdata := writeAt_take_drop stream (6 + 7 * j) (min 7 (len - (6 + 7 * j)))
  simp only [Entry.appended, entryAfter, (fragment_succ_data can_id sid len stream j).2, hw,
    hdata]

/-- A continuation fragment handled on a table that holds the entry of its message:
the entry advances by 7 bytes, or the message is complete, its envelope is queued
and the entry is removed. -/
theorem HandleInput_continuation (decode : can_frame → CanHeader)
    (isFast : CanHeader → Bool) (now t : TimePoint) (d : Driver) (can_id : Nat)
    (sid : UInt8) (len : Nat) (stream : List UInt8) (header : CanHeader) (j : Nat)
    (hfast : isFast header = true)
    (hdec : decode (fragment can_id sid len stream (j + 1)) = header)
    (hentries : d.fast_messages.entries = [entryAfter t header sid len stream j])
    (hc : 6 + 7 * j < len) (hs : len ≤ stream.length)
    (hsid : sid.toNat % 32 + (j + 1) ≤ 31) :
    HandleInput decode isFast now d (fragment can_id sid len stream (j + 1)) =
      if 6 + 7 * (j + 1) < len then
        some { fast_messages :=
                 { d.fast_messages with
                   entries := [entryAfter t header sid len stream (j + 1)] }
               pending := d.pending }
      else
        some { fast_messages := { d.fast_messages with entries := [] }
               pending := d.pending ++ [fastEnvelope header (stream.take len)] } := by
  have hd0 := (fragment_succ_data can_id sid len stream j).1
  have hsidle : sid.toNat < 256 := sid.val.isLt
  have htop : sidTopBits ((fragment can_id sid len stream (j + 1)).data 0).toNat =
      sidTopBits sid.toNat := by
    rw [hd0, toNat_add_ofNat sid (j + 1) (by omega)]
    unfold sidTopBits
    omega
  have hmatch : Entry.isMatch header ((fragment can_id sid len stream (j + 1)).data 0)
      (entryAfter t header sid len stream j) = true := by
    simp only [Entry.isMatch, htop]
    simp [entryAfter, hc]
  have hfind : FindMatchingEntry d.fast_messages header
      ((fragment can_id sid len stream (j + 1)).data 0) = ((0 : Nat) : Int) := by
    simp [FindMatchingEntry, hentries, List.findIdx_cons, hmatch]
  have hne : ¬ (((0 : Nat) : Int) = kNotFound) := by decide
  have happ := AppendEntry_at d.fast_messages header
    (fragment can_id sid len stream (j + 1)).data 0 (entryAfter t header sid len stream j)
    (by simp [hentries])
  rw [appended_entryAfter t header can_id sid len stream j hc hs, hentries] at happ
  by_cases hlast : 6 + 7 * (j + 1) < len
  · have hcur : 6 + 7 * j + min 7 (len - (6 + 7 * j)) = 6 + 7 * (j + 1) := by omega
    rw [hcur] at happ
    have hready : decide (len ≤ 6 + 7 * (j + 1)) = false := decide_eq_false (by omega)
    rw [if_pos hlast]
    simp only [HandleInput, HandleInput.lookup, hdec, hfast, hfind, hne, if_true, if_false,
      happ, Option.map_some', Option.some_bind, hready]
    rfl
  · have hcur : 6 + 7 * j + min 7 (len - (6 + 7 * j)) = len := by omega
    rw [hcur] at happ
    have hready : decide (len ≤ len) = true := decide_eq_true (Nat.le_refl _)
    have hpos : (0 : Int) ≤ ((0 : Nat) : Int) := by decide
    have hpush := PushFastMsgFragment_eq
      { d.fast_messages with
        entries := [({ time_arrived := t, header := header, sid := sid.toNat,
                       expected_length := len, cursor := len,
                       data := stream.take len } : Entry)] }
      header ((0 : Nat) : Int) _ hpos rfl
      (by simp [List.length_take, Nat.min_eq_left hs])
    rw [if_neg hlast]
    simp only [HandleInput, HandleInput.lookup, hdec, hfast, hfind, hne, if_true, if_false,
      happ, Option.map_some', Option.some_bind, hready, hpos, List.set_cons_zero, hpush]
    simp [Remove, fastEnvelope, pgnBytes, List.length_take, Nat.min_eq_left hs]

/-- Handling a single frame. -/
theorem HandleInputs_singleton (decode : can_frame → CanHeader)
    (isFast : CanHeader → Bool) (d : Driver) (x : TimePoint × can_frame) :
    HandleInputs decode isFast d [x] = HandleInput decode isFast x.1 d x.2 := by
  show (HandleInput decode isFast x.1 d x.2).bind (fun d1 => some d1) = _
  cases HandleInput decode isFast x.1 d x.2 <;> rfl

/-- The state of the driver after the first fragment and `j` continuation fragments
that do not complete the message. -/
theorem HandleInputs_in_flight (decode : can_frame → CanHeader)
    (isFast : CanHeader → Bool) (clock : Nat → TimePoint) (d : Driver) (can_id : Nat)
    (sid : UInt8) (len : Nat) (stream : List UInt8) (header : CanHeader)
    (hfast : isFast header = true)
    (hdec : ∀ k, decode (fragment can_id sid len stream k) = header)
    (hempty : d.fast_messages.entries = []) (h6 : 6 < len) (h255 : len ≤ 255)
    (hs : len ≤ stream.length) (hsid : sid.toNat % 32 + fragmentCount len ≤ 31)
    (j : Nat) (hj : j < fragmentCount len) :
    HandleInputs decode isFast d (fragments can_id sid len stream clock (j + 1)) =
      some { fast_messages :=
               { d.fast_messages with
                 entries := [entryAfter (clock 0) header sid len stream j] }
             pending := d.pending } := by
  induction j with
  | zero =>
    have h1 : fragments can_id sid len stream clock (0 + 1) =
        [(clock 0, fragment can_id sid len stream 0)] := rfl
    rw [h1, HandleInputs_singleton]
    exact HandleInput_first_fragment decode isFast (clock 0) d can_id sid len stream header
      hfast (hdec 0) hempty h6 h255 hs
  | succ j ih =>
    have hn : fragmentCount len = (len - 6 + 6) / 7 := rfl
    rw [fragments_succ, HandleInputs_append, ih (by omega)]
    simp only [Option.some_bind]
    rw [HandleInputs_singleton]
    have hstep := HandleInput_continuation decode isFast (clock (j + 1)) (clock 0)
      { fast_messages :=
          { d.fast_messages with
            entries := [entryAfter (clock 0) header sid len stream j] }
        pending := d.pending }
      can_id sid len stream header j hfast (hdec (j + 1)) rfl (by omega) hs (by omega)
    rw [hstep, if_pos (by omega)]

/-- C15 fails when the frame counter in the low five bits of the sequence byte
carries into the three bits that `find_matching` compares.  With sequence byte
0x3F the second of the three fragments of a 20 byte message has sequence byte
0x40; it is taken for a first fragment announcing 6 bytes and an envelope is
queued before the last fragment.  With sequence byte 0x20 and 230 bytes, fragment
32 has sequence byte 0x40; after all 33 fragments no envelope is queued and the
table holds two entries. -/
theorem reassembly_fails_on_counter_carry :
    ((HandleInputs (fun _ => gnssHeader) (fun _ => true) idleDriver
        (fragments 0x0DF80507 0x3F 20 countingPayload (fun _ => 0) 2)).map
        (fun d => d.pending.length) = some 1 ∧
      2 < fragmentCount 20 + 1) ∧
    ((HandleInputs (fun _ => gnssHeader) (fun _ => true) idleDriver
        (fragments 0x0DF80507 0x20 230 (List.replicate 230 0xAA) (fun _ => 0) 33)).map
        (fun d => (d.pending.length,
          d.fast_messages.entries.map (fun e => (e.cursor, e.expected_length)))) =
        some (0, [(223, 230), (6, 170)]) ∧
      fragmentCount 230 + 1 = 33) := by
  decide

/-- C15, amended: for a fast message header, a payload of `6 < L ≤ 255` bytes and a
sequence byte whose low five bits do not carry over the fragments
(`sid mod 32 + number of continuation fragments ≤ 31`), fed fragment by fragment
to `HandleInput` on a table without entries: before the last fragment nothing is
queued and the one entry has cursor 6, 13, 20, ...; the last fragment queues
exactly one envelope with byte 12 = L and the first L bytes of the concatenated
fragment payloads, and leaves the table without entries. -/
theorem reassembly (decode : can_frame → CanHeader) (isFast : CanHeader → Bool)
    (clock : Nat → TimePoint) (d : Driver) (can_id : Nat) (sid : UInt8) (len : Nat)
    (stream : List UInt8) (header : CanHeader)
    (hfast : isFast header = true)
    (hdec : ∀ k, decode (fragment can_id sid len stream k) = header)
    (hempty : d.fast_messages.entries = []) (h6 : 6 < len) (h255 : len ≤ 255)
    (hs : len ≤ stream.length) (hsid : sid.toNat % 32 + fragmentCount len ≤ 31) :
    (∀ j, j < fragmentCount len →
      ∃ d1, HandleInputs decode isFast d (fragments can_id sid len stream clock (j + 1)) =
          some d1 ∧
        d1.pending = d.pending ∧
        d1.fast_messages.entries.map (fun e => (e.cursor, e.expected_length, e.data)) =
          [(6 + 7 * j, len, stream.take (6 + 7 * j))]) ∧
    (∃ d1 env,
      HandleInputs decode isFast d
          (fragments can_id sid len stream clock (fragmentCount len + 1)) = some d1 ∧
        d1.pending = d.pending ++ [env] ∧
        d1.fast_messages.entries = [] ∧
        env = fastEnvelope header (stream.take len) ∧
        env.length = len + 14 ∧
        env[12]?.map UInt8.toNat = some len ∧
        (env.drop 13).take len = stream.take len) := by
  have hn : fragmentCount len = (len - 6 + 6) / 7 := rfl
  constructor
  · intro j hj
    exact ⟨_, HandleInputs_in_flight decode isFast clock d can_id sid len stream header hfast
      hdec hempty h6 h255 hs hsid j hj, rfl, rfl⟩
  · have hprev := HandleInputs_in_flight decode isFast clock d can_id sid len stream header
      hfast hdec hempty h6 h255 hs hsid (fragmentCount len - 1) (by omega)
    have hsucc : fragmentCount len - 1 + 1 = fragmentCount len := by omega
    rw [hsucc] at hprev
    have hstep := HandleInput_continuation decode isFast (clock (fragmentCount len))
      (clock 0)
      { fast_messages :=
          { d.fast_messages with
            entries := [entryAfter (clock 0) header sid len stream (fragmentCount len - 1)] }
        pending := d.pending }
      can_id sid len stream header (fragmentCount len - 1) hfast
      (by rw [hsucc]; exact hdec _) rfl (by omega) hs (by omega)
    rw [hsucc, if_neg (by omega)] at hstep
    have hlen : (stream.take len).length = len := by
      rw [List.length_take]
      omega
    refine ⟨{ fast_messages := { d.fast_messages with entries := [] }
              pending := d.pending ++ [fastEnvelope header (stream.take len)] },
      fastEnvelope header (stream.take len), ?_, rfl, rfl, rfl, ?_, ?_, ?_⟩
    · rw [fragments_succ, HandleInputs_append, hprev]
      simp only [Option.some_bind]
      rw [HandleInputs_singleton]
      exact hstep
    · simp [fastEnvelope, pgnBytes, hlen]
    · simp only [fastEnvelope, pgnBytes, List.cons_append, List.nil_append,
        List.getElem?_cons_succ, List.getElem?_cons_zero, Option.map_some', hlen,
        toNat_ofNat_of_le len h255]
    · simp [fastEnvelope, pgnBytes, hlen]

/-- C15, amended, at PGN 129029, sequence bytes 0x20, 0x21, 0x22 and the 20 bytes
0, 1, ..., 19. -/
theorem reassembly_witness :
    (∀ j, j < fragmentCount 20 →
      ∃ d1, HandleInputs (fun _ => gnssHeader) (fun _ => true) idleDriver
            (fragments 0x0DF80507 0x20 20 countingPayload (fun _ => 0) (j + 1)) =
          some d1 ∧
        d1.pending = idleDriver.pending ∧
        d1.fast_messages.entries.map (fun e => (e.cursor, e.expected_length, e.data)) =
          [(6 + 7 * j, 20, countingPayload.take (6 + 7 * j))]) ∧
    (∃ d1 env,
      HandleInputs (fun _ => gnssHeader) (fun _ => true) idleDriver
          (fragments 0x0DF80507 0x20 20 countingPayload (fun _ => 0) (fragmentCount 20 + 1)) = some d1 ∧
        d1.pending = idleDriver.pending ++ [env] ∧
        d1.fast_messages.entries = [] ∧
        env = fastEnvelope gnssHeader (countingPayload.take 20) ∧
        env.length = 20 + 14 ∧
        env[12]?.map UInt8.toNat = some 20 ∧
        (env.drop 13).take 20 = countingPayload.take 20) :=
  reassembly (fun _ => gnssHeader) (fun _ => true) (fun _ => 0) idleDriver 0x0DF80507 0x20 20
    countingPayload gnssHeader rfl (fun _ => rfl) rfl (by decide) (by decide) (by decide)
    (by decide)

/-! ## Theorems: the line tokenizer -/

/-- The character codes of the hexadecimal digits. -/
theorem isHexDigit_range (c : UInt8) (h : isHexDigit c = true) :
    (48 ≤ c.toNat ∧ c.toNat ≤ 57) ∨ (65 ≤ c.toNat ∧ c.toNat ≤ 70) ∨
      (97 ≤ c.toNat ∧ c.toNat ≤ 102) := by
  unfold isHexDigit hexDigitValue at h
  by_cases h1 : 48 ≤ c.toNat ∧ c.toNat ≤ 57
  · exact Or.inl h1
  · by_cases h2 : 65 ≤ c.toNat ∧ c.toNat ≤ 70
    · exact Or.inr (Or.inl h2)
    · by_cases h3 : 97 ≤ c.toNat ∧ c.toNat ≤ 102
      · exact Or.inr (Or.inr h3)
      · simp [h1, h2, h3] at h

/-- A token that is a valid hexadecimal number: it is not empty and all its characters
are hexadecimal digits. -/
theorem hexNumber_some (token : List UInt8) (v : Nat) (h : hexNumber token = some v) :
    token ≠ [] ∧ (∀ c ∈ token, isHexDigit c = true) ∧ v = hexValue token := by
  unfold hexNumber at h
  split at h
  · next hc =>
    cases h
    exact ⟨hc.1, fun c hcm => List.all_eq_true.1 hc.2 c hcm, rfl⟩
  · cases h

/-- The function `strtoul` reads a valid hexadecimal number completely. -/
theorem strtoul16_of_hexNumber (token : List UInt8) (v : Nat)
    (h : hexNumber token = some v) : strtoul16 token = some (false, v) := by
  obtain ⟨hne, hall, hv⟩ := hexNumber_some token v h
  match token, hne with
  | c :: rest, _ =>
    have hc := isHexDigit_range c (hall c (List.mem_cons_self _ _))
    have hsp : isSpaceChar c = false := by
      unfold isSpaceChar
      exact decide_eq_false (by omega)
    have h1 : (c :: rest).dropWhile isSpaceChar = c :: rest := by
      simp [List.dropWhile, hsp]
    have h2 : splitSign (c :: rest) = (false, c :: rest) := by
      have n1 : ¬ c.toNat = 45 := by omega
      have n2 : ¬ c.toNat = 43 := by omega
      simp only [splitSign, n1, n2, if_false]
    have h3 : skipHexLead (c :: rest) = c :: rest := by
      match rest, hall with
      | [], _ => rfl
      | [_], _ => rfl
      | c1 :: c2 :: r, hall =>
        have hc1 := isHexDigit_range c1 (hall c1 (by simp))
        have n1 : ¬ (c.toNat = 48 ∧ (c1.toNat = 120 ∨ c1.toNat = 88) ∧
            isHexDigit c2 = true) := by omega
        simp only [skipHexLead, n1, if_false]
    have h4 : (c :: rest).takeWhile isHexDigit = c :: rest :=
      List.takeWhile_eq_self_iff.2 hall
    unfold strtoul16
    simp only [h1, h2, h3, h4]
    rw [if_neg (by simp), hv]

/-- The call `ToUInt` stores the value of a valid hexadecimal number below `2^32`. -/
theorem ToUInt_of_hexNumber (token : List UInt8) (v val : Nat)
    (h : hexNumber token = some v) (hv : v < 2 ^ 32) : ToUInt token val = v := by
  unfold ToUInt
  rw [strtoul16_of_hexNumber token v h]
  simp only [Bool.false_eq_true, if_false]
  rw [if_neg (by omega), if_neg (by omega)]

/-- The call `ToUInt` stores nothing for a valid hexadecimal number of `2^32` or more. -/
theorem ToUInt_of_large (token : List UInt8) (v val : Nat)
    (h : hexNumber token = some v) (hv : 2 ^ 32 ≤ v) : ToUInt token val = val := by
  unfold ToUInt
  rw [strtoul16_of_hexNumber token v h]
  simp only [Bool.false_eq_true, if_false]
  by_cases h64 : 2 ^ 64 ≤ v
  · rw [if_pos h64]
  · rw [if_neg h64, if_pos hv]

/-- The tokenizer returns the tokens of a sentence made of tokens joined by spaces. -/
theorem tokenize_intercalate (tokens : List (List UInt8))
    (h : ∀ t ∈ tokens, t ≠ [] ∧ (0x20 : UInt8) ∉ t) (hne : tokens ≠ []) :
    tokenize (List.intercalate [0x20] tokens) = tokens := by
  unfold tokenize
  rw [List.splitOn_intercalate _ (0x20 : UInt8) (fun t ht => (h t ht).2) hne]
  apply List.filter_eq_self.2
  intro t ht
  have := (h t ht).1
  cases t with
  | nil => exact absurd rfl this
  | cons a l => rfl

/-- The rounds of the loop over a run of bytes without LF: the bytes other than CR
are appended to `m_sentence`, and `HandleInput` is not called. -/
theorem foldl_onByte_of_no_lf (tui : Fin 8 → Nat) (raw : List UInt8) (st : LineState)
    (h : (0x0a : UInt8) ∉ raw) :
    raw.foldl (onByte tui) st =
      { st with m_sentence := st.m_sentence ++ raw.filter (fun b => !(b == 0x0d)) } := by
  induction raw generalizing st with
  | nil => simp
  | cons b raw ih =>
    have hb : b ≠ 0x0a := fun e => h (by simp [e])
    have hr : (0x0a : UInt8) ∉ raw := fun e => h (List.mem_cons_of_mem _ e)
    rw [List.foldl_cons, ih _ hr]
    by_cases hcr : b = 0x0d
    · subst hcr
      simp [onByte]
    · have hcr' : (b == 0x0d) = false := by simpa using hcr
      simp [onByte, hb, hcr, hcr', List.filter_cons]

/-- The loop `while (!m_circle->empty())` handles the stored bytes, oldest first, and
leaves the ring buffer empty. -/
theorem drainLoop_eq (tui : Fin 8 → Nat) (fuel : Nat) (c : circular_buffer)
    (st : LineState) (hwf : c.WellFormed) (hfuel : c.stored ≤ fuel) :
    (drainLoop tui fuel c st).2 = c.contents.foldl (onByte tui) st ∧
      (drainLoop tui fuel c st).1.empty = true := by
  induction fuel generalizing c st with
  | zero =>
    have h0 : c.stored = 0 := by omega
    have hc : c.contents = [] := List.length_eq_zero.1 (by rw [circular_buffer.contents_length, h0])
    exact ⟨by rw [hc]; rfl, (circular_buffer.empty_iff c hwf).2 h0⟩
  | succ fuel ih =>
    cases he : c.empty
    · have hcont := circular_buffer.contents_get c hwf he
      have hst : c.stored = (c.get).2.stored + 1 := by
        rw [← circular_buffer.contents_length c, hcont, List.length_cons,
          circular_buffer.contents_length]
      have := ih (c.get).2 (onByte tui st (c.get).1) (circular_buffer.get_wf c hwf) (by omega)
      simp only [drainLoop, he, Bool.false_eq_true, if_false]
      rw [hcont, List.foldl_cons]
      exact this
    · have h0 := (circular_buffer.empty_iff c hwf).1 he
      have hc : c.contents = [] :=
        List.length_eq_zero.1 (by rw [circular_buffer.contents_length, h0])
      have hd : drainLoop tui (fuel + 1) c st = (c, st) := by
        simp only [drainLoop, he, if_true]
      rw [hd, hc]
      exact ⟨rfl, he⟩

/-- A hexadecimal digit is neither a space nor a NUL. -/
theorem isHexDigit_ne_space (c : UInt8) (h : isHexDigit c = true) : c ≠ 0x20 := by
  intro e
  have := isHexDigit_range c h
  rw [e] at this
  revert this
  decide

/-- A valid hexadecimal number is a token: it is not empty and holds no space. -/
theorem hexNumber_token (token : List UInt8) (v : Nat) (h : hexNumber token = some v) :
    token ≠ [] ∧ (0x20 : UInt8) ∉ token := by
  obtain ⟨hne, hall, _⟩ := hexNumber_some token v h
  exact ⟨hne, fun hm => isHexDigit_ne_space _ (hall _ hm) rfl⟩

/-- The frame that the loop passes to `HandleInput` for a line without LF or NUL
before its end. -/
theorem drain_line (tui : Fin 8 → Nat) (c : circular_buffer) (st : LineState)
    (raw : List UInt8) (hwf : c.WellFormed) (hcont : c.contents = raw ++ [0x0a])
    (hsent : st.m_sentence = []) (hlf : (0x0a : UInt8) ∉ raw) (hnul : (0 : UInt8) ∉ raw) :
    (drain tui c st).2 =
        { m_sentence := []
          frame := parseFrame tui st.frame (raw.filter (fun b => !(b == 0x0d)))
          handled := st.handled ++
            [parseFrame tui st.frame (raw.filter (fun b => !(b == 0x0d)))] } ∧
      (drain tui c st).1.empty = true ∧
      cString (raw.filter (fun b => !(b == 0x0d))) = raw.filter (fun b => !(b == 0x0d)) := by
  obtain ⟨h1, h2⟩ := drainLoop_eq tui c.max_size_ c st hwf (circular_buffer.stored_le c hwf)
  refine ⟨?_, h2, ?_⟩
  · show (drainLoop tui c.max_size_ c st).2 = _
    rw [h1, hcont, List.foldl_append, foldl_onByte_of_no_lf tui raw st hlf, hsent]
    simp [onByte]
  · unfold cString
    apply List.takeWhile_eq_self_iff.2
    intro b hb
    have hb' : b ∈ raw := List.mem_of_mem_filter hb
    have : b ≠ 0 := fun e => hnul (e ▸ hb')
    simpa using this

/-- C19 fails for an identifier of nine hexadecimal digits: for the line
`t0 t1 100000000 01` the frame passed to `HandleInput` keeps the `can_id` 5 that
the local `frame` held, while the value of the identifier token is `2^32`. -/
theorem tokenizer_identifier_overflow :
    ((drain (fun _ => 7) (ringWith (asciiBytes "t0 t1 100000000 01\n")) staleState).2.handled.map
        (fun f => f.can_id)) = [5] ∧
      hexNumber (asciiBytes "100000000") = some (2 ^ 32) := by
  decide

/-- The frame built from a sentence `t0 t1 ID d0 ... d(k-1)` of valid tokens. -/
theorem parseFrame_valid (tui : Fin 8 → Nat) (frame : can_frame)
    (t0 t1 idTok : List UInt8) (dv : List (List UInt8 × Nat)) (idv : Nat)
    (ht0 : t0 ≠ [] ∧ (0x20 : UInt8) ∉ t0) (ht1 : t1 ≠ [] ∧ (0x20 : UInt8) ∉ t1)
    (hid : hexNumber idTok = some idv) (hidv : idv < 2 ^ 32)
    (hdv : ∀ p ∈ dv, hexNumber p.1 = some p.2 ∧ p.2 ≤ 255)
    (hc : cString (List.intercalate [0x20] (t0 :: t1 :: idTok :: dv.map Prod.fst)) =
      List.intercalate [0x20] (t0 :: t1 :: idTok :: dv.map Prod.fst)) :
    (parseFrame tui frame
        (List.intercalate [0x20] (t0 :: t1 :: idTok :: dv.map Prod.fst))).can_id = idv ∧
      ∀ i : Fin 8,
        (parseFrame tui frame
          (List.intercalate [0x20] (t0 :: t1 :: idTok :: dv.map Prod.fst))).data i =
          UInt8.ofNat ((dv.map Prod.snd).getD i.val 0) := by
  have htok : tokenize (List.intercalate [0x20] (t0 :: t1 :: idTok :: dv.map Prod.fst)) =
      t0 :: t1 :: idTok :: dv.map Prod.fst := by
    apply tokenize_intercalate _ _ (by simp)
    intro t ht
    simp only [List.mem_cons, List.mem_map] at ht
    rcases ht with rfl | rfl | rfl | ⟨p, hp, rfl⟩
    · exact ht0
    · exact ht1
    · exact hexNumber_token _ _ hid
    · exact hexNumber_token _ _ (hdv p hp).1
  unfold parseFrame
  simp only [hc, htok]
  refine ⟨?_, ?_⟩
  · show ToUInt idTok frame.can_id = idv
    exact ToUInt_of_hexNumber idTok idv _ hid hidv
  · intro i
    show (match (dv.map Prod.fst)[i.val]? with
      | some token => UInt8.ofNat (ToUInt token (tui i))
      | none => 0) = _
    rw [List.getElem?_map, List.getD_eq_getElem?_getD, List.getElem?_map]
    cases hp : dv[i.val]? with
    | none => rfl
    | some p =>
      have hmem := List.getElem?_mem hp
      simp only [Option.map_some', Option.getD_some]
      rw [ToUInt_of_hexNumber p.1 p.2 _ (hdv p hmem).1
        (Nat.lt_of_le_of_lt (hdv p hmem).2 (by decide))]

/-- C19, amended: for every received line `t0 t1 ID d0 ... d(k-1)`, `k ≤ 8`, of tokens
joined by single spaces, with `ID` a valid hexadecimal number below `2^32` and
every `d_i` a valid hexadecimal number of at most 0xFF, ended by LF (CR bytes
anywhere in the line are dropped; the line holds no NUL), the loop calls
`HandleInput` exactly once, with a frame whose `can_id` is the value of `ID` and
whose data bytes are the values of `d0 .. d(k-1)` followed by zeros; `t0`, `t1` and
the content of the uninitialised locals do not matter.  Data tokens after the
eighth are not read. -/
theorem tokenizer_valid_line (tui : Fin 8 → Nat) (c : circular_buffer) (st : LineState)
    (raw t0 t1 idTok : List UInt8) (dv : List (List UInt8 × Nat)) (idv : Nat)
    (hwf : c.WellFormed) (hcont : c.contents = raw ++ [0x0a])
    (hsent : st.m_sentence = []) (hlf : (0x0a : UInt8) ∉ raw) (hnul : (0 : UInt8) ∉ raw)
    (hraw : raw.filter (fun b => !(b == 0x0d)) =
      List.intercalate [0x20] (t0 :: t1 :: idTok :: dv.map Prod.fst))
    (ht0 : t0 ≠ [] ∧ (0x20 : UInt8) ∉ t0) (ht1 : t1 ≠ [] ∧ (0x20 : UInt8) ∉ t1)
    (hid : hexNumber idTok = some idv) (hidv : idv < 2 ^ 32)
    (hdv : ∀ p ∈ dv, hexNumber p.1 = some p.2 ∧ p.2 ≤ 255) :
    ∃ f, (drain tui c st).2.handled = st.handled ++ [f] ∧
      f.can_id = idv ∧
      (∀ i : Fin 8, (f.data i).toNat = (dv.map Prod.snd).getD i.val 0) ∧
      (∀ i : Fin 8, dv.length ≤ i.val → f.data i = 0) ∧
      (drain tui c st).2.m_sentence = [] ∧
      (drain tui c st).1.empty = true := by
  obtain ⟨h1, h2, h3⟩ := drain_line tui c st raw hwf hcont hsent hlf hnul
  rw [hraw] at h1 h3
  obtain ⟨hcan, hdata⟩ := parseFrame_valid tui st.frame t0 t1 idTok dv idv ht0 ht1 hid hidv
    hdv h3
  refine ⟨_, by rw [h1], hcan, ?_, ?_, by rw [h1], h2⟩
  · intro i
    rw [hdata i]
    show (dv.map Prod.snd).getD i.val 0 % 256 = _
    apply Nat.mod_eq_of_lt
    rw [List.getD_eq_getElem?_getD, List.getElem?_map]
    cases hp : dv[i.val]? with
    | none => decide
    | some p =>
      have := (hdv p (List.getElem?_mem hp)).2
      show p.2 < 256
      omega
  · intro i hi
    rw [hdata i, List.getD_eq_getElem?_getD, List.getElem?_eq_none (by simpa using hi)]
    rfl

/-- C19, amended, at the line `can0 rx 09F11223 01 0a FF` ended by CR LF. -/
theorem tokenizer_valid_line_witness :
    ∃ f, (drain (fun _ => 7) (ringWith (asciiBytes "can0 rx 09F11223 01 0a FF\r\n"))
          staleState).2.handled = staleState.handled ++ [f] ∧
      f.can_id = 0x09F11223 ∧
      (∀ i : Fin 8, (f.data i).toNat =
        (sampleDataTokens.map Prod.snd).getD i.val 0) ∧
      (∀ i : Fin 8, sampleDataTokens.length ≤ i.val → f.data i = 0) ∧
      (drain (fun _ => 7) (ringWith (asciiBytes "can0 rx 09F11223 01 0a FF\r\n"))
          staleState).2.m_sentence = [] ∧
      (drain (fun _ => 7) (ringWith (asciiBytes "can0 rx 09F11223 01 0a FF\r\n"))
          staleState).1.empty = true :=
  tokenizer_valid_line (fun _ => 7) (ringWith (asciiBytes "can0 rx 09F11223 01 0a FF\r\n"))
    staleState (asciiBytes "can0 rx 09F11223 01 0a FF\r") (asciiBytes "can0")
    (asciiBytes "rx") (asciiBytes "09F11223") sampleDataTokens 0x09F11223
    (circular_buffer.putAll_wf _ _ (circular_buffer.create_spec _ (by decide)).1)
    (by decide) rfl (by decide) (by decide) (by decide) (by decide) (by decide) (by decide)
    (by decide) (by decide)

/-- C20 fails for the line `t0 t1 zz 01 qq`: the identifier token `zz` and the data
token `qq` are not hexadecimal, and the frame passed to `HandleInput` has the
`can_id` 5 that the uninitialised local `frame` held and, as second data byte,
the 7 that the uninitialised local `tui` held; neither is zero.  `HandleInput` is
called once. -/
theorem tokenizer_invalid_tokens :
    ((drain (fun _ => 7) (ringWith (asciiBytes "t0 t1 zz 01 qq\n")) staleState).2.handled.map
        (fun f => (f.can_id, (f.data 0).toNat, (f.data 1).toNat, (f.data 2).toNat))) =
        [(5, 1, 7, 0)] ∧
      hexNumber (asciiBytes "zz") = none ∧ hexNumber (asciiBytes "qq") = none := by
  decide

/-- The same happens when the identifier token is missing: for the line `t0 t1` the
frame has the `can_id` 5 that the local `frame` held. -/
theorem tokenizer_missing_identifier :
    ((drain (fun _ => 7) (ringWith (asciiBytes "t0 t1\n")) staleState).2.handled.map
        (fun f => f.can_id)) = [5] := by
  decide

/-! ## Theorems: NMEA V4 tags -/

/-- The position found in a message without the character. -/
theorem Find_of_not_mem (msg : List Char) (ch : Char) (h : ch ∉ msg) :
    Find msg ch = wxNOT_FOUND := by
  unfold Find
  rw [if_neg]
  rw [List.indexOf_eq_length.2 h]
  exact Nat.lt_irrefl _

/-- The position found in a message whose first occurrence of the character comes
after the characters `pre`. -/
theorem Find_append_cons (pre post : List Char) (ch : Char) (h : ch ∉ pre) :
    Find (pre ++ ch :: post) ch = (pre.length : Int) := by
  have hi : (pre ++ ch :: post).indexOf ch = pre.length := by
    rw [List.indexOf_append_of_not_mem h, List.indexOf_cons_self]
    rfl
  unfold Find
  rw [hi, if_pos (by simp)]

/-- The result for a message with a single backslash: nothing is removed when the
backslash is the last character, and the first character of the message is
removed otherwise. -/
theorem ProcessNMEA4Tags_single_backslash (pre post : List Char)
    (hpre : backslash ∉ pre) (hpost : backslash ∉ post) :
    ProcessNMEA4Tags (pre ++ backslash :: post) =
      if post = [] then pre ++ backslash :: post
      else (pre ++ backslash :: post).drop 1 := by
  have h1 := Find_append_cons pre post backslash hpre
  have hlen : ((pre ++ backslash :: post).length : Int) = pre.length + 1 + post.length := by
    simp
    omega
  have hmid : Mid (pre ++ backslash :: post) ((pre.length : Int) + 1) = post := by
    unfold Mid
    have : ((pre.length : Int) + 1).toNat = pre.length + 1 := Int.toNat_ofNat (pre.length + 1)
    rw [this, List.drop_append]
    rfl
  unfold ProcessNMEA4Tags
  simp only [h1, hlen, hmid, Find_of_not_mem post backslash hpost]
  have hnf : ¬ (wxNOT_FOUND = (pre.length : Int)) := by
    unfold wxNOT_FOUND
    omega
  rw [if_neg hnf]
  cases post with
  | nil =>
    simp only [List.length_nil, Nat.cast_zero, if_true]
    rw [if_neg (by omega)]
  | cons c post =>
    have h2 : (pre.length : Int) < (pre.length : Int) + 1 + ((c :: post).length : Int) - 1 := by
      simp only [List.length_cons, Nat.cast_add, Nat.cast_one]
      omega
    have h3 : wxNOT_FOUND ≠ wxNOT_FOUND + 1 := by decide
    have h4 : wxNOT_FOUND + 1 < (pre.length : Int) + 1 + ((c :: post).length : Int) - 1 := by
      simp only [List.length_cons, Nat.cast_add, Nat.cast_one]
      unfold wxNOT_FOUND
      omega
    rw [if_pos h2, if_pos h3, if_pos h4, if_neg (by simp)]
    rfl

/-- C22: for every message `\ tag \ rest` whose tag holds no backslash and whose rest
is not empty, `ProcessNMEA4Tags` returns exactly `rest`; and every message
without a backslash is returned unchanged. -/
theorem ProcessNMEA4Tags_strips_leading_tag (tag rest msg : List Char)
    (htag : backslash ∉ tag) (hrest : rest ≠ []) (hmsg : backslash ∉ msg) :
    ProcessNMEA4Tags (backslash :: (tag ++ backslash :: rest)) = rest ∧
      ProcessNMEA4Tags msg = msg := by
  constructor
  · have h1 : Find (backslash :: (tag ++ backslash :: rest)) backslash = 0 := by
      have := Find_append_cons [] (tag ++ backslash :: rest) backslash (by simp)
      simpa using this
    have hmid1 : Mid (backslash :: (tag ++ backslash :: rest)) ((0 : Int) + 1) =
        tag ++ backslash :: rest := rfl
    have h2 := Find_append_cons tag rest backslash htag
    have hlen : ((backslash :: (tag ++ backslash :: rest)).length : Int) =
        tag.length + 2 + rest.length := by
      simp
      omega
    have hpos : 0 < rest.length := List.length_pos.2 hrest
    have hmid2 : Mid (backslash :: (tag ++ backslash :: rest)) ((tag.length : Int) + 1 + 1) =
        rest := by
      unfold Mid
      have : ((tag.length : Int) + 1 + 1).toNat = tag.length + 1 + 1 :=
        Int.toNat_ofNat (tag.length + 1 + 1)
      rw [this, List.drop_succ_cons, List.drop_append]
      rfl
    unfold ProcessNMEA4Tags
    simp only [h1, hmid1, h2, hlen, hmid2]
    rw [if_neg (by decide), if_pos (by omega),
      if_pos (by unfold wxNOT_FOUND; omega), if_pos (by omega)]
  · unfold ProcessNMEA4Tags
    simp only [Find_of_not_mem msg backslash hmsg, if_true]

/-- C22 at the message `\s:a,c:1*5C\$GPGGA,1` and at the message `$GPGGA,1`. -/
theorem ProcessNMEA4Tags_strips_leading_tag_witness :
    ProcessNMEA4Tags (backslash :: (tagText "s:a,c:1*5C" ++ backslash :: tagText "$GPGGA,1")) =
        tagText "$GPGGA,1" ∧
      ProcessNMEA4Tags (tagText "$GPGGA,1") = tagText "$GPGGA,1" :=
  ProcessNMEA4Tags_strips_leading_tag (tagText "s:a,c:1*5C") (tagText "$GPGGA,1")
    (tagText "$GPGGA,1") (by decide) (by decide) (by decide)

/-- C25 fails for the message `\s:a,c:1*5C$GPGGA,1`, a tag block whose closing
backslash is missing, and for the message `a\bc`: each holds exactly one
backslash, and the result is the message without its first character. -/
theorem ProcessNMEA4Tags_drops_first_char :
    ProcessNMEA4Tags (tagText "/s:a,c:1*5C$GPGGA,1") = tagText "s:a,c:1*5C$GPGGA,1" ∧
      (tagText "/s:a,c:1*5C$GPGGA,1").count backslash = 1 ∧
      ProcessNMEA4Tags (tagText "/s:a,c:1*5C$GPGGA,1") ≠ tagText "/s:a,c:1*5C$GPGGA,1" ∧
      ProcessNMEA4Tags (tagText "a/bc") = tagText "/bc" ∧
      (tagText "a/bc").count backslash = 1 ∧
      ProcessNMEA4Tags (tagText "a/bc") ≠ tagText "a/bc" := by
  decide

/-! ## Theorems: the two encoders side by side -/

/-- C23: for every header and every frame, the envelope that `PushFastMsgFragment`
returns for an entry with `expected_length = 8` whose first eight buffered bytes
are `frame.data[0..7]` is `PushCompleteMsg(header, frame)`, byte for byte; byte 1
of that envelope is 0x13 = 8 + 11. -/
theorem encoders_agree (m : FastMessageMap) (header : CanHeader) (position p : Int)
    (frame : can_frame) (e : Entry) (hpos : 0 ≤ position)
    (he : m.entries[position.toNat]? = some e) (hlen : e.expected_length = 8)
    (hdata : e.data.take 8 = List.ofFn frame.data) :
    PushFastMsgFragment m header position =
        some (PushCompleteMsg header p frame, Remove m position) ∧
      (PushCompleteMsg header p frame)[1]? = some 0x13 ∧
      (0x13 : UInt8) = UInt8.ofNat (8 + 11) := by
  have hbuf : e.expected_length ≤ e.data.length := by
    have h := congrArg List.length hdata
    rw [List.length_take, List.length_ofFn] at h
    omega
  have hf := ofFn_frame_data frame.data
  simp only [CAN_MAX_DLEN] at hf
  refine ⟨?_, rfl, rfl⟩
  rw [PushFastMsgFragment_eq m header position e hpos he hbuf, hlen, hdata]
  simp only [PushCompleteMsg, pgnBytes, CAN_MAX_DLEN, hf]
  rfl

/-- C23 at the frame with the data bytes 1 to 8 and the header of PGN 127250. -/
theorem encoders_agree_witness :
    PushFastMsgFragment (frameMap headingHeader countingFrame) headingHeader 0 =
        some (PushCompleteMsg headingHeader (-1) countingFrame,
          Remove (frameMap headingHeader countingFrame) 0) ∧
      (PushCompleteMsg headingHeader (-1) countingFrame)[1]? = some 0x13 ∧
      (0x13 : UInt8) = UInt8.ofNat (8 + 11) :=
  encoders_agree (frameMap headingHeader countingFrame) headingHeader 0 (-1) countingFrame
    (frameEntry headingHeader countingFrame) (by decide) rfl rfl rfl

/-! ## Theorems: reads of a posted envelope -/

/-- The envelope of a single frame has 22 bytes and byte 12 equal to 8. -/
theorem PushCompleteMsg_length (header : CanHeader) (p : Int) (frame : can_frame) :
    (PushCompleteMsg header p frame).length = 22 ∧
      (PushCompleteMsg header p frame)[12]? = some 8 := by
  simp only [PushCompleteMsg, ofFn_frame_data, pgnBytes]
  exact ⟨rfl, rfl⟩

/-- The envelope that `PushFastMsgFragment` returns, when there is one: 14 bytes more
than the expected length of the entry, which is written to byte 12. -/
theorem PushFastMsgFragment_length (m m1 : FastMessageMap) (header : CanHeader)
    (position : Int) (env : List UInt8)
    (h : PushFastMsgFragment m header position = some (env, m1)) :
    ∃ e, m.entries[position.toNat]? = some e ∧
      env.length = e.expected_length + 14 ∧
      env[12]? = some (UInt8.ofNat e.expected_length) := by
  unfold PushFastMsgFragment at h
  split at h
  · split at h
    · cases h
    · next e he =>
      split at h
      · next hle =>
        cases h
        refine ⟨e, he, ?_, ?_⟩
        · simp [pgnBytes, List.length_take, Nat.min_eq_left hle]
        · simp [pgnBytes]
      · cases h
  · cases h

/-- The reads of `handle_N2K_MSG` and `PayloadToName` on a payload of 14 or more
bytes are all inside the payload. -/
theorem reads_in_bounds {Addr : Type} (GetAddress : Nat → Addr)
    (listener : List (Nmea2000Msg Addr)) (env : List UInt8) (h : 14 ≤ env.length) :
    (extractPgn env).isSome = true ∧ (PayloadToName env).isSome = true ∧
      (handle_N2K_MSG GetAddress listener env).isSome = true := by
  have h3 : env[3]? = some (env.get ⟨3, by omega⟩) := List.getElem?_eq_getElem _
  have h4 : env[4]? = some (env.get ⟨4, by omega⟩) := List.getElem?_eq_getElem _
  have h5 : env[5]? = some (env.get ⟨5, by omega⟩) := List.getElem?_eq_getElem _
  have hp : (extractPgn env).isSome = true := by
    simp only [extractPgn, h3, h4, h5]
    rfl
  have hn : (PayloadToName env).isSome = true := by
    unfold PayloadToName
    rw [if_pos (by omega)]
    rfl
  refine ⟨hp, hn, ?_⟩
  obtain ⟨pgn, hpgn⟩ := Option.isSome_iff_exists.1 hp
  obtain ⟨name, hname⟩ := Option.isSome_iff_exists.1 hn
  simp only [handle_N2K_MSG, hpgn, hname, Option.some_bind, Option.map_some']
  rfl

/-- What `HandleInput` adds to the pending events: nothing, or one envelope of at
least 14 bytes. -/
theorem HandleInput_pending (decode : can_frame → CanHeader) (isFast : CanHeader → Bool)
    (now : TimePoint) (d d1 : Driver) (frame : can_frame)
    (h : HandleInput decode isFast now d frame = some d1) :
    ∃ posted, d1.pending = d.pending ++ posted ∧ posted.length ≤ 1 ∧
      ∀ env ∈ posted, 14 ≤ env.length := by
  simp only [HandleInput] at h
  cases hl : HandleInput.lookup isFast now d.fast_messages (decode frame) frame with
  | none =>
    rw [hl] at h
    cases h
  | some r =>
    rw [hl] at h
    simp only [Option.some_bind] at h
    split at h
    · split at h
      · cases hp : PushFastMsgFragment r.1 (decode frame) r.2.1 with
        | none =>
          rw [hp] at h
          cases h
        | some out =>
          rw [hp] at h
          cases h
          obtain ⟨e, _, hlen, _⟩ :=
            PushFastMsgFragment_length r.1 out.2 (decode frame) r.2.1 out.1 hp
          refine ⟨[out.1], rfl, Nat.le_refl _, ?_⟩
          intro env henv
          rw [List.mem_singleton.1 henv, hlen]
          omega
      · cases h
        refine ⟨[PushCompleteMsg (decode frame) r.2.1 frame], rfl, Nat.le_refl _, ?_⟩
        intro env henv
        rw [List.mem_singleton.1 henv, (PushCompleteMsg_length _ _ _).1]
        decide
    · cases h
      exact ⟨[], (List.append_nil _).symm, Nat.zero_le _, fun env henv => by cases henv⟩

/-- C24: the envelope of `PushCompleteMsg` has as many bytes as its byte 12 says plus
14; so has the envelope `PushFastMsgFragment` returns for an entry at a valid index
with `expected_length ≤ 255` and at least `expected_length` buffered bytes; and
every envelope that a call of `HandleInput` adds to the pending events has at least
14 bytes, so that the reads `at(3)`, `at(4)`, `at(5)` of `handle_N2K_MSG` and the 8
byte copy of `PayloadToName` have a result. -/
theorem envelope_reads_in_bounds {Addr : Type} (GetAddress : Nat → Addr)
    (listener : List (Nmea2000Msg Addr)) (header : CanHeader) (p : Int)
    (single : can_frame) (m : FastMessageMap) (fast : CanHeader) (position : Int)
    (e : Entry)
    (decode : can_frame → CanHeader) (isFast : CanHeader → Bool) (now : TimePoint)
    (d d1 : Driver) (frame : can_frame)
    (hpos : 0 ≤ position) (he : m.entries[position.toNat]? = some e)
    (h255 : e.expected_length ≤ 255) (hdata : e.expected_length ≤ e.data.length)
    (h : HandleInput decode isFast now d frame = some d1) :
    (∃ b, (PushCompleteMsg header p single)[12]? = some b ∧
        (PushCompleteMsg header p single).length = b.toNat + 14 ∧
        14 ≤ (PushCompleteMsg header p single).length) ∧
      (∃ env m1 b, PushFastMsgFragment m fast position = some (env, m1) ∧
        env[12]? = some b ∧ env.length = b.toNat + 14 ∧ 14 ≤ env.length) ∧
      (∃ posted, d1.pending = d.pending ++ posted ∧
        ∀ env ∈ posted, 14 ≤ env.length ∧
          (env[3]?).isSome = true ∧ (env[4]?).isSome = true ∧ (env[5]?).isSome = true ∧
          (env.take 8).length = 8 ∧
          (extractPgn env).isSome = true ∧ (PayloadToName env).isSome = true ∧
          (handle_N2K_MSG GetAddress listener env).isSome = true) := by
  refine ⟨?_, ?_, ?_⟩
  · obtain ⟨h1, h2⟩ := PushCompleteMsg_length header p single
    exact ⟨8, h2, h1, by rw [h1]; decide⟩
  · have hpush := PushFastMsgFragment_eq m fast position e hpos he hdata
    obtain ⟨e1, he1, hlen, h12⟩ :=
      PushFastMsgFragment_length m _ fast position _ hpush
    have hee : e1 = e := Option.some.inj (he1.symm.trans he)
    subst hee
    refine ⟨_, _, UInt8.ofNat e1.expected_length, hpush, h12, ?_, ?_⟩
    · rw [hlen, toNat_ofNat_of_le _ h255]
    · rw [hlen]
      omega
  · obtain ⟨posted, hp, _, hall⟩ := HandleInput_pending decode isFast now d d1 frame h
    refine ⟨posted, hp, ?_⟩
    intro env henv
    have h14 := hall env henv
    obtain ⟨r1, r2, r3⟩ := reads_in_bounds GetAddress listener env h14
    refine ⟨h14, ?_, ?_, ?_, ?_, r1, r2, r3⟩
    · rw [List.getElem?_eq_getElem (by omega : 3 < env.length)]
      rfl
    · rw [List.getElem?_eq_getElem (by omega : 4 < env.length)]
      rfl
    · rw [List.getElem?_eq_getElem (by omega : 5 < env.length)]
      rfl
    · rw [List.length_take]
      omega

/-- C24 at the single frame envelope of PGN 127250, at the envelope of a 20 byte entry,
and at the call of `HandleInput` that completes the 20 byte message of
`inFlightDriver`. -/
theorem envelope_reads_in_bounds_witness :
    (∃ b, (PushCompleteMsg headingHeader (-1) countingFrame)[12]? = some b ∧
        (PushCompleteMsg headingHeader (-1) countingFrame).length = b.toNat + 14 ∧
        14 ≤ (PushCompleteMsg headingHeader (-1) countingFrame).length) ∧
      (∃ env m1 b, PushFastMsgFragment (filledMap 20) gnssHeader 0 = some (env, m1) ∧
        env[12]? = some b ∧ env.length = b.toNat + 14 ∧ 14 ≤ env.length) ∧
      (∃ posted, completedDriver.pending = inFlightDriver.pending ++ posted ∧
        ∀ env ∈ posted, 14 ≤ env.length ∧
          (env[3]?).isSome = true ∧ (env[4]?).isSome = true ∧ (env[5]?).isSome = true ∧
          (env.take 8).length = 8 ∧
          (extractPgn env).isSome = true ∧ (PayloadToName env).isSome = true ∧
          (handle_N2K_MSG (fun name => name) [] env).isSome = true) :=
  envelope_reads_in_bounds (fun name => name) [] headingHeader (-1) countingFrame
    (filledMap 20) gnssHeader 0 (filledEntry 20) (fun _ => gnssHeader) (fun _ => true) 42
    inFlightDriver completedDriver lastFragment (by decide) rfl (by decide) (by decide) rfl

/-! ## Theorems: garbage collection and frame handling -/

/-- The bookkeeping fields of the table after the first half of `HandleInput`. -/
theorem lookup_bookkeeping (isFast : CanHeader → Bool) (now : TimePoint)
    (m : FastMessageMap) (header : CanHeader) (frame : can_frame)
    (r : FastMessageMap × Int × Bool)
    (h : HandleInput.lookup isFast now m header frame = some r) :
    r.1.last_gc_run = m.last_gc_run ∧ r.1.dropped_frames = m.dropped_frames ∧
      r.1.dropped_frame_time = m.dropped_frame_time := by
  unfold HandleInput.lookup at h
  split at h
  · rcases FindMatchingEntry_spec m header (frame.data 0) with hf | ⟨i, e, hi, he, _⟩
    · simp only [hf, if_true, InsertEntry_AddNewEntry, Option.map_some',
        Option.some.injEq] at h
      subst h
      exact ⟨rfl, rfl, rfl⟩
    · have hne : ¬ ((i : Int) = kNotFound) := by
        have : (0 : Int) ≤ (i : Int) := Int.natCast_nonneg _
        unfold kNotFound
        omega
      simp only [hi, hne, if_false, AppendEntry_at m header frame.data i e he,
        Option.map_some', Option.some.injEq] at h
      subst h
      exact ⟨rfl, rfl, rfl⟩
  · cases h
    exact ⟨rfl, rfl, rfl⟩

/-- No call of `HandleInput` changes `last_gc_run`, `dropped_frames` or
`dropped_frame_time`: the fields that only a collection writes. -/
theorem HandleInput_bookkeeping (decode : can_frame → CanHeader)
    (isFast : CanHeader → Bool) (now : TimePoint) (d d1 : Driver) (frame : can_frame)
    (h : HandleInput decode isFast now d frame = some d1) :
    d1.fast_messages.last_gc_run = d.fast_messages.last_gc_run ∧
      d1.fast_messages.dropped_frames = d.fast_messages.dropped_frames ∧
      d1.fast_messages.dropped_frame_time = d.fast_messages.dropped_frame_time := by
  simp only [HandleInput] at h
  cases hl : HandleInput.lookup isFast now d.fast_messages (decode frame) frame with
  | none =>
    rw [hl] at h
    cases h
  | some r =>
    have hr := lookup_bookkeeping isFast now d.fast_messages (decode frame) frame r hl
    rw [hl] at h
    simp only [Option.some_bind] at h
    split at h
    · split at h
      · cases hp : PushFastMsgFragment r.1 (decode frame) r.2.1 with
        | none =>
          rw [hp] at h
          cases h
        | some out =>
          rw [hp] at h
          cases h
          have := PushFastMsgFragment_table r.1 out.2 (decode frame) r.2.1 out.1 hp
          show out.2.last_gc_run = _ ∧ out.2.dropped_frames = _ ∧
            out.2.dropped_frame_time = _
          rw [this]
          obtain ⟨b1, b2, b3⟩ := Remove_bookkeeping r.1 r.2.1
          exact ⟨b1.trans hr.1, b2.trans hr.2.1, b3.trans hr.2.2⟩
      · cases h
        exact hr
    · cases h
      exact hr

/-- No entry is found for a header whose PGN no entry of the table has. -/
theorem FindMatchingEntry_of_new_pgn (m : FastMessageMap) (header : CanHeader)
    (sid : UInt8) (h : ∀ e ∈ m.entries, e.header.pgn ≠ header.pgn) :
    FindMatchingEntry m header sid = kNotFound := by
  have hidx : m.entries.findIdx (Entry.isMatch header sid) = m.entries.length := by
    rw [List.findIdx_eq_length]
    intro e he
    simp [Entry.isMatch, h e he]
  unfold FindMatchingEntry
  simp only [hidx]
  exact if_neg (Nat.lt_irrefl _)

/-- The first fragment of a fast message of more than 6 bytes whose PGN no entry of
the table has: an entry is added, nothing is queued. -/
theorem HandleInput_opens_entry (decode : can_frame → CanHeader)
    (isFast : CanHeader → Bool) (now : TimePoint) (d : Driver) (frame : can_frame)
    (hfast : isFast (decode frame) = true) (hlen : 6 < (frame.data 1).toNat)
    (hnew : ∀ e ∈ d.fast_messages.entries, e.header.pgn ≠ (decode frame).pgn) :
    HandleInput decode isFast now d frame =
      some { fast_messages :=
               { d.fast_messages with
                 entries := d.fast_messages.entries ++
                   [(Entry.fresh now).inserted (decode frame) frame.data] }
             pending := d.pending } := by
  have hfind := FindMatchingEntry_of_new_pgn d.fast_messages (decode frame)
    (frame.data 0) hnew
  have hready : decide ((frame.data 1).toNat ≤ 6) = false :=
    decide_eq_false (by omega)
  simp only [HandleInput, HandleInput.lookup, hfast, hfind, if_true,
    InsertEntry_AddNewEntry, Option.map_some', Option.some_bind, hready]
  rfl

/-- A stream of first fragments of fast messages with pairwise different PGNs, none
of which is ever completed: every frame adds an entry, whatever the clock reads
when it is handled, and `last_gc_run` stays as it was. -/
theorem HandleInputs_open_messages (decode : can_frame → CanHeader)
    (isFast : CanHeader → Bool) (inputs : List (TimePoint × can_frame)) :
    ∀ d : Driver,
      (∀ x ∈ inputs, isFast (decode x.2) = true) →
      (∀ x ∈ inputs, 6 < (x.2.data 1).toNat) →
      (inputs.map fun x => (decode x.2).pgn).Nodup →
      (∀ x ∈ inputs, ∀ e ∈ d.fast_messages.entries, e.header.pgn ≠ (decode x.2).pgn) →
      ∃ d1, HandleInputs decode isFast d inputs = some d1 ∧
        d1.fast_messages.entries.length = d.fast_messages.entries.length + inputs.length ∧
        d1.fast_messages.last_gc_run = d.fast_messages.last_gc_run ∧
        d1.pending = d.pending := by
  induction inputs with
  | nil =>
    intro d _ _ _ _
    exact ⟨d, rfl, rfl, rfl, rfl⟩
  | cons x rest ih =>
    intro d hfast hlen hpgn hnew
    have hstep := HandleInput_opens_entry decode isFast x.1 d x.2
      (hfast x (List.mem_cons_self _ _)) (hlen x (List.mem_cons_self _ _))
      (hnew x (List.mem_cons_self _ _))
    rw [List.map_cons, List.nodup_cons] at hpgn
    obtain ⟨d1, h1, h2, h3, h4⟩ := ih
      { fast_messages :=
          { d.fast_messages with
            entries := d.fast_messages.entries ++
              [(Entry.fresh x.1).inserted (decode x.2) x.2.data] }
        pending := d.pending }
      (fun y hy => hfast y (List.mem_cons_of_mem _ hy))
      (fun y hy => hlen y (List.mem_cons_of_mem _ hy))
      hpgn.2
      (by
        intro y hy e he
        rcases List.mem_append.1 he with he1 | he1
        · exact hnew y (List.mem_cons_of_mem _ hy) e he1
        · rw [List.mem_singleton.1 he1]
          intro heq
          apply hpgn.1
          rw [List.mem_map]
          exact ⟨y, hy, heq.symm⟩)
    refine ⟨d1, ?_, ?_, h3, h4⟩
    · show (HandleInput decode isFast x.1 d x.2).bind _ = some d1
      rw [hstep]
      exact h1
    · rw [h2]
      simp only [List.length_append, List.length_cons, List.length_nil]
      omega

/-- C21 fails for the frame `countingFrame` of the single frame PGN 127250, handled 200
seconds after the last collection by a driver whose table holds 101 entries that
are all 200 seconds old: `HandleInput` queues the envelope and returns the table as
it was, with its 101 expired entries and the old `last_gc_run`, whereas `CheckGc`
at that time returns a table without entries whose `last_gc_run` is that time. -/
theorem HandleInput_never_collects :
    HandleInput (fun _ => headingHeader) (fun _ => false) (200 * ticksPerSecond)
        crowdedDriver countingFrame =
        some { fast_messages := crowdedDriver.fast_messages
               pending := [PushCompleteMsg headingHeader (-1) countingFrame] } ∧
      crowdedDriver.fast_messages.entries.length = 101 ∧
      crowdedDriver.fast_messages.entries.length > kGcThreshold ∧
      ((200 * ticksPerSecond : Nat) : Int) - (crowdedDriver.fast_messages.last_gc_run : Int) >
        (kGcInterval : Int) ∧
      (∀ e ∈ crowdedDriver.fast_messages.entries,
        e.IsExpired (200 * ticksPerSecond) = true) ∧
      (CheckGc crowdedDriver.fast_messages (200 * ticksPerSecond) (200 * ticksPerSecond)
        (200 * ticksPerSecond)).entries = [] ∧
      (CheckGc crowdedDriver.fast_messages (200 * ticksPerSecond) (200 * ticksPerSecond)
        (200 * ticksPerSecond)).last_gc_run = 200 * ticksPerSecond ∧
      crowdedDriver.fast_messages.last_gc_run = 0 := by
  have hexp : ∀ e ∈ crowdedDriver.fast_messages.entries,
      e.IsExpired (200 * ticksPerSecond) = true := by
    intro e he
    have h : e = arrivedAt 0 := by
      simp only [crowdedDriver, crowdedMap] at he
      exact List.eq_of_mem_replicate he
    subst h
    decide
  have hlen : crowdedDriver.fast_messages.entries.length = 101 := by
    simp [crowdedDriver, crowdedMap]
  have hgc : CheckGc crowdedDriver.fast_messages (200 * ticksPerSecond)
      (200 * ticksPerSecond) (200 * ticksPerSecond) =
      { (GarbageCollector crowdedDriver.fast_messages (200 * ticksPerSecond)).1 with
        last_gc_run := 200 * ticksPerSecond } := by
    unfold CheckGc
    exact if_pos (Or.inr (by rw [hlen]; decide))
  refine ⟨HandleInput_of_not_fast _ _ _ _ _ rfl, hlen, by rw [hlen]; decide, by decide,
    hexp, ?_, by rw [hgc], rfl⟩
  rw [hgc]
  show (GarbageCollector crowdedDriver.fast_messages (200 * ticksPerSecond)).1.entries = []
  rw [(GarbageCollector_eq _ _).1, List.filter_eq_nil_iff]
  intro e he
  simp [hexp e he]

/-- Under a stream of first fragments of `n` different fast messages that are never
completed the table ends with `n` entries, for every `n` and whatever the clock
reads when each frame is handled; `last_gc_run` is never written. -/
theorem table_grows_without_bound (n : Nat) (clock : Nat → TimePoint) :
    ∃ d1, HandleInputs pgnFromId (fun _ => true) idleDriver (openFragments clock n) = some d1 ∧
      d1.fast_messages.entries.length = n ∧
      d1.fast_messages.last_gc_run = idleDriver.fast_messages.last_gc_run ∧
      d1.pending = [] := by
  obtain ⟨d1, h1, h2, h3, h4⟩ := HandleInputs_open_messages pgnFromId (fun _ => true)
    (openFragments clock n) idleDriver
    (fun _ _ => rfl)
    (by
      intro x hx
      obtain ⟨k, _, rfl⟩ := List.mem_map.1 hx
      show 6 < (20 : UInt8).toNat
      decide)
    (by
      have hmap : ((openFragments clock n).map fun x => (pgnFromId x.2).pgn) =
          (List.range n).map Int.ofNat := by
        rw [openFragments, List.map_map]
        rfl
      rw [hmap]
      exact (List.nodup_range n).map fun _ _ h => Int.ofNat.inj h)
    (by
      intro x _ e he
      cases he)
  refine ⟨d1, h1, ?_, h3, h4⟩
  rw [h2]
  simp [idleDriver, emptyMap, openFragments]

end OpenCPN
